import Mathlib

/-!
Verification of the chunking/section-merging engine of the `context-mcp`
repository.  Document text is modelled as `List Char` (JavaScript strings are
sequences of UTF-16 code units; for the ASCII inputs relevant here the two
coincide, and `.length` below is the code-unit count the source compares
against the `ChunkConfig` sizes).  Each definition is a direct shallow
embedding of the TypeScript function of the same name; stateful loops become
explicit folds or structural recursions, and in-place mutation of the section
tree in `parseIntoTree` becomes attach-on-pop of completed stack frames,
which produces the same final tree.
-/

set_option maxRecDepth 20000

namespace CtxMCP

/-- Document text: a sequence of characters. -/
abbrev Str := List Char

/-- The backtick character (written via its code point). -/
def tick : Char := Char.ofNat 96

/-- A markdown code fence: three backticks. -/
def fence : Str := [tick, tick, tick]

/-- `findSub pat s` is the least index at which `pat` occurs in `s`
(the index JavaScript `String.indexOf` / a regex scan would report),
or `none` when `pat` does not occur. -/
def findSub (pat : Str) : Str → Option Nat
  | [] => if pat.isPrefixOf ([] : Str) then some 0 else none
  | c :: t =>
    if pat.isPrefixOf (c :: t) then some 0
    else (findSub pat t).map (· + 1)

theorem findSub_nil_of_ne {pat : Str} (h : pat ≠ []) : findSub pat [] = none := by
  cases pat with
  | nil => exact absurd rfl h
  | cons c t => simp [findSub, List.isPrefixOf]

theorem fence_ne_nil : fence ≠ [] := by simp [fence]

theorem findSub_some_ne_nil {pat s : Str} {a : Nat} (hp : pat ≠ [])
    (h : findSub pat s = some a) : s ≠ [] := by
  intro hs
  subst hs
  rw [findSub_nil_of_ne hp] at h
  exact Option.noConfusion h

/-- Characterisation: `findSub pat s = some a` means `pat` is a prefix of
`s.drop a` and of no earlier suffix. -/
theorem findSub_some_iff {pat s : Str} {a : Nat} :
    findSub pat s = some a ↔
      (pat <+: s.drop a ∧ ∀ i < a, ¬ pat <+: s.drop i) := by
  induction s generalizing a with
  | nil =>
    simp only [findSub, List.drop_nil, List.prefix_nil]
    by_cases hp : pat = []
    · subst hp
      simp only [List.isPrefixOf_iff_prefix, List.prefix_nil, if_pos]
      constructor
      · rintro h
        cases h
        exact ⟨trivial, by omega⟩
      · rintro ⟨-, h2⟩
        by_contra hne
        have : 0 < a := Nat.pos_of_ne_zero (by intro h; apply hne; rw [h])
        exact h2 0 this trivial
    · rw [if_neg (by simpa [List.isPrefixOf_iff_prefix, List.prefix_nil] using hp)]
      simp [hp]
  | cons c t ih =>
    by_cases hp : pat <+: (c :: t)
    · simp only [findSub, List.isPrefixOf_iff_prefix, hp, if_pos]
      constructor
      · rintro h
        cases h
        exact ⟨by simpa using hp, by omega⟩
      · rintro ⟨h1, h2⟩
        by_contra hne
        have ha : 0 < a := Nat.pos_of_ne_zero (by intro h; apply hne; rw [h])
        have := h2 0 ha
        simp only [List.drop_zero] at this
        exact this hp
    · simp only [findSub, List.isPrefixOf_iff_prefix, hp, if_neg]
      constructor
      · intro h
        rcases Option.map_eq_some'.mp h with ⟨b, hb, hba⟩
        subst hba
        rcases ih.mp hb with ⟨h1, h2⟩
        refine ⟨by simpa using h1, ?_⟩
        intro i hi
        cases i with
        | zero => simpa using hp
        | succ j =>
          have := h2 j (by omega)
          simpa using this
      · rintro ⟨h1, h2⟩
        cases a with
        | zero =>
          simp only [List.drop_zero] at h1
          exact absurd h1 hp
        | succ b =>
          have hmem : findSub pat t = some b := by
            apply ih.mpr
            refine ⟨by simpa using h1, ?_⟩
            intro i hi
            have := h2 (i + 1) (by omega)
            simpa using this
          rw [hmem]
          rfl

theorem findSub_drop_length {pat s : Str} {a : Nat}
    (h : findSub pat s = some a) : a + pat.length ≤ s.length ∨ pat = [] := by
  rcases (findSub_some_iff.mp h).1 with ⟨t, ht⟩
  have hlen : pat.length + t.length = s.length - a := by
    have := congrArg List.length ht
    simpa using this
  by_cases hp : pat = []
  · exact Or.inr hp
  · left
    by_contra hlt
    push_neg at hlt
    have h1 : pat.length ≤ s.length - a := by omega
    by_cases ha : a ≤ s.length
    · omega
    · have : s.drop a = [] := List.drop_eq_nil_of_le (by omega)
      rw [this] at ht
      have := List.append_eq_nil.mp ht
      exact hp this.1

theorem findSub_fence_bound {s : Str} {a : Nat}
    (h : findSub fence s = some a) : a + 3 ≤ s.length := by
  rcases findSub_drop_length h with h1 | h1
  · simpa [fence] using h1
  · exact absurd h1 fence_ne_nil

/-- Fuel-indexed body of `splitByCodeBlocks`; fuel at least `s.length`
always suffices, and `splitByCodeBlocks_eq` below recovers the JS
recursion. -/
def splitByCodeBlocksF : Nat → Str → List Str
  | 0, s => if s = [] then [] else [s]
  | fuel + 1, s =>
    match findSub fence s with
    | none => if s = [] then [] else [s]
    | some a =>
      match findSub fence (s.drop (a + 3)) with
      | none => if s = [] then [] else [s]
      | some b =>
        (if 0 < a then [s.take a] else []) ++ [(s.drop a).take (b + 6)] ++
          splitByCodeBlocksF fuel (s.drop (a + 3 + b + 3))

/-- Split content while keeping code blocks intact
(`splitByCodeBlocks`, `src/parser/core/section-utils.ts`).  The JS loop
repeatedly takes the leftmost match of `/```[\s\S]*?```/`; that match starts
at the first fence occurrence and ends at the first fence occurrence at least
three characters later. -/
def splitByCodeBlocks (s : Str) : List Str :=
  splitByCodeBlocksF s.length s

theorem match_len_ge_6 {s : Str} {a b : Nat}
    (hf : findSub fence s = some a)
    (hg : findSub fence (s.drop (a + 3)) = some b) :
    a + 3 + b + 3 ≤ s.length := by
  have h1 := findSub_fence_bound hf
  have h2 := findSub_fence_bound hg
  simp only [List.length_drop] at h2
  omega

theorem splitByCodeBlocksF_congr :
    ∀ f1 f2 s, s.length ≤ f1 → s.length ≤ f2 →
      splitByCodeBlocksF f1 s = splitByCodeBlocksF f2 s := by
  intro f1
  induction f1 with
  | zero =>
    intro f2 s h1 h2
    have : s = [] := List.eq_nil_of_length_eq_zero (by omega)
    subst this
    cases f2 <;> simp [splitByCodeBlocksF, findSub_nil_of_ne fence_ne_nil]
  | succ n ih =>
    intro f2 s h1 h2
    cases f2 with
    | zero =>
      have : s = [] := List.eq_nil_of_length_eq_zero (by omega)
      subst this
      simp [splitByCodeBlocksF, findSub_nil_of_ne fence_ne_nil]
    | succ m =>
      simp only [splitByCodeBlocksF]
      cases hf : findSub fence s with
      | none => rfl
      | some a =>
        dsimp only
        cases hg : findSub fence (s.drop (a + 3)) with
        | none => rfl
        | some b =>
          dsimp only
          have hle := match_len_ge_6 hf hg
          have hr : (s.drop (a + 3 + b + 3)).length ≤ n := by
            simp only [List.length_drop]; omega
          have hr2 : (s.drop (a + 3 + b + 3)).length ≤ m := by
            simp only [List.length_drop]; omega
          rw [ih m _ hr hr2]

/-- The JS recursion of `splitByCodeBlocks`. -/
theorem splitByCodeBlocks_eq (s : Str) :
    splitByCodeBlocks s =
      match findSub fence s with
      | none => if s = [] then [] else [s]
      | some a =>
        match findSub fence (s.drop (a + 3)) with
        | none => if s = [] then [] else [s]
        | some b =>
          (if 0 < a then [s.take a] else []) ++ [(s.drop a).take (b + 6)] ++
            splitByCodeBlocks (s.drop (a + 3 + b + 3)) := by
  show splitByCodeBlocksF s.length s = _
  cases hl : s.length with
  | zero =>
    have : s = [] := List.eq_nil_of_length_eq_zero hl
    subst this
    simp [splitByCodeBlocksF, findSub_nil_of_ne fence_ne_nil]
  | succ n =>
    simp only [splitByCodeBlocksF]
    cases hf : findSub fence s with
    | none => rfl
    | some a =>
      dsimp only
      cases hg : findSub fence (s.drop (a + 3)) with
      | none => rfl
      | some b =>
        dsimp only
        have hle := match_len_ge_6 hf hg
        have hr : (s.drop (a + 3 + b + 3)).length ≤ n := by
          simp only [List.length_drop]; omega
        rw [splitByCodeBlocksF_congr n (s.drop (a + 3 + b + 3)).length _ hr le_rfl]
        rfl

/-- Fuel-indexed fence count. -/
def countFencesF : Nat → Str → Nat
  | 0, _ => 0
  | fuel + 1, s =>
    match findSub fence s with
    | none => 0
    | some a => 1 + countFencesF fuel (s.drop (a + 3))

/-- Number of ``` fences in a string, counted by the same leftmost
non-overlapping scan a JS regex uses. -/
def countFences (s : Str) : Nat := countFencesF s.length s

theorem countFencesF_congr :
    ∀ f1 f2 s, s.length ≤ f1 → s.length ≤ f2 →
      countFencesF f1 s = countFencesF f2 s := by
  intro f1
  induction f1 with
  | zero =>
    intro f2 s h1 h2
    have : s = [] := List.eq_nil_of_length_eq_zero (by omega)
    subst this
    cases f2 <;> simp [countFencesF, findSub_nil_of_ne fence_ne_nil]
  | succ n ih =>
    intro f2 s h1 h2
    cases f2 with
    | zero =>
      have : s = [] := List.eq_nil_of_length_eq_zero (by omega)
      subst this
      simp [countFencesF, findSub_nil_of_ne fence_ne_nil]
    | succ m =>
      simp only [countFencesF]
      cases hf : findSub fence s with
      | none => rfl
      | some a =>
        dsimp only
        have hle := findSub_fence_bound hf
        have hr : (s.drop (a + 3)).length ≤ n := by
          simp only [List.length_drop]; omega
        have hr2 : (s.drop (a + 3)).length ≤ m := by
          simp only [List.length_drop]; omega
        rw [ih m _ hr hr2]

/-- The JS recursion of `countFences`. -/
theorem countFences_eq (s : Str) :
    countFences s =
      match findSub fence s with
      | none => 0
      | some a => 1 + countFences (s.drop (a + 3)) := by
  show countFencesF s.length s = _
  cases hl : s.length with
  | zero =>
    have : s = [] := List.eq_nil_of_length_eq_zero hl
    subst this
    simp [countFencesF, findSub_nil_of_ne fence_ne_nil]
  | succ n =>
    simp only [countFencesF]
    cases hf : findSub fence s with
    | none => rfl
    | some a =>
      dsimp only
      have hle := findSub_fence_bound hf
      have hr : (s.drop (a + 3)).length ≤ n := by
        simp only [List.length_drop]; omega
      rw [countFencesF_congr n (s.drop (a + 3)).length _ hr le_rfl]
      rfl

/-- JavaScript `\s` for the ASCII range (the inputs in this development). -/
def isWs (c : Char) : Bool :=
  c = ' ' || c = '\t' || c = '\n' || c = '\r' || c = '\x0b' || c = '\x0c'

/-- JavaScript `String.prototype.trim`. -/
def trimStr (s : Str) : Str :=
  ((s.dropWhile isWs).reverse.dropWhile isWs).reverse

/-- JavaScript `content.split('\n')`. -/
def splitLines : Str → List Str
  | [] => [[]]
  | c :: t =>
    if c = '\n' then [] :: splitLines t
    else
      match splitLines t with
      | [] => [[c]]
      | l :: ls => (c :: l) :: ls

/-- `lines.join('\n')`. -/
def joinLines (ls : List Str) : Str := List.intercalate ['\n'] ls

/-- `xs.join(sep)`. -/
def joinSep (sep : Str) (ls : List Str) : Str := List.intercalate sep ls

/-- The `'\n\n'` separator used throughout the merger. -/
def nn : Str := ['\n', '\n']

/-- The `'Introduction'` sentinel heading. -/
def introHeading : Str := "Introduction".data

/-- `ChunkConfig` from `src/types` (character counts). -/
structure ChunkConfig where
  maxChunkSize : Nat
  minChunkSize : Nat
  idealChunkSize : Nat
deriving DecidableEq, Repr

/-- `Section` from `src/parser/core/section-utils.ts`: a tree node with a
heading, heading level, directly-owned body text and ordered children
(the optional `children?` field is modelled as a list, `[]` for absent). -/
inductive Section where
  | mk (heading : Str) (level : Nat) (content : Str) (children : List Section)

def Section.heading : Section → Str
  | .mk h _ _ _ => h

def Section.level : Section → Nat
  | .mk _ l _ _ => l

def Section.content : Section → Str
  | .mk _ _ c _ => c

def Section.children : Section → List Section
  | .mk _ _ _ cs => cs

mutual

def Section.decEq : (a b : Section) → Decidable (a = b)
  | .mk h1 l1 c1 cs1, .mk h2 l2 c2 cs2 =>
    if hh : h1 = h2 then
      if hl : l1 = l2 then
        if hc : c1 = c2 then
          match Section.decEqList cs1 cs2 with
          | isTrue hcs => isTrue (by rw [hh, hl, hc, hcs])
          | isFalse hcs => isFalse (by intro he; injection he; contradiction)
        else isFalse (by intro he; injection he; contradiction)
      else isFalse (by intro he; injection he; contradiction)
    else isFalse (by intro he; injection he; contradiction)

def Section.decEqList : (a b : List Section) → Decidable (a = b)
  | [], [] => isTrue rfl
  | [], _ :: _ => isFalse (by intro he; exact List.noConfusion he)
  | _ :: _, [] => isFalse (by intro he; exact List.noConfusion he)
  | x :: xs, y :: ys =>
    match Section.decEq x y, Section.decEqList xs ys with
    | isTrue e1, isTrue e2 => isTrue (by rw [e1, e2])
    | isFalse e1, _ => isFalse (by intro he; injection he; contradiction)
    | isTrue e1, isFalse e2 => isFalse (by intro he; injection he; contradiction)

end

instance : DecidableEq Section := Section.decEq

theorem Section.sizeOf_children_lt (s : Section) :
    sizeOf s.children < sizeOf s := by
  cases s with
  | mk h l c cs => simp [Section.children] <;> omega

/-- `FlatSection` from `src/parser/core/section-utils.ts`. -/
structure FlatSection where
  heading : Str
  level : Nat
  content : Str
  breadcrumbs : List Str
deriving DecidableEq, Repr

mutual

/-- `getSectionSize`: own content length plus all descendants'. -/
def getSectionSize : Section → Nat
  | .mk _ _ content children => content.length + getSectionSizeList children

def getSectionSizeList : List Section → Nat
  | [] => 0
  | s :: rest => getSectionSize s + getSectionSizeList rest

end

/-- `'#'.repeat(Math.min(Math.max(level, 1), 4))`. -/
def hashes (level : Nat) : Str := List.replicate (min (max level 1) 4) '#'

mutual

/-- `flattenSection`: render a section tree back to markdown, skipping the
`'Introduction'` heading and empty headings/contents, joining the pieces with
blank lines. -/
def flattenSection : Section → Str
  | .mk heading level content children =>
    joinSep nn
      ((if heading ≠ [] ∧ heading ≠ introHeading
        then [hashes level ++ [' '] ++ heading] else []) ++
       (if content ≠ [] then [content] else []) ++
       flattenSectionList children)

def flattenSectionList : List Section → List Str
  | [] => []
  | s :: rest => flattenSection s :: flattenSectionList rest

end

/-- `Math.min(...batch.map(s => s.level))` for a non-empty batch. -/
def minLevel : List Section → Nat
  | [] => 0
  | s :: rest => rest.foldl (fun m x => min m x.level) s.level

/-- `flushBatch` from `section-utils.ts`, returning the list of chunks the JS
function pushes into `result` (empty batch pushes nothing, singleton batch is
flattened alone, larger batches are merged; the merged heading joins the
*non-empty* member headings with `' / '`, falling back to
`'Combined Section'`). -/
def flushBatch (batch : List Section) (breadcrumbs : List Str) :
    List FlatSection :=
  match batch with
  | [] => []
  | [b] => [⟨b.heading, b.level, flattenSection b, breadcrumbs⟩]
  | _ =>
    let mergedContent := joinSep nn (batch.map flattenSection)
    let joined := joinSep (" / ".data) ((batch.map Section.heading).filter (· ≠ []))
    let mergedHeading := if joined = [] then "Combined Section".data else joined
    [⟨mergedHeading, minLevel batch, mergedContent, breadcrumbs⟩]

mutual

/-- Structural size used as recursion fuel for the merger. -/
def sectionFuel : Section → Nat
  | .mk _ _ _ cs => 1 + sectionFuelList cs

def sectionFuelList : List Section → Nat
  | [] => 1
  | c :: rest => 1 + sectionFuel c + sectionFuelList rest

end

theorem sectionFuel_pos (s : Section) : 0 < sectionFuel s := by
  cases s with
  | mk h l c cs => simp [sectionFuel]

theorem sectionFuelList_pos (cs : List Section) : 0 < sectionFuelList cs := by
  cases cs <;> simp [sectionFuelList]

theorem sectionFuel_children_lt (s : Section) :
    sectionFuelList s.children < sectionFuel s := by
  cases s with
  | mk h l c cs => simp [sectionFuel, Section.children]

mutual

/-- Fuel-indexed body of `processSection`; see `processSection_eq` for the
JS recursion. -/
def processSectionF (fuel : Nat) (cfg : ChunkConfig) (s : Section)
    (bc : List Str) : List FlatSection :=
  match fuel with
  | 0 => []
  | fuel + 1 =>
    let totalSize := getSectionSize s
    let selfSize := s.content.length
    if selfSize ≥ cfg.minChunkSize ∧ s.children = [] then
      [⟨s.heading, s.level, s.content, bc⟩]
    else if totalSize ≤ cfg.maxChunkSize ∧ totalSize ≥ cfg.minChunkSize then
      [⟨s.heading, s.level, flattenSection s, bc⟩]
    else if totalSize > cfg.maxChunkSize then
      (if 2 * selfSize ≥ cfg.minChunkSize then
        [⟨s.heading, s.level, s.content, bc⟩] else []) ++
      processChildrenF fuel cfg
        (if s.heading ≠ [] then bc ++ [s.heading] else bc) s.children [] 0
    else
      if selfSize > 0 ∨ s.children ≠ [] then
        [⟨s.heading, s.level, flattenSection s, bc⟩]
      else []

/-- Fuel-indexed body of the child batching loop; see
`processChildren_eq`. -/
def processChildrenF (fuel : Nat) (cfg : ChunkConfig) (bc : List Str) :
    List Section → List Section → Nat → List FlatSection
  | cs, batch, bsize =>
    match fuel with
    | 0 => []
    | fuel + 1 =>
      match cs with
      | [] => flushBatch batch bc
      | c :: rest =>
        let childSize := getSectionSize c
        if childSize ≥ cfg.minChunkSize then
          flushBatch batch bc ++ processSectionF fuel cfg c bc ++
            processChildrenF fuel cfg bc rest [] 0
        else if bsize + childSize ≤ cfg.idealChunkSize then
          processChildrenF fuel cfg bc rest (batch ++ [c]) (bsize + childSize)
        else
          flushBatch batch bc ++ processChildrenF fuel cfg bc rest [c] childSize

end

/-- `processSection` inside `mergeHierarchicalSections`
(`src/parser/core/section-utils.ts`); divisions by two in the JS
(`minChunkSize / 2`) are exact float divisions, rendered as `2 * x ≥ min`
comparisons. -/
def processSection (cfg : ChunkConfig) (s : Section) (bc : List Str) :
    List FlatSection :=
  processSectionF (sectionFuel s) cfg s bc

/-- The `for (const child of section.children || [])` loop of
`processSection`, with pending `batch`/`batchSize`. -/
def processChildren (cfg : ChunkConfig) (bc : List Str) (cs : List Section)
    (batch : List Section) (bsize : Nat) : List FlatSection :=
  processChildrenF (sectionFuelList cs) cfg bc cs batch bsize

theorem processF_congr :
    ∀ f1 : Nat,
      (∀ f2 cfg s bc, sectionFuel s ≤ f1 → sectionFuel s ≤ f2 →
        processSectionF f1 cfg s bc = processSectionF f2 cfg s bc) ∧
      (∀ f2 cfg bc cs batch bsize, sectionFuelList cs ≤ f1 → sectionFuelList cs ≤ f2 →
        processChildrenF f1 cfg bc cs batch bsize =
          processChildrenF f2 cfg bc cs batch bsize) := by
  intro f1
  induction f1 with
  | zero =>
    constructor
    · intro f2 cfg s bc h1 h2
      have := sectionFuel_pos s
      omega
    · intro f2 cfg bc cs batch bsize h1 h2
      have := sectionFuelList_pos cs
      omega
  | succ n ih =>
    constructor
    · intro f2 cfg s bc h1 h2
      cases f2 with
      | zero =>
        have := sectionFuel_pos s
        omega
      | succ m =>
        simp only [processSectionF]
        have hch : sectionFuelList s.children ≤ n := by
          have := sectionFuel_children_lt s
          omega
        have hch2 : sectionFuelList s.children ≤ m := by
          have := sectionFuel_children_lt s
          omega
        rw [ih.2 m cfg _ s.children [] 0 hch hch2]
    · intro f2 cfg bc cs batch bsize h1 h2
      cases f2 with
      | zero =>
        have := sectionFuelList_pos cs
        omega
      | succ m =>
        simp only [processChildrenF]
        cases cs with
        | nil => rfl
        | cons c rest =>
          simp only [sectionFuelList] at h1 h2
          have hc : sectionFuel c ≤ n ∧ sectionFuel c ≤ m := by omega
          have hrest : sectionFuelList rest ≤ n ∧ sectionFuelList rest ≤ m := by
            omega
          dsimp only
          rw [(ih.1) m cfg c bc hc.1 hc.2,
              ih.2 m cfg bc rest [] 0 hrest.1 hrest.2,
              ih.2 m cfg bc rest (batch ++ [c]) _ hrest.1 hrest.2,
              ih.2 m cfg bc rest [c] _ hrest.1 hrest.2]

/-- The JS dispatch of `processSection` over its four cases. -/
theorem processSection_eq (cfg : ChunkConfig) (s : Section) (bc : List Str) :
    processSection cfg s bc =
      (let totalSize := getSectionSize s
       let selfSize := s.content.length
       if selfSize ≥ cfg.minChunkSize ∧ s.children = [] then
         [⟨s.heading, s.level, s.content, bc⟩]
       else if totalSize ≤ cfg.maxChunkSize ∧ totalSize ≥ cfg.minChunkSize then
         [⟨s.heading, s.level, flattenSection s, bc⟩]
       else if totalSize > cfg.maxChunkSize then
         (if 2 * selfSize ≥ cfg.minChunkSize then
           [⟨s.heading, s.level, s.content, bc⟩] else []) ++
         processChildren cfg
           (if s.heading ≠ [] then bc ++ [s.heading] else bc) s.children [] 0
       else
         if selfSize > 0 ∨ s.children ≠ [] then
           [⟨s.heading, s.level, flattenSection s, bc⟩]
         else []) := by
  show processSectionF (sectionFuel s) cfg s bc = _
  have hp := sectionFuel_pos s
  cases hs : sectionFuel s with
  | zero => omega
  | succ n =>
    simp only [processSectionF]
    have hch : sectionFuelList s.children ≤ n := by
      have := sectionFuel_children_lt s
      omega
    rw [(processF_congr n).2 (sectionFuelList s.children) cfg _ s.children [] 0
          hch le_rfl]
    rfl

/-- The JS recursion of the child batching loop. -/
theorem processChildren_eq (cfg : ChunkConfig) (bc : List Str)
    (cs : List Section) (batch : List Section) (bsize : Nat) :
    processChildren cfg bc cs batch bsize =
      (match cs with
       | [] => flushBatch batch bc
       | c :: rest =>
         let childSize := getSectionSize c
         if childSize ≥ cfg.minChunkSize then
           flushBatch batch bc ++ processSection cfg c bc ++
             processChildren cfg bc rest [] 0
         else if bsize + childSize ≤ cfg.idealChunkSize then
           processChildren cfg bc rest (batch ++ [c]) (bsize + childSize)
         else
           flushBatch batch bc ++ processChildren cfg bc rest [c] childSize) := by
  show processChildrenF (sectionFuelList cs) cfg bc cs batch bsize = _
  cases cs with
  | nil => rfl
  | cons c rest =>
    have hsz : sectionFuelList (c :: rest) =
        (sectionFuel c + sectionFuelList rest) + 1 := by
      simp [sectionFuelList]; omega
    rw [hsz]
    simp only [processChildrenF]
    rw [(processF_congr (sectionFuel c + sectionFuelList rest)).1 (sectionFuel c)
          cfg c bc (by omega) le_rfl,
        (processF_congr (sectionFuel c + sectionFuelList rest)).2
          (sectionFuelList rest) cfg bc rest [] 0 (by omega) le_rfl,
        (processF_congr (sectionFuel c + sectionFuelList rest)).2
          (sectionFuelList rest) cfg bc rest (batch ++ [c]) _ (by omega) le_rfl,
        (processF_congr (sectionFuel c + sectionFuelList rest)).2
          (sectionFuelList rest) cfg bc rest [c] _ (by omega) le_rfl]
    rfl

/-- `mergeHierarchicalSections` from `section-utils.ts`. -/
def mergeHierarchicalSections (sections : List Section) (cfg : ChunkConfig) :
    List FlatSection :=
  sections.flatMap (fun s => processSection cfg s [])

/-- `mergeBatch` from `section-utils.ts` (flat, non-hierarchical merging):
renders each non-`Introduction` member under an `###` heading and joins the
non-`Introduction` headings with `' / '`, falling back to `'Overview'`.
The source never calls it on an empty batch; `[]` maps to an empty section. -/
def mergeBatch (batch : List Section) : Section :=
  match batch with
  | [] => .mk [] 0 [] []
  | [b] => b
  | _ =>
    let mergedContent := joinSep nn (batch.map (fun s =>
      if s.heading ≠ introHeading
      then "### ".data ++ s.heading ++ nn ++ s.content
      else s.content))
    let joined := joinSep (" / ".data)
      ((batch.map Section.heading).filter (· ≠ introHeading))
    let mergedHeading := if joined = [] then "Overview".data else joined
    .mk mergedHeading (minLevel batch) mergedContent []

/-- The batching loop of `mergeSections` from `section-utils.ts`. -/
def mergeSectionsLoop (cfg : ChunkConfig) :
    List Section → List Section → Nat → List Section
  | [], batch, _ => if batch = [] then [] else [mergeBatch batch]
  | s :: rest, batch, bsize =>
    if s.content.length ≥ cfg.minChunkSize then
      (if batch = [] then [] else [mergeBatch batch]) ++ [s] ++
        mergeSectionsLoop cfg rest [] 0
    else if bsize + s.content.length ≤ cfg.idealChunkSize then
      mergeSectionsLoop cfg rest (batch ++ [s]) (bsize + s.content.length)
    else
      (if batch = [] then [] else [mergeBatch batch]) ++
        mergeSectionsLoop cfg rest [s] s.content.length

/-- `mergeSections` from `section-utils.ts`. -/
def mergeSections (sections : List Section) (cfg : ChunkConfig) :
    List Section :=
  mergeSectionsLoop cfg sections [] 0

/-- The heading test `/^(#{1,6})\s+(.+)$/` of `parseIntoTree`: one to six
leading `#`, at least one whitespace character, and at least one further
character; the captured text is the trimmed remainder (regex backtracking
makes the capture's trim equal the trim of everything after the `#` run). -/
def isHeadingTail : Str → Bool
  | c :: rest => isWs c && !rest.isEmpty
  | [] => false

def headingMatch (line : Str) : Option (Nat × Str) :=
  let k := (line.takeWhile (· = '#')).length
  let tail := line.drop k
  if 1 ≤ k ∧ k ≤ 6 ∧ isHeadingTail tail then some (k, trimStr tail)
  else none

/-- A section still being built: the stack entries of `parseIntoTree`.
In the JS source the node object is already linked into the tree and mutated;
here a frame carries the fields accumulated so far and is attached to its
parent when popped, yielding the same final tree. -/
structure Frame where
  heading : Str
  level : Nat
  content : Str
  children : List Section

def Frame.toSection (f : Frame) : Section :=
  .mk f.heading f.level f.content f.children

/-- Assign accumulated content to the top stack frame
(`stack[stack.length - 1].section.content = currentContent.join('\n').trim()`;
performed unconditionally here — when `currentContent` is empty the joined
trim is `''`, the value the field already holds). -/
def setTopContent (stack : List Frame) (c : Str) : List Frame :=
  match stack with
  | [] => []
  | f :: rest => { f with content := c } :: rest

/-- Fuel-indexed body of `popAttach`. -/
def popAttachF : Nat → List Section → List Frame → Nat →
    List Section × List Frame
  | 0, root, stack, _ => (root, stack)
  | fuel + 1, root, stack, lvl =>
    match stack with
    | [] => (root, [])
    | f :: rest =>
      if lvl ≤ f.level then
        match rest with
        | [] => (root ++ [f.toSection], [])
        | g :: rest2 =>
          popAttachF fuel root
            ({ g with children := g.children ++ [f.toSection] } :: rest2) lvl
      else (root, stack)

/-- The pop loop of `parseIntoTree`
(`while (stack.length > 0 && stack[stack.length - 1].level >= level) stack.pop()`),
attaching each completed frame to its parent frame, or to the root list when
it is the bottommost frame. -/
def popAttach (root : List Section) (stack : List Frame) (lvl : Nat) :
    List Section × List Frame :=
  popAttachF stack.length root stack lvl

theorem popAttachF_congr :
    ∀ f1 f2 root stack lvl, stack.length ≤ f1 → stack.length ≤ f2 →
      popAttachF f1 root stack lvl = popAttachF f2 root stack lvl := by
  intro f1
  induction f1 with
  | zero =>
    intro f2 root stack lvl h1 h2
    have : stack = [] := List.eq_nil_of_length_eq_zero (by omega)
    subst this
    cases f2 <;> simp [popAttachF]
  | succ n ih =>
    intro f2 root stack lvl h1 h2
    cases f2 with
    | zero =>
      have : stack = [] := List.eq_nil_of_length_eq_zero (by omega)
      subst this
      simp [popAttachF]
    | succ m =>
      simp only [popAttachF]
      cases stack with
      | nil => rfl
      | cons f rest =>
        cases rest with
        | nil => rfl
        | cons g rest2 =>
          simp only [List.length_cons] at h1 h2
          by_cases hl : lvl ≤ f.level
          · simp only [hl, if_pos]
            exact ih m root _ lvl (by simp; omega) (by simp; omega)
          · simp [hl]

/-- The JS recursion of `popAttach`. -/
theorem popAttach_eq (root : List Section) (stack : List Frame) (lvl : Nat) :
    popAttach root stack lvl =
      match stack with
      | [] => (root, [])
      | f :: rest =>
        if lvl ≤ f.level then
          match rest with
          | [] => (root ++ [f.toSection], [])
          | g :: rest2 =>
            popAttach root
              ({ g with children := g.children ++ [f.toSection] } :: rest2) lvl
        else (root, stack) := by
  show popAttachF stack.length root stack lvl = _
  cases stack with
  | nil => rfl
  | cons f rest =>
    simp only [List.length_cons, popAttachF]
    cases rest with
    | nil => rfl
    | cons g rest2 =>
      by_cases hl : lvl ≤ f.level
      · simp only [hl, if_pos]
        exact popAttachF_congr (g :: rest2).length _ root _ lvl
          (by simp) (by simp)
      · simp [hl]

/-- The loop state of `parseIntoTree`. -/
structure TreeState where
  root : List Section
  stack : List Frame
  cur : List Str
  intro : List Str
  saw : Bool

/-- One line of the `parseIntoTree` loop. -/
def treeStep (st : TreeState) (line : Str) : TreeState :=
  match headingMatch line with
  | some (lvl, text) =>
    let st1 :=
      if ¬ st.saw ∧ st.intro ≠ [] then
        let introText := trimStr (joinLines st.intro)
        { st with
          root := if introText.length > 50 then
              st.root ++ [.mk introHeading 0 introText []]
            else st.root,
          saw := true }
      else st
    let stack1 := setTopContent st1.stack (trimStr (joinLines st.cur))
    let rs := popAttach st1.root stack1 lvl
    { root := rs.1,
      stack := ⟨text, lvl, [], []⟩ :: rs.2,
      cur := [],
      intro := st1.intro,
      saw := true }
  | none =>
    if st.saw then { st with cur := st.cur ++ [line] }
    else { st with intro := st.intro ++ [line] }

/-- `parseIntoTree` from `section-utils.ts`. -/
def parseIntoTree (content : Str) : List Section :=
  let st := (splitLines content).foldl treeStep ⟨[], [], [], [], false⟩
  let stack1 := setTopContent st.stack (trimStr (joinLines st.cur))
  let root1 := (popAttach st.root stack1 0).1
  if ¬ st.saw ∧ st.intro ≠ [] then
    let introText := trimStr (joinLines st.intro)
    if introText.length > 50 then
      root1 ++ [.mk "Documentation".data 0 introText []]
    else root1
  else root1

/-- `normalizeLineEndings` (`\r\n` then stray `\r` to `\n`). -/
def normalizeLineEndings : Str → Str
  | [] => []
  | '\r' :: '\n' :: t => '\n' :: normalizeLineEndings t
  | '\r' :: t => '\n' :: normalizeLineEndings t
  | c :: t => c :: normalizeLineEndings t

/-- `SDK_CHUNK_CONFIG` from `src/parser/core/config.ts`. -/
def SDK_CHUNK_CONFIG : ChunkConfig := ⟨2000, 150, 1000⟩

/-- `splitLargeFlatSection` from `src/parser/chunkers/sdk-chunker.ts`.
The source reads the sizes from the module constant `SDK_CHUNK_CONFIG`
(the driver's configuration); it is a parameter here so that the claims
quantifying over configurations can be stated. -/
def splitLargeFlatSection (cfg : ChunkConfig) (s : FlatSection) :
    List FlatSection :=
  if s.content.length ≤ cfg.maxChunkSize then [s]
  else
    let step := fun (acc : List FlatSection × Str × Nat) (part : Str) =>
      let result := acc.1
      let currentChunk := acc.2.1
      let chunkIndex := acc.2.2
      if currentChunk.length + part.length ≤ cfg.maxChunkSize then
        (result, currentChunk ++ part, chunkIndex)
      else if (trimStr currentChunk).length ≥ cfg.minChunkSize then
        (result ++ [{ s with
            heading := if chunkIndex = 0 then s.heading
                       else s.heading ++ " (continued)".data,
            content := trimStr currentChunk }],
         part, chunkIndex + 1)
      else (result, part, chunkIndex)
    let out := (splitByCodeBlocks s.content).foldl step ([], [], 0)
    let result :=
      if 2 * (trimStr out.2.1).length ≥ cfg.minChunkSize then
        out.1 ++ [{ s with
            heading := if out.2.2 = 0 then s.heading
                       else s.heading ++ " (continued)".data,
            content := trimStr out.2.1 }]
      else out.1
    if result = [] then [s] else result

/-- Fuel-indexed body of `cbScan`. -/
def cbScanF : Nat → Str → List (Bool × Str)
  | 0, s => if s = [] then [] else [(false, s)]
  | fuel + 1, s =>
    match findSub fence s with
    | none => if s = [] then [] else [(false, s)]
    | some a =>
      match findSub fence (s.drop (a + 3)) with
      | none => if s = [] then [] else [(false, s)]
      | some b =>
        (if 0 < a then [(false, s.take a)] else []) ++
          [(true, (s.drop a).take (b + 6))] ++ cbScanF fuel (s.drop (a + 3 + b + 3))

/-- The tagged code-block scan used inline by `splitOversizedSection`
(`src/parser/chunkers/mdx-chunker.ts`): the same leftmost-match loop as
`splitByCodeBlocks`, remembering which parts are fenced blocks. -/
def cbScan (s : Str) : List (Bool × Str) := cbScanF s.length s

theorem cbScanF_congr :
    ∀ f1 f2 s, s.length ≤ f1 → s.length ≤ f2 → cbScanF f1 s = cbScanF f2 s := by
  intro f1
  induction f1 with
  | zero =>
    intro f2 s h1 h2
    have : s = [] := List.eq_nil_of_length_eq_zero (by omega)
    subst this
    cases f2 <;> simp [cbScanF, findSub_nil_of_ne fence_ne_nil]
  | succ n ih =>
    intro f2 s h1 h2
    cases f2 with
    | zero =>
      have : s = [] := List.eq_nil_of_length_eq_zero (by omega)
      subst this
      simp [cbScanF, findSub_nil_of_ne fence_ne_nil]
    | succ m =>
      simp only [cbScanF]
      cases hf : findSub fence s with
      | none => rfl
      | some a =>
        dsimp only
        cases hg : findSub fence (s.drop (a + 3)) with
        | none => rfl
        | some b =>
          dsimp only
          have hle := match_len_ge_6 hf hg
          have hr : (s.drop (a + 3 + b + 3)).length ≤ n := by
            simp only [List.length_drop]; omega
          have hr2 : (s.drop (a + 3 + b + 3)).length ≤ m := by
            simp only [List.length_drop]; omega
          rw [ih m _ hr hr2]

/-- The JS recursion of `cbScan`. -/
theorem cbScan_eq (s : Str) :
    cbScan s =
      match findSub fence s with
      | none => if s = [] then [] else [(false, s)]
      | some a =>
        match findSub fence (s.drop (a + 3)) with
        | none => if s = [] then [] else [(false, s)]
        | some b =>
          (if 0 < a then [(false, s.take a)] else []) ++
            [(true, (s.drop a).take (b + 6))] ++
            cbScan (s.drop (a + 3 + b + 3)) := by
  show cbScanF s.length s = _
  cases hl : s.length with
  | zero =>
    have : s = [] := List.eq_nil_of_length_eq_zero hl
    subst this
    simp [cbScanF, findSub_nil_of_ne fence_ne_nil]
  | succ n =>
    simp only [cbScanF]
    cases hf : findSub fence s with
    | none => rfl
    | some a =>
      dsimp only
      cases hg : findSub fence (s.drop (a + 3)) with
      | none => rfl
      | some b =>
        dsimp only
        have hle := match_len_ge_6 hf hg
        have hr : (s.drop (a + 3 + b + 3)).length ≤ n := by
          simp only [List.length_drop]; omega
        rw [cbScanF_congr n (s.drop (a + 3 + b + 3)).length _ hr le_rfl]
        rfl

theorem findSub_nn_nil : findSub ['\n', '\n'] ([] : Str) = none :=
  findSub_nil_of_ne (by simp)

/-- Fuel-indexed body of `splitParas`. -/
def splitParasF : Nat → Str → List Str
  | 0, s => [s]
  | fuel + 1, s =>
    match findSub ['\n', '\n'] s with
    | none => [s]
    | some a =>
      s.take a ::
        splitParasF fuel (s.drop (a + ((s.drop a).takeWhile (· = '\n')).length))

/-- `content.split(/\n\n+/)`: separators are maximal newline runs of
length at least two. -/
def splitParas (s : Str) : List Str := splitParasF s.length s

theorem findSub_nn_bound {s : Str} {a : Nat}
    (h : findSub ['\n', '\n'] s = some a) :
    a + 2 ≤ s.length ∧ 2 ≤ ((s.drop a).takeWhile (· = '\n')).length := by
  have hpre : (['\n', '\n'] : Str) <+: s.drop a := (findSub_some_iff.mp h).1
  constructor
  · rcases findSub_drop_length h with h1 | h1
    · simpa using h1
    · simp at h1
  · rcases hpre with ⟨t, ht⟩
    rw [← ht]
    simp [List.takeWhile]

theorem splitParasF_congr :
    ∀ f1 f2 s, s.length ≤ f1 → s.length ≤ f2 → splitParasF f1 s = splitParasF f2 s := by
  intro f1
  induction f1 with
  | zero =>
    intro f2 s h1 h2
    have : s = [] := List.eq_nil_of_length_eq_zero (by omega)
    subst this
    cases f2 <;> simp [splitParasF, findSub_nn_nil]
  | succ n ih =>
    intro f2 s h1 h2
    cases f2 with
    | zero =>
      have : s = [] := List.eq_nil_of_length_eq_zero (by omega)
      subst this
      simp [splitParasF, findSub_nn_nil]
    | succ m =>
      simp only [splitParasF]
      cases hf : findSub ['\n', '\n'] s with
      | none => rfl
      | some a =>
        dsimp only
        have hb := findSub_nn_bound hf
        have hr : (s.drop (a + ((s.drop a).takeWhile (· = '\n')).length)).length ≤ n := by
          simp only [List.length_drop]; omega
        have hr2 : (s.drop (a + ((s.drop a).takeWhile (· = '\n')).length)).length ≤ m := by
          simp only [List.length_drop]; omega
        rw [ih m _ hr hr2]

/-- The JS recursion of `splitParas`. -/
theorem splitParas_eq (s : Str) :
    splitParas s =
      match findSub ['\n', '\n'] s with
      | none => [s]
      | some a =>
        s.take a ::
          splitParas (s.drop (a + ((s.drop a).takeWhile (· = '\n')).length)) := by
  show splitParasF s.length s = _
  cases hl : s.length with
  | zero =>
    have : s = [] := List.eq_nil_of_length_eq_zero hl
    subst this
    simp [splitParasF, splitParas, findSub_nn_nil]
  | succ n =>
    simp only [splitParasF]
    cases hf : findSub ['\n', '\n'] s with
    | none => rfl
    | some a =>
      dsimp only
      have hb := findSub_nn_bound hf
      have hr : (s.drop (a + ((s.drop a).takeWhile (· = '\n')).length)).length ≤ n := by
        simp only [List.length_drop]; omega
      rw [splitParasF_congr n _ _ hr le_rfl]
      rfl

/-- The inner paragraph loop of `splitOversizedSection`. -/
def paraStep (maxSize : Nat) (pacc : List Str × Str) (para : Str) :
    List Str × Str :=
  let pchunks := pacc.1
  let paraChunk := pacc.2
  if paraChunk.length + para.length + 2 > maxSize then
    ((if trimStr paraChunk ≠ [] then pchunks ++ [trimStr paraChunk] else pchunks),
     para)
  else
    (pchunks, paraChunk ++ (if paraChunk ≠ [] then nn ++ para else para))

/-- One part of the `splitOversizedSection` loop. -/
def ossStep (maxSize : Nat) (acc : List Str × Str) (part : Bool × Str) :
    List Str × Str :=
  let chunks := acc.1
  let currentChunk := acc.2
  let isCode := part.1
  let pc := part.2
  if pc.length > maxSize then
    let pushed := trimStr currentChunk ≠ []
    let chunks1 := if pushed then chunks ++ [trimStr currentChunk] else chunks
    let cur1 := if pushed then [] else currentChunk
    if isCode then (chunks1 ++ [pc], cur1)
    else
      let pout := (splitParas pc).foldl (paraStep maxSize) (chunks1, [])
      (pout.1, if trimStr pout.2 ≠ [] then pout.2 else cur1)
  else if currentChunk.length + pc.length > maxSize then
    ((if trimStr currentChunk ≠ [] then chunks ++ [trimStr currentChunk]
      else chunks), pc)
  else (chunks, currentChunk ++ pc)

/-- `splitOversizedSection` from `src/parser/chunkers/mdx-chunker.ts`. -/
def splitOversizedSection (content : Str) (maxSize : Nat) : List Str :=
  let out := (cbScan content).foldl (ossStep maxSize) ([], [])
  let chunks :=
    if trimStr out.2 ≠ [] then out.1 ++ [trimStr out.2] else out.1
  if chunks = [] then [content] else chunks

/-- `s.toLowerCase()` (ASCII). -/
def toLowerStr (s : Str) : Str := s.map Char.toLower

/-- `s.includes(pat)`. -/
def containsSub (s pat : Str) : Bool := (findSub pat s).isSome

/-- The section pipeline of `parseReadme` (`sdk-chunker.ts`):
parse → merge → split → filter; the final `.map` to `DocChunk` copies each
section's `content` verbatim and adds metadata only, so the emitted chunk
list is this list up to that relabelling.  As with `splitLargeFlatSection`,
the module constant `SDK_CHUNK_CONFIG` is a parameter. -/
def parseReadmeSections (cfg : ChunkConfig) (content : Str) :
    List FlatSection :=
  let merged := mergeHierarchicalSections
    (parseIntoTree (normalizeLineEndings content)) cfg
  let sections := merged.flatMap (splitLargeFlatSection cfg)
  sections.filter (fun s =>
    2 * s.content.length ≥ cfg.minChunkSize ∧
    ¬ containsSub (toLowerStr s.heading) "prompt for llm".data)

/-- The section pipeline of `parseMigration` (`sdk-chunker.ts`): merge with
`minChunkSize` lowered to 100, then keep sections of at least 100
characters.  The final `.map` to `DocChunk` copies `content` verbatim. -/
def parseMigrationSections (content : Str) : List FlatSection :=
  let merged := mergeHierarchicalSections
    (parseIntoTree (normalizeLineEndings content))
    { SDK_CHUNK_CONFIG with minChunkSize := 100 }
  merged.filter (fun s => s.content.length ≥ 100)

/-! ### Concrete instances used by the claim counterexamples -/

/-- A configuration satisfying `min < ideal < max` used to exhibit an
oversized non-code chunk. -/
def cfgC1 : ChunkConfig := ⟨10, 4, 6⟩

/-- One leaf section whose content is a 12-character code-free text run. -/
def treeC1 : List Section := [.mk "H".data 1 (List.replicate 12 'a') []]

/-- A migration document consisting of one 60-character section. -/
def docC3 : Str := "## B\n".data ++ List.replicate 60 'b'

/-- A configuration with `min < ideal < max` for the heading counterexample. -/
def cfgC4 : ChunkConfig := ⟨30, 10, 20⟩

/-- A parent whose two undersized children, one of them headed
`'Introduction'`, are flushed as one batch. -/
def treeC4 : List Section :=
  [.mk "P".data 1 (List.replicate 25 'p')
    [.mk introHeading 2 "abc".data [],
     .mk "HeadB".data 2 "def".data []]]

/-- A README whose body is a 60-char text run, a 60-char code block and a
60-char text run on one line. -/
def docC9 : Str :=
  "# H\n".data ++ List.replicate 60 'a' ++ fence ++
    List.replicate 54 'x' ++ fence ++ List.replicate 60 'b'

/-- C1, counterexample: under `cfgC1` (min 4 < ideal 6 < max 10) the
merge/split pipeline (`mergeHierarchicalSections` then
`splitLargeFlatSection`) emits a chunk of 12 > 10 characters whose content
contains no ``` fence at all, hence is not a single oversized code block:
`splitLargeFlatSection` has no paragraph fallback and passes an unbreakable
code-free run through whole. -/
theorem C1_counterexample :
    cfgC1.minChunkSize < cfgC1.idealChunkSize ∧
    cfgC1.idealChunkSize < cfgC1.maxChunkSize ∧
    ∃ f ∈ (mergeHierarchicalSections treeC1 cfgC1).flatMap
        (splitLargeFlatSection cfgC1),
      f.content.length > cfgC1.maxChunkSize ∧ findSub fence f.content = none := by
  decide

/-- C3, counterexample: `parseMigration` filters at 100 characters, above
`minChunkSize / 2 = 50`: for `docC3` the merge emits a 66-character section
(at least `min/2`), yet the migration pipeline drops it and returns no
chunks at all. -/
theorem C3_counterexample :
    (∃ f ∈ mergeHierarchicalSections (parseIntoTree (normalizeLineEndings docC3))
        { SDK_CHUNK_CONFIG with minChunkSize := 100 },
      2 * f.content.length ≥ 100 ∧ f.content.length < 100) ∧
    parseMigrationSections docC3 = [] := by
  decide

/-- C4, counterexample: a flushed batch containing a section headed
`'Introduction'` keeps that heading in the `' / '` join —
`flushBatch` filters only empty headings, not `'Introduction'`. -/
theorem C4_counterexample :
    ∃ f ∈ mergeHierarchicalSections treeC4 cfgC4,
      f.heading = "Introduction / HeadB".data ∧
      f.heading ≠ "HeadB".data := by
  decide

/-- C9, counterexample: on `docC9`, raising `maxChunkSize` from 110 to 130
(same `minChunkSize = 100`, `idealChunkSize = 105`, both configurations
satisfying `min < ideal < max`) makes the README pipeline emit two chunks
instead of one: with the smaller cap the split stage drops sub-`min`
fragments, with the larger cap those fragments combine into chunks that
survive. -/
theorem C9_counterexample :
    (parseReadmeSections ⟨110, 100, 105⟩ docC9).length = 1 ∧
    (parseReadmeSections ⟨130, 100, 105⟩ docC9).length = 2 := by
  decide

/-! ### C1: size invariant of the split stage -/

theorem length_dropWhile_le (p : Char → Bool) (l : Str) :
    (l.dropWhile p).length ≤ l.length := by
  induction l with
  | nil => simp
  | cons a t ih =>
    by_cases h : p a <;> simp [List.dropWhile, h] <;> omega

theorem trimStr_length_le (s : Str) : (trimStr s).length ≤ s.length := by
  unfold trimStr
  calc ((s.dropWhile isWs).reverse.dropWhile isWs).reverse.length
      = ((s.dropWhile isWs).reverse.dropWhile isWs).length := by simp
    _ ≤ (s.dropWhile isWs).reverse.length := length_dropWhile_le _ _
    _ = (s.dropWhile isWs).length := by simp
    _ ≤ s.length := length_dropWhile_le _ _

/-- Invariant carried through the `splitLargeFlatSection` loop. -/
def slfsInv (cfg : ChunkConfig) (s : FlatSection) (L : List Str)
    (acc : List FlatSection × Str × Nat) : Prop :=
  (∀ f ∈ acc.1, f.content.length ≤ cfg.maxChunkSize ∨
    ∃ p ∈ L, f.content = trimStr p) ∧
  (acc.2.1.length ≤ cfg.maxChunkSize ∨ acc.2.1 ∈ L) ∧
  (∀ f ∈ acc.1, f.level = s.level ∧ f.breadcrumbs = s.breadcrumbs)

theorem slfs_fold_inv (cfg : ChunkConfig) (s : FlatSection) (L : List Str) :
    ∀ (parts : List Str) (acc : List FlatSection × Str × Nat),
      (∀ p ∈ parts, p ∈ L) → slfsInv cfg s L acc →
      slfsInv cfg s L (parts.foldl (fun acc part =>
        if acc.2.1.length + part.length ≤ cfg.maxChunkSize then
          (acc.1, acc.2.1 ++ part, acc.2.2)
        else if (trimStr acc.2.1).length ≥ cfg.minChunkSize then
          (acc.1 ++ [{ s with
              heading := if acc.2.2 = 0 then s.heading
                         else s.heading ++ " (continued)".data,
              content := trimStr acc.2.1 }],
           part, acc.2.2 + 1)
        else (acc.1, part, acc.2.2)) acc) := by
  intro parts
  induction parts with
  | nil => intro acc _ h; exact h
  | cons p rest ih =>
    intro acc hmem hinv
    simp only [List.foldl_cons]
    apply ih _ (fun q hq => hmem q (List.mem_cons_of_mem _ hq))
    have hpL : p ∈ L := hmem p (List.mem_cons_self _ _)
    rcases hinv with ⟨h1, h2, h3⟩
    by_cases hfit : acc.2.1.length + p.length ≤ cfg.maxChunkSize
    · simp only [hfit, if_pos]
      refine ⟨h1, Or.inl (by simpa using hfit), h3⟩
    · simp only [hfit, if_neg, not_false_iff]
      by_cases hmin : (trimStr acc.2.1).length ≥ cfg.minChunkSize
      · simp only [hmin, if_pos]
        refine ⟨?_, Or.inr hpL, ?_⟩
        · intro f hf
          rcases List.mem_append.mp hf with hf | hf
          · exact h1 f hf
          · simp only [List.mem_singleton] at hf
            subst hf
            rcases h2 with h2 | h2
            · exact Or.inl (le_trans (trimStr_length_le _) h2)
            · exact Or.inr ⟨acc.2.1, h2, rfl⟩
        · intro f hf
          rcases List.mem_append.mp hf with hf | hf
          · exact h3 f hf
          · simp only [List.mem_singleton] at hf
            subst hf
            exact ⟨rfl, rfl⟩
      · simp only [hmin, if_neg, not_false_iff]
        exact ⟨h1, Or.inr hpL, h3⟩

/-- Every chunk `splitLargeFlatSection` emits is within the cap, or is the
trim of a single `splitByCodeBlocks` part of the section's content (one
fenced code block or one code-free text run), or is the whole section
returned by the empty-result fallback. -/
theorem splitLargeFlatSection_size (cfg : ChunkConfig) (s : FlatSection) :
    ∀ f ∈ splitLargeFlatSection cfg s,
      f.content.length ≤ cfg.maxChunkSize ∨
      (∃ p ∈ splitByCodeBlocks s.content, f.content = trimStr p) ∨
      f = s := by
  intro f hf
  unfold splitLargeFlatSection at hf
  by_cases hle : s.content.length ≤ cfg.maxChunkSize
  · simp only [hle, if_pos, List.mem_singleton] at hf
    subst hf
    exact Or.inl hle
  · simp only [hle, if_neg, not_false_iff] at hf
    set L := splitByCodeBlocks s.content with hL
    have hinv := slfs_fold_inv cfg s L L (([], [], 0)) (fun p hp => hp)
      (by refine ⟨by simp, Or.inl (by simp), by simp⟩)
    set out := L.foldl (fun acc part =>
      if acc.2.1.length + part.length ≤ cfg.maxChunkSize then
        (acc.1, acc.2.1 ++ part, acc.2.2)
      else if (trimStr acc.2.1).length ≥ cfg.minChunkSize then
        (acc.1 ++ [{ s with
            heading := if acc.2.2 = 0 then s.heading
                       else s.heading ++ " (continued)".data,
            content := trimStr acc.2.1 }],
         part, acc.2.2 + 1)
      else (acc.1, part, acc.2.2)) ([], [], 0) with hout
    rcases hinv with ⟨hres, hcur, -⟩
    by_cases hfin : 2 * (trimStr out.2.1).length ≥ cfg.minChunkSize
    · simp only [← hout, hfin, if_pos] at hf
      by_cases hne : out.1 ++ [{ s with
          heading := if out.2.2 = 0 then s.heading
                     else s.heading ++ " (continued)".data,
          content := trimStr out.2.1 }] = []
      · simp at hne
      · simp only [hne, if_neg, not_false_iff] at hf
        rcases List.mem_append.mp hf with hf | hf
        · rcases hres f hf with h | h
          · exact Or.inl h
          · exact Or.inr (Or.inl h)
        · simp only [List.mem_singleton] at hf
          subst hf
          rcases hcur with h | h
          · exact Or.inl (le_trans (trimStr_length_le _) h)
          · exact Or.inr (Or.inl ⟨out.2.1, h, rfl⟩)
    · simp only [← hout, hfin, if_neg, not_false_iff] at hf
      by_cases hne : out.1 = []
      · simp only [hne, if_pos, List.mem_singleton] at hf
        subst hf
        exact Or.inr (Or.inr rfl)
      · simp only [hne, if_neg, not_false_iff] at hf
        rcases hres f hf with h | h
        · exact Or.inl h
        · exact Or.inr (Or.inl h)

/-- C1, amended: every chunk of the merge/split pipeline is within
`maxChunkSize`, or is the trim of a single `splitByCodeBlocks` part of its
merged section (a single fenced code block or a single code-free text run —
not only code blocks escape the cap), or is a section passed through whole
by the empty-result fallback of `splitLargeFlatSection`; `parseMigration`
applies no splitting, so only the merge bounds its chunks. -/
theorem C1_amended_size (cfg : ChunkConfig) (sections : List Section) :
    ∀ f ∈ (mergeHierarchicalSections sections cfg).flatMap
        (splitLargeFlatSection cfg),
      f.content.length ≤ cfg.maxChunkSize ∨
      ∃ s ∈ mergeHierarchicalSections sections cfg,
        (∃ p ∈ splitByCodeBlocks s.content, f.content = trimStr p) ∨ f = s := by
  intro f hf
  rcases List.mem_flatMap.mp hf with ⟨s, hs, hfs⟩
  rcases splitLargeFlatSection_size cfg s f hfs with h | h | h
  · exact Or.inl h
  · exact Or.inr ⟨s, hs, Or.inl h⟩
  · exact Or.inr ⟨s, hs, Or.inr h⟩

/-- Witness: `C1_amended_size` applied to the concrete oversized-text
pipeline run of `treeC1`. -/
theorem C1_amended_size_witness :
    (⟨"H".data, 1, List.replicate 12 'a', []⟩ : FlatSection) ∈
      (mergeHierarchicalSections treeC1 cfgC1).flatMap
        (splitLargeFlatSection cfgC1) ∧
    ((⟨"H".data, 1, List.replicate 12 'a', []⟩ : FlatSection).content.length ≤
        cfgC1.maxChunkSize ∨
      ∃ s ∈ mergeHierarchicalSections treeC1 cfgC1,
        (∃ p ∈ splitByCodeBlocks s.content,
          (⟨"H".data, 1, List.replicate 12 'a', []⟩ : FlatSection).content =
            trimStr p) ∨
        (⟨"H".data, 1, List.replicate 12 'a', []⟩ : FlatSection) = s) :=
  ⟨by decide, C1_amended_size cfgC1 treeC1 _ (by decide)⟩

/-! ### C3: the case-3 dispatch -/

/-- C3, amended (the true part of the claim): in case 3 of the hierarchical
merge (section neither an adequate leaf nor a fitting subtree, total size
over the cap) the section's own content is emitted, ahead of the children's
chunks, exactly when `2 * |content| ≥ minChunkSize` (i.e. `|content| ≥
minChunkSize / 2`).  The false part — that no chunker drops content at a
higher threshold — is refuted by `C3_counterexample`. -/
theorem C3_amended_case3 (cfg : ChunkConfig) (s : Section) (bc : List Str)
    (h1 : ¬ (s.content.length ≥ cfg.minChunkSize ∧ s.children = []))
    (h2 : ¬ (getSectionSize s ≤ cfg.maxChunkSize ∧
              getSectionSize s ≥ cfg.minChunkSize))
    (h3 : getSectionSize s > cfg.maxChunkSize) :
    processSection cfg s bc =
      (if 2 * s.content.length ≥ cfg.minChunkSize then
        [⟨s.heading, s.level, s.content, bc⟩] else []) ++
      processChildren cfg (if s.heading ≠ [] then bc ++ [s.heading] else bc)
        s.children [] 0 := by
  rw [processSection_eq]
  simp only [if_neg h1, if_neg h2, if_pos h3]

/-- Witness: the case-3 dispatch at the concrete parent of `treeC4`. -/
theorem C3_amended_case3_witness :
    (¬ ((Section.mk "P".data 1 (List.replicate 25 'p')
          [.mk introHeading 2 "abc".data [],
           .mk "HeadB".data 2 "def".data []]).content.length ≥
            cfgC4.minChunkSize ∧
        (Section.mk "P".data 1 (List.replicate 25 'p')
          [.mk introHeading 2 "abc".data [],
           .mk "HeadB".data 2 "def".data []]).children = [])) ∧
    processSection cfgC4
      (.mk "P".data 1 (List.replicate 25 'p')
        [.mk introHeading 2 "abc".data [],
         .mk "HeadB".data 2 "def".data []]) [] =
      (if 2 * (List.replicate 25 'p').length ≥ cfgC4.minChunkSize then
        [⟨"P".data, 1, List.replicate 25 'p', []⟩] else []) ++
      processChildren cfgC4 ["P".data]
        [.mk introHeading 2 "abc".data [], .mk "HeadB".data 2 "def".data []]
        [] 0 := by
  constructor
  · decide
  · have := C3_amended_case3 cfgC4
      (.mk "P".data 1 (List.replicate 25 'p')
        [.mk introHeading 2 "abc".data [],
         .mk "HeadB".data 2 "def".data []]) []
      (by decide) (by decide) (by decide)
    simpa using this

/-! ### C4: merged-batch headings -/

/-- The two sibling sections of spec scenario 5. -/
def secsScenario5 : List Section :=
  [.mk "HeadingA".data 2 (List.replicate 50 'a') [],
   .mk "HeadingB".data 2 (List.replicate 50 'b') []]

/-- C4, amended: `flushBatch` joins with `' / '` the member headings after
filtering out only *empty* headings (with fallback `'Combined Section'`);
the `'Introduction'` filter belongs to `mergeBatch`, used by the flat
`mergeSections` — and there the scenario-5 merge of two 50-character
siblings under `idealChunkSize = 800`, `minChunkSize = 250` does produce a
single section headed `'HeadingA / HeadingB'`. -/
theorem C4_amended (batch : List Section) (bc : List Str)
    (hlen : 2 ≤ batch.length) :
    (∃ f, flushBatch batch bc = [f] ∧
      f.heading =
        (let j := joinSep (" / ".data)
          ((batch.map Section.heading).filter (· ≠ []));
         if j = [] then "Combined Section".data else j)) ∧
    (mergeSections secsScenario5 ⟨2000, 250, 800⟩).map Section.heading =
      ["HeadingA / HeadingB".data] := by
  constructor
  · match batch, hlen with
    | a :: b :: rest, _ =>
      refine ⟨_, rfl, ?_⟩
      rfl
  · decide

/-- Witness: `C4_amended` at the concrete flushed batch of `treeC4`. -/
theorem C4_amended_witness :
    2 ≤ ([Section.mk introHeading 2 "abc".data [],
          Section.mk "HeadB".data 2 "def".data []] : List Section).length ∧
    ∃ f, flushBatch
        [Section.mk introHeading 2 "abc".data [],
         Section.mk "HeadB".data 2 "def".data []] ["P".data] = [f] ∧
      f.heading = "Introduction / HeadB".data := by
  refine ⟨by decide, ?_⟩
  rcases (C4_amended
    [Section.mk introHeading 2 "abc".data [],
     Section.mk "HeadB".data 2 "def".data []] ["P".data] (by decide)).1
    with ⟨f, hf, hh⟩
  exact ⟨f, hf, by rw [hh]; decide⟩

/-! ### C10: `splitByCodeBlocks` is a lossless partition -/

theorem splitByCodeBlocks_flatten (s : Str) :
    (splitByCodeBlocks s).flatten = s := by
  generalize hn : s.length = n
  induction n using Nat.strong_induction_on generalizing s with
  | _ n ih =>
    rw [splitByCodeBlocks_eq]
    cases hf : findSub fence s with
    | none =>
      by_cases hs : s = [] <;> simp [hs]
    | some a =>
      dsimp only
      cases hg : findSub fence (s.drop (a + 3)) with
      | none =>
        have : s ≠ [] := findSub_some_ne_nil fence_ne_nil hf
        simp [this]
      | some b =>
        have hle := match_len_ge_6 hf hg
        have hlen : 0 < s.length := by omega
        have hrest : (splitByCodeBlocks (s.drop (a + 3 + b + 3))).flatten =
            s.drop (a + 3 + b + 3) :=
          ih (s.drop (a + 3 + b + 3)).length (by simp; omega) _ rfl
        have hdd : (s.drop a).drop (b + 6) = s.drop (a + 3 + b + 3) := by
          rw [List.drop_drop]
          congr 1
          omega
        have key : s.take a ++
            ((s.drop a).take (b + 6) ++ s.drop (a + 3 + b + 3)) = s := by
          rw [← hdd, List.take_append_drop, List.take_append_drop]
        by_cases ha : 0 < a
        · simpa [ha, hrest] using key
        · have ha0 : a = 0 := by omega
          subst ha0
          simpa [ha, hrest] using key

theorem cbScan_map_snd (s : Str) :
    (cbScan s).map Prod.snd = splitByCodeBlocks s := by
  generalize hn : s.length = n
  induction n using Nat.strong_induction_on generalizing s with
  | _ n ih =>
    rw [cbScan_eq, splitByCodeBlocks_eq]
    cases hf : findSub fence s with
    | none => by_cases hs : s = [] <;> simp [hs]
    | some a =>
      dsimp only
      cases hg : findSub fence (s.drop (a + 3)) with
      | none =>
        by_cases hs : s = [] <;> simp [hs]
      | some b =>
        have hle := match_len_ge_6 hf hg
        have hrest := ih (s.drop (a + 3 + b + 3)).length (by simp; omega) _ rfl
        by_cases ha : 0 < a <;> simp [ha, hrest]

/-- The code blocks identified by the scan. -/
def codeBlocks (s : Str) : List Str :=
  ((cbScan s).filter (fun p => p.1)).map Prod.snd

theorem codeBlocks_sub_parts (s : Str) :
    ∀ b ∈ codeBlocks s, b ∈ splitByCodeBlocks s := by
  intro b hb
  rw [← cbScan_map_snd]
  unfold codeBlocks at hb
  rcases List.mem_map.mp hb with ⟨p, hp, hps⟩
  exact List.mem_map.mpr ⟨p, (List.mem_filter.mp hp).1, hps⟩

/-! ### Occurrence toolkit for fence counting -/

/-- No ``` fence occurs in `x`. -/
def noFence (x : Str) : Prop := findSub fence x = none

/-- `x` is empty or does not end in a backtick (safe to append after). -/
def endsOK (x : Str) : Prop := x = [] ∨ x.getLast? ≠ some tick

/-- `x` is empty or does not start with a backtick. -/
def startsOK (x : Str) : Prop := x = [] ∨ x.head? ≠ some tick

theorem findSub_none_iff {pat s : Str} :
    findSub pat s = none ↔ ∀ i, ¬ pat <+: s.drop i := by
  induction s with
  | nil =>
    simp only [List.drop_nil, List.prefix_nil]
    by_cases hp : pat = []
    · subst hp
      simp [findSub, List.isPrefixOf_iff_prefix]
    · simp [findSub, List.isPrefixOf_iff_prefix, hp]
  | cons c t ih =>
    simp only [findSub, List.isPrefixOf_iff_prefix]
    by_cases hc : pat <+: (c :: t)
    · simp only [hc, if_pos]
      constructor
      · intro h; exact Option.noConfusion h
      · intro h; exact absurd hc (by simpa using h 0)
    · simp only [hc, if_neg, not_false_iff, Option.map_eq_none']
      rw [ih]
      constructor
      · intro h i
        cases i with
        | zero => simpa using hc
        | succ j => simpa using h j
      · intro h j
        simpa using h (j + 1)

theorem noFence_iff {x : Str} : noFence x ↔ ∀ i, ¬ fence <+: x.drop i :=
  findSub_none_iff

theorem prefix_append_left {p a b : Str} (h : p <+: a ++ b)
    (hl : p.length ≤ a.length) : p <+: a := by
  have h1 : p = (a ++ b).take p.length := List.prefix_iff_eq_take.mp h
  have h2 : (a ++ b).take p.length = a.take p.length := by
    rw [List.take_append_eq_append_take]
    have h3 : p.length - a.length = 0 := by omega
    simp [h3]
  rw [h1, h2]
  exact List.take_prefix _ _

theorem drop_append_left {a b : Str} {i : Nat} (h : i ≤ a.length) :
    (a ++ b).drop i = a.drop i ++ b :=
  List.drop_append_of_le_length h

theorem drop_append_right (a b : Str) (j : Nat) :
    (a ++ b).drop (a.length + j) = b.drop j := by
  rw [List.drop_append_eq_append_drop]
  have h1 : a.drop (a.length + j) = [] := List.drop_eq_nil_of_le (by omega)
  rw [h1]
  simp

theorem fence_prefix_length {s : Str} {i : Nat} (h : fence <+: s.drop i) :
    i + 3 ≤ s.length := by
  rcases h with ⟨t, ht⟩
  have := congrArg List.length ht
  simp only [List.length_append, List.length_drop] at this
  have h3 : fence.length = 3 := by simp [fence]
  rw [h3] at this
  by_cases hi : i ≤ s.length
  · omega
  · exfalso
    have : s.drop i = [] := List.drop_eq_nil_of_le (by omega)
    rw [this] at ht
    have := congrArg List.length ht
    simp [h3] at this

/-- Case analysis of a fence occurrence in an append: the occurrence lies in
the left part, in the right part, or spans the boundary — and a spanning
occurrence forces a backtick at the end of the left part and at the start of
the right part. -/
theorem occ_split {x y : Str} {i : Nat} (h : fence <+: (x ++ y).drop i) :
    (i + 3 ≤ x.length ∧ fence <+: x.drop i) ∨
    (x.length ≤ i ∧ fence <+: y.drop (i - x.length)) ∨
    (i < x.length ∧ x.length < i + 3 ∧ x.getLast? = some tick ∧
      y.head? = some tick) := by
  by_cases h1 : i + 3 ≤ x.length
  · left
    refine ⟨h1, ?_⟩
    rw [drop_append_left (by omega)] at h
    exact prefix_append_left h (by simp [fence]; omega)
  · by_cases h2 : x.length ≤ i
    · right; left
      refine ⟨h2, ?_⟩
      have : i = x.length + (i - x.length) := by omega
      rw [this, drop_append_right] at h
      exact h
    · right; right
      push_neg at h1 h2
      rcases h with ⟨t, ht⟩
      have hxe : x ≠ [] := by
        intro hx
        subst hx
        simp at h2
      have hidx : x.length - 1 < x.length := by omega
      have hi3 : x.length - 1 - i < fence.length := by simp [fence]; omega
      have hlast : x.getLast? = some tick := by
        have e1 : (x ++ y)[x.length - 1]? = x[x.length - 1]? :=
          List.getElem?_append_left hidx
        have e2 : ((x ++ y).drop i)[x.length - 1 - i]? =
            (x ++ y)[i + (x.length - 1 - i)]? :=
          List.getElem?_drop _ _ _
        have e3 : ((x ++ y).drop i)[x.length - 1 - i]? =
            (fence ++ t)[x.length - 1 - i]? := by rw [ht]
        have e4 : (fence ++ t)[x.length - 1 - i]? =
            fence[x.length - 1 - i]? :=
          List.getElem?_append_left hi3
        have e5 : fence[x.length - 1 - i]? = some tick := by
          have h5 : x.length - 1 - i < 3 := by simpa [fence] using hi3
          interval_cases h : (x.length - 1 - i) <;> simp [fence]
        have hieq : i + (x.length - 1 - i) = x.length - 1 := by omega
        rw [List.getLast?_eq_getElem?, ← e1, ← hieq, ← e2, e3, e4, e5]
      have hhead : y.head? = some tick := by
        have hylen : 0 < y.length := by
          have := fence_prefix_length (⟨t, ht⟩ : fence <+: (x ++ y).drop i)
          simp only [List.length_append] at this
          omega
        have hix : x.length - i < fence.length := by simp [fence]; omega
        have e1 : (x ++ y)[x.length]? = y[0]? := by
          have hd := drop_append_right x y 0
          simp only [Nat.add_zero, List.drop_zero] at hd
          have e := List.getElem?_drop (x ++ y) x.length 0
          simp only [Nat.add_zero] at e
          rw [← e, hd]
        have e2 : ((x ++ y).drop i)[x.length - i]? =
            (x ++ y)[i + (x.length - i)]? :=
          List.getElem?_drop _ _ _
        have e3 : ((x ++ y).drop i)[x.length - i]? = (fence ++ t)[x.length - i]? := by
          rw [ht]
        have e4 : (fence ++ t)[x.length - i]? = fence[x.length - i]? :=
          List.getElem?_append_left hix
        have e5 : fence[x.length - i]? = some tick := by
          have h5 : x.length - i < 3 := by simpa [fence] using hix
          interval_cases h : (x.length - i) <;> simp [fence]
        have hieq : i + (x.length - i) = x.length := by omega
        rw [List.head?_eq_getElem?, ← e1, ← hieq, ← e2, e3, e4, e5]
      exact ⟨h2, by omega, hlast, hhead⟩

theorem occ_in_left {x y : Str} {i : Nat} (hi : i + 3 ≤ x.length)
    (h : fence <+: x.drop i) : fence <+: (x ++ y).drop i := by
  rw [drop_append_left (by omega)]
  exact h.trans (List.prefix_append _ _)

theorem occ_in_right {x y : Str} {j : Nat} (h : fence <+: y.drop j) :
    fence <+: (x ++ y).drop (x.length + j) := by
  rw [drop_append_right]
  exact h


/-! ### Fence count composition -/

theorem countFences_eq_zero {x : Str} (h : noFence x) : countFences x = 0 := by
  rw [countFences_eq, h]

theorem noFence_of_count_zero {x : Str} (h : countFences x = 0) : noFence x := by
  rw [countFences_eq] at h
  cases hf : findSub fence x with
  | none => exact hf
  | some a => rw [hf] at h; simp at h

theorem findSub_fence_zero {z : Str} (h : fence <+: z) :
    findSub fence z = some 0 := by
  apply findSub_some_iff.mpr
  exact ⟨by simpa using h, by omega⟩

theorem count_fence_append (z : Str) :
    countFences (fence ++ z) = 1 + countFences z := by
  rw [countFences_eq, findSub_fence_zero (List.prefix_append _ _)]
  dsimp only
  have h : (fence ++ z).drop (0 + 3) = z := by
    have := drop_append_right fence z 0
    simpa [fence] using this
  rw [h]

/-- Appending after a fence-free string that does not end in a backtick
leaves the fence count of the tail unchanged. -/
theorem count_safe_append {T Y : Str} (hnf : noFence T) (he : endsOK T) :
    countFences (T ++ Y) = countFences Y := by
  cases hf : findSub fence (T ++ Y) with
  | none =>
    have hy : noFence Y := by
      apply findSub_none_iff.mpr
      intro j hj
      exact findSub_none_iff.mp hf (T.length + j) (occ_in_right hj)
    rw [countFences_eq, hf, countFences_eq, hy]
  | some i =>
    rcases findSub_some_iff.mp hf with ⟨hocc, hmin⟩
    rcases occ_split hocc with ⟨hle, hin⟩ | ⟨hge, hin⟩ | ⟨hlt, hgt, hlast, -⟩
    · exact absurd hin (findSub_none_iff.mp hnf i)
    · have hY : findSub fence Y = some (i - T.length) := by
        apply findSub_some_iff.mpr
        refine ⟨hin, ?_⟩
        intro j hj hoc
        exact hmin (T.length + j) (by omega) (occ_in_right hoc)
      rw [countFences_eq, hf, countFences_eq, hY]
      dsimp only
      have hdrop : (T ++ Y).drop (i + 3) = Y.drop (i - T.length + 3) := by
        have : i + 3 = T.length + (i - T.length + 3) := by omega
        rw [this, drop_append_right]
      rw [hdrop]
    · rcases he with he | he
      · subst he
        simp at hlt
      · rw [List.getLast?_eq_getElem?] at hlast
        exact absurd (by rw [← List.getLast?_eq_getElem?] at hlast; exact hlast) he

/-- A complete fenced block contributes exactly two fences in front of any
tail. -/
theorem count_block_append {m : Str} (Y : Str) (hnf : noFence m)
    (he : endsOK m) :
    countFences (fence ++ m ++ fence ++ Y) = 2 + countFences Y := by
  have h1 : fence ++ m ++ fence ++ Y = fence ++ (m ++ (fence ++ Y)) := by
    simp [List.append_assoc]
  rw [h1, count_fence_append, count_safe_append hnf he, count_fence_append]
  omega

/-- Characters of an all-whitespace string admit no fence. -/
def allWs (w : Str) : Prop := ∀ c ∈ w, isWs c

theorem tick_not_ws : isWs tick = false := by decide

theorem allWs_noFence {w : Str} (h : allWs w) : noFence w := by
  apply findSub_none_iff.mpr
  intro i hp
  rcases hp with ⟨t, ht⟩
  have hmem : tick ∈ w.drop i := by
    rw [← ht]
    simp [fence]
  have := h tick (List.mem_of_mem_drop hmem)
  rw [tick_not_ws] at this
  exact Bool.noConfusion this

theorem allWs_endsOK {w : Str} (h : allWs w) : endsOK w := by
  cases hw : w.getLast? with
  | none => left; exact List.getLast?_eq_none_iff.mp hw
  | some c =>
    right
    rw [hw]
    intro hc
    injection hc with hc
    subst hc
    have hmem : tick ∈ w := List.mem_of_mem_getLast? hw
    have := h tick hmem
    rw [tick_not_ws] at this
    exact Bool.noConfusion this

/-- Appending trailing whitespace does not change the fence count. -/
theorem count_append_ws {x w : Str} (hw : allWs w) :
    countFences (x ++ w) = countFences x := by
  generalize hn : x.length = n
  induction n using Nat.strong_induction_on generalizing x with
  | _ n ih =>
    cases hf : findSub fence (x ++ w) with
    | none =>
      have hx : noFence x := by
        apply findSub_none_iff.mpr
        intro i hp
        have h3 := fence_prefix_length hp
        exact findSub_none_iff.mp hf i (occ_in_left h3 hp)
      rw [countFences_eq, hf, countFences_eq, hx]
    | some i =>
      rcases findSub_some_iff.mp hf with ⟨hocc, hmin⟩
      rcases occ_split hocc with ⟨hle, hin⟩ | ⟨hge, hin⟩ | ⟨-, -, -, hhead⟩
      · have hx : findSub fence x = some i := by
          apply findSub_some_iff.mpr
          refine ⟨hin, ?_⟩
          intro j hj hoc
          exact hmin j hj (occ_in_left (fence_prefix_length hoc) hoc)
        rw [countFences_eq, hf, countFences_eq, hx]
        dsimp only
        have hdrop : (x ++ w).drop (i + 3) = x.drop (i + 3) ++ w :=
          drop_append_left hle
        rw [hdrop, ih (x.drop (i + 3)).length (by simp; omega) rfl]
      · exact absurd hin (findSub_none_iff.mp (allWs_noFence hw) _)
      · have : tick ∈ w := by
          cases w with
          | nil => simp at hhead
          | cons c t =>
            simp only [List.head?_cons] at hhead
            cases hhead
            exact List.mem_cons_self _ _
        have := hw tick this
        rw [tick_not_ws] at this
        exact Bool.noConfusion this

theorem allWs_takeWhile (x : Str) : allWs (x.takeWhile isWs) := by
  intro c hc
  exact List.mem_takeWhile_imp hc

/-- Trimming does not change the fence count. -/
theorem count_trim (x : Str) : countFences (trimStr x) = countFences x := by
  have hsplit1 : x = x.takeWhile isWs ++ x.dropWhile isWs :=
    (List.takeWhile_append_dropWhile _ _).symm
  set A := x.dropWhile isWs with hA
  have h1 : countFences x = countFences A := by
    conv_lhs => rw [hsplit1]
    exact count_safe_append (allWs_noFence (allWs_takeWhile x))
      (allWs_endsOK (allWs_takeWhile x))
  have hsplit2 : A = trimStr x ++ (A.reverse.takeWhile isWs).reverse := by
    have : A.reverse = A.reverse.takeWhile isWs ++ A.reverse.dropWhile isWs :=
      (List.takeWhile_append_dropWhile _ _).symm
    calc A = A.reverse.reverse := by simp
    _ = (A.reverse.takeWhile isWs ++ A.reverse.dropWhile isWs).reverse := by
        rw [← this]
    _ = (A.reverse.dropWhile isWs).reverse ++ (A.reverse.takeWhile isWs).reverse := by
        rw [List.reverse_append]
    _ = trimStr x ++ (A.reverse.takeWhile isWs).reverse := rfl
  have h2 : countFences A = countFences (trimStr x) := by
    conv_lhs => rw [hsplit2]
    apply count_append_ws
    intro c hc
    rw [List.mem_reverse] at hc
    exact List.mem_takeWhile_imp hc
  omega


/-! ### Structure of the code-block scan -/

/-- A complete fenced block: opening fence, fence-free body not ending in a
backtick, closing fence. -/
def isBlockStr (b : Str) : Prop :=
  ∃ m, b = fence ++ m ++ fence ∧ noFence m ∧ endsOK m

/-- A fence-free text run not ending in a backtick. -/
def isSafeText (t : Str) : Prop := noFence t ∧ endsOK t

theorem occ_of_take {s : Str} {n i : Nat} (h : fence <+: (s.take n).drop i) :
    fence <+: s.drop i ∧ i + 3 ≤ n := by
  have hlen := fence_prefix_length h
  simp only [List.length_take] at hlen
  rw [List.drop_take] at h
  exact ⟨h.trans (List.take_prefix _ _), by omega⟩

/-- The gap before the first fence occurrence is fence-free. -/
theorem noFence_take_first {s : Str} {a : Nat}
    (hf : findSub fence s = some a) : noFence (s.take a) := by
  rcases findSub_some_iff.mp hf with ⟨hocc, hmin⟩
  apply findSub_none_iff.mpr
  intro i hp
  rcases occ_of_take hp with ⟨hocc2, hle⟩
  exact hmin i (by omega) hocc2

/-- The gap before the first fence occurrence does not end in a backtick
(otherwise the fence would start one position earlier). -/
theorem endsOK_take_first {s : Str} {a : Nat}
    (hf : findSub fence s = some a) : endsOK (s.take a) := by
  rcases findSub_some_iff.mp hf with ⟨hocc, hmin⟩
  have hlen : a + 3 ≤ s.length := fence_prefix_length hocc
  by_cases ha : a = 0
  · subst ha; left; simp
  · right
    intro hlast
    have htake : (s.take a).length = a := by
      rw [List.length_take]
      omega
    rw [List.getLast?_eq_getElem?, htake] at hlast
    have hgetm : (s.take a)[a - 1]? = s[a - 1]? :=
      List.getElem?_take_of_lt (by omega)
    rw [hgetm] at hlast
    have hchar : s[a - 1]? = some tick := hlast
    have hdm : s.drop (a - 1) = tick :: s.drop a := by
      have h1 : s.drop (a - 1) = s[a - 1] :: s.drop a := by
        have := List.drop_eq_getElem_cons (l := s) (by omega : a - 1 < s.length)
        have hidx : a - 1 + 1 = a := by omega
        rw [hidx] at this
        exact this
      rw [h1]
      congr 1
      have := List.getElem?_eq_getElem (l := s) (by omega : a - 1 < s.length)
      rw [this] at hchar
      injection hchar
  -- an occurrence of the fence at `a - 1`
    rcases hocc with ⟨t, ht⟩
    have hocc1 : fence <+: s.drop (a - 1) := by
      rw [hdm, ← ht]
      refine ⟨fence.drop 2 ++ t, ?_⟩
      simp [fence]
    exact hmin (a - 1) (by omega) hocc1

/-- Shape of the block between the first fence and the next one. -/
theorem block_shape {s : Str} {a b : Nat}
    (hf : findSub fence s = some a)
    (hg : findSub fence (s.drop (a + 3)) = some b) :
    (s.drop a).take (b + 6) =
      fence ++ (s.drop (a + 3)).take b ++ fence ∧
    noFence ((s.drop (a + 3)).take b) ∧ endsOK ((s.drop (a + 3)).take b) := by
  rcases findSub_some_iff.mp hf with ⟨hocc, -⟩
  have hsplit : s.drop a = fence ++ s.drop (a + 3) := by
    rcases hocc with ⟨t, ht⟩
    have h1 : s.drop (a + 3) = (s.drop a).drop 3 := (List.drop_drop 3 a s).symm
    rw [h1, ← ht]
    have h2 : (fence ++ t).drop 3 = t := by
      have := drop_append_right fence t 0
      simpa [fence] using this
    rw [h2]
  constructor
  · rw [hsplit]
    have hf3 : fence.length = 3 := by simp [fence]
    have h3 : (fence ++ s.drop (a + 3)).take (b + 6) =
        fence ++ (s.drop (a + 3)).take (b + 3) := by
      rw [List.take_append_eq_append_take, hf3]
      have hidx : b + 6 - 3 = b + 3 := by omega
      rw [hidx, List.take_of_length_le (by rw [hf3]; omega)]
    rw [h3]
    have h4 : (s.drop (a + 3)).take (b + 3) =
        (s.drop (a + 3)).take b ++ ((s.drop (a + 3)).drop b).take 3 :=
      List.take_add _ _ _
    rcases (findSub_some_iff.mp hg).1 with ⟨u, hu⟩
    have h5 : ((s.drop (a + 3)).drop b).take 3 = fence := by
      rw [← hu, List.take_append_eq_append_take, hf3]
      simp [fence]
    rw [h4, h5]
    simp [List.append_assoc]
  · exact ⟨noFence_take_first hg, endsOK_take_first hg⟩

/-- Fence-count decomposition across the first block. -/
theorem count_decomp {s : Str} {a b : Nat}
    (hf : findSub fence s = some a)
    (hg : findSub fence (s.drop (a + 3)) = some b) :
    countFences s = 2 + countFences (s.drop (a + 3 + b + 3)) := by
  have e1 : countFences s = 1 + countFences (s.drop (a + 3)) := by
    rw [countFences_eq, hf]
  have e2 : countFences (s.drop (a + 3)) =
      1 + countFences ((s.drop (a + 3)).drop (b + 3)) := by
    rw [countFences_eq, hg]
  have h1 := List.drop_drop (b + 3) (a + 3) s
  have h2 : a + 3 + (b + 3) = a + 3 + b + 3 := by omega
  rw [h2] at h1
  rw [e1, e2, h1]
  omega


theorem countFences_nil : countFences ([] : Str) = 0 := by
  rw [countFences_eq, findSub_nil_of_ne fence_ne_nil]

theorem isBlockStr_count {b : Str} (h : isBlockStr b) : countFences b = 2 := by
  rcases h with ⟨m, hb, hnf, he⟩
  have h1 : b = fence ++ m ++ fence ++ [] := by rw [hb]; simp
  rw [h1, count_block_append _ hnf he, countFences_nil]

/-- Structure of the scan's part list for a balanced document: every block
part is a complete fenced block, every gap part is fence-free, and every gap
except possibly the last also avoids a trailing backtick. -/
def partsOK : List (Bool × Str) → Prop
  | [] => True
  | (true, b) :: rest => isBlockStr b ∧ partsOK rest
  | [(false, g)] => noFence g
  | (false, g) :: rest => isSafeText g ∧ partsOK rest

theorem cbScan_partsOK {s : Str} (h : Even (countFences s)) :
    partsOK (cbScan s) := by
  generalize hn : s.length = n
  induction n using Nat.strong_induction_on generalizing s with
  | _ n ih =>
    rw [cbScan_eq]
    cases hf : findSub fence s with
    | none =>
      by_cases hs : s = []
      · simp [hs, partsOK]
      · simp only [hs, if_neg, not_false_iff]
        exact hf
    | some a =>
      dsimp only
      cases hg : findSub fence (s.drop (a + 3)) with
      | none =>
        exfalso
        have h1 : countFences s = 1 + countFences (s.drop (a + 3)) := by
          rw [countFences_eq, hf]
        have h2 : countFences (s.drop (a + 3)) = 0 := by
          rw [countFences_eq, hg]
        rw [h1, h2] at h
        simp [Nat.even_add_one] at h
      | some b =>
        dsimp only
        have hle := match_len_ge_6 hf hg
        have heven : Even (countFences (s.drop (a + 3 + b + 3))) := by
          have := count_decomp hf hg
          rw [this] at h
          rcases h with ⟨k, hk⟩
          exact ⟨k - 1, by omega⟩
        have hrest : partsOK (cbScan (s.drop (a + 3 + b + 3))) :=
          ih (s.drop (a + 3 + b + 3)).length (by simp; omega) heven rfl
        rcases block_shape hf hg with ⟨hshape, hnfm, hem⟩
        have hblk : isBlockStr ((s.drop a).take (b + 6)) :=
          ⟨(s.drop (a + 3)).take b, hshape, hnfm, hem⟩
        by_cases ha : 0 < a
        · simp only [ha, if_pos, List.cons_append, List.nil_append]
          show partsOK ((false, s.take a) :: (true, (s.drop a).take (b + 6)) ::
            cbScan (s.drop (a + 3 + b + 3)))
          refine ⟨⟨noFence_take_first hf, endsOK_take_first hf⟩, hblk, hrest⟩
        · simp only [ha, if_neg, not_false_iff, List.nil_append]
          exact ⟨hblk, hrest⟩

/-- Chunk decomposition: blocks and safe text runs, with the last component
allowed to be any fence-free run. -/
def chainOK : List Str → Prop
  | [] => True
  | [c] => isBlockStr c ∨ noFence c
  | c :: rest => (isBlockStr c ∨ isSafeText c) ∧ chainOK rest

theorem chain_even : ∀ comps : List Str, chainOK comps →
    Even (countFences comps.flatten) := by
  intro comps
  induction comps with
  | nil => intro h; simp [countFences_nil]
  | cons c rest ih =>
    intro hc
    cases rest with
    | nil =>
      rcases hc with hb | hn
      · rw [List.flatten_cons, List.flatten_nil, List.append_nil,
          isBlockStr_count hb]
        exact ⟨1, rfl⟩
      · rw [List.flatten_cons, List.flatten_nil, List.append_nil,
          countFences_eq_zero hn]
        exact ⟨0, rfl⟩
    | cons d ds =>
      rcases hc with ⟨hcd, hrest⟩
      have hrest2 := ih hrest
      rw [List.flatten_cons]
      rcases hcd with hb | ⟨hn, he⟩
      · rcases hb with ⟨m, hbm, hnf, hem⟩
        have h1 : c ++ (d :: ds).flatten =
            fence ++ m ++ fence ++ (d :: ds).flatten := by rw [hbm]
        rw [h1, count_block_append _ hnf hem]
        rcases hrest2 with ⟨k, hk⟩
        exact ⟨k + 1, by omega⟩
      · rw [count_safe_append hn he]
        exact hrest2

theorem chainOK_of_strict {comps : List Str}
    (h : ∀ c ∈ comps, isBlockStr c ∨ isSafeText c) : chainOK comps := by
  induction comps with
  | nil => trivial
  | cons c rest ih =>
    cases rest with
    | nil =>
      rcases h c (List.mem_cons_self _ _) with hb | ⟨hn, -⟩
      · exact Or.inl hb
      · exact Or.inr hn
    | cons d ds =>
      exact ⟨h c (List.mem_cons_self _ _),
        ih (fun x hx => h x (List.mem_cons_of_mem _ hx))⟩

theorem chainOK_append_loose {comps : List Str} {p : Str}
    (h : ∀ c ∈ comps, isBlockStr c ∨ isSafeText c) (hp : noFence p) :
    chainOK (comps ++ [p]) := by
  induction comps with
  | nil => exact Or.inr hp
  | cons c rest ih =>
    have hc := h c (List.mem_cons_self _ _)
    have hrest := ih (fun x hx => h x (List.mem_cons_of_mem _ hx))
    cases hr : rest ++ [p] with
    | nil => simp at hr
    | cons d ds =>
      show chainOK (c :: (rest ++ [p]))
      rw [hr]
      exact ⟨hc, hr ▸ hrest⟩


theorem noFence_take {s : Str} (h : noFence s) (n : Nat) :
    noFence (s.take n) := by
  apply findSub_none_iff.mpr
  intro i hp
  exact findSub_none_iff.mp h i (occ_of_take hp).1

theorem noFence_drop {s : Str} (h : noFence s) (n : Nat) :
    noFence (s.drop n) := by
  apply findSub_none_iff.mpr
  intro i hp
  rw [List.drop_drop] at hp
  exact findSub_none_iff.mp h (n + i) hp

theorem noFence_append_of {x y : Str} (h1 : noFence x) (h2 : noFence y)
    (hxy : x.getLast? ≠ some tick ∨ y.head? ≠ some tick) :
    noFence (x ++ y) := by
  apply findSub_none_iff.mpr
  intro i hp
  rcases occ_split hp with ⟨-, hin⟩ | ⟨-, hin⟩ | ⟨-, -, hl, hh⟩
  · exact findSub_none_iff.mp h1 i hin
  · exact findSub_none_iff.mp h2 _ hin
  · rcases hxy with hxy | hxy
    · exact hxy hl
    · exact hxy hh

theorem allWs_nn : allWs nn := by
  intro c hc
  simp only [nn, List.mem_cons, List.not_mem_nil, or_false] at hc
  rcases hc with h | h <;> subst h <;> decide

theorem noFence_nn_append {y : Str} (h : noFence y) : noFence (nn ++ y) := by
  apply noFence_append_of (allWs_noFence allWs_nn) h
  left
  decide

theorem splitParas_ne_nil (s : Str) : splitParas s ≠ [] := by
  rw [splitParas_eq]
  cases findSub ['\n', '\n'] s <;> simp

theorem splitParas_noFence {g : Str} (h : noFence g) :
    ∀ p ∈ splitParas g, noFence p := by
  generalize hn : g.length = n
  induction n using Nat.strong_induction_on generalizing g with
  | _ n ih =>
    rw [splitParas_eq]
    cases hf : findSub ['\n', '\n'] g with
    | none =>
      intro p hp
      simp only [List.mem_singleton] at hp
      subst hp
      exact h
    | some a =>
      dsimp only
      intro p hp
      rcases List.mem_cons.mp hp with hp | hp
      · subst hp
        exact noFence_take h a
      · have hb := findSub_nn_bound hf
        exact ih (g.drop (a + ((g.drop a).takeWhile (· = '\n')).length)).length
          (by simp; omega) (noFence_drop h _) rfl p hp

theorem splitParas_last_suffix {g q : Str}
    (h : (splitParas g).getLast? = some q) : q <:+ g := by
  generalize hn : g.length = n
  induction n using Nat.strong_induction_on generalizing g q with
  | _ n ih =>
    rw [splitParas_eq] at h
    cases hf : findSub ['\n', '\n'] g with
    | none =>
      rw [hf] at h
      simp only [List.getLast?_singleton] at h
      cases h
      exact List.suffix_refl _
    | some a =>
      rw [hf] at h
      dsimp only at h
      have hne := splitParas_ne_nil (g.drop (a + ((g.drop a).takeWhile (· = '\n')).length))
      rcases List.exists_cons_of_ne_nil hne with ⟨d, ds, hds⟩
      rw [hds, List.getLast?_cons_cons, ← hds] at h
      have hb := findSub_nn_bound hf
      have := ih (g.drop (a + ((g.drop a).takeWhile (· = '\n')).length)).length
        (by simp; omega) h rfl
      exact this.trans (List.drop_suffix _ _)

/-- The running chunk is a concatenation of complete blocks and safe text
runs. -/
def StrictCur (cur : Str) : Prop :=
  ∃ comps : List Str, cur = comps.flatten ∧
    ∀ c ∈ comps, isBlockStr c ∨ isSafeText c

/-- The running chunk is a chain whose last component may be any fence-free
run. -/
def FinalCur (cur : Str) : Prop :=
  ∃ comps : List Str, cur = comps.flatten ∧ chainOK comps

theorem StrictCur_nil : StrictCur [] := ⟨[], by simp, by simp⟩

theorem StrictCur.final {cur : Str} (h : StrictCur cur) : FinalCur cur := by
  rcases h with ⟨comps, hc, hall⟩
  exact ⟨comps, hc, chainOK_of_strict hall⟩

theorem FinalCur.even {cur : Str} (h : FinalCur cur) :
    Even (countFences cur) := by
  rcases h with ⟨comps, hc, hall⟩
  rw [hc]
  exact chain_even comps hall

theorem FinalCur.even_trim {cur : Str} (h : FinalCur cur) :
    Even (countFences (trimStr cur)) := by
  rw [count_trim]
  exact h.even

theorem StrictCur.trimEven {cur : Str} (h : StrictCur cur) :
    Even (countFences (trimStr cur)) := h.final.even_trim

theorem StrictCur.append_comp {cur p : Str} (h : StrictCur cur)
    (hp : isBlockStr p ∨ isSafeText p) : StrictCur (cur ++ p) := by
  rcases h with ⟨comps, hc, hall⟩
  refine ⟨comps ++ [p], by rw [hc]; simp, ?_⟩
  intro c hcm
  rcases List.mem_append.mp hcm with hcm | hcm
  · exact hall c hcm
  · simp only [List.mem_singleton] at hcm
    subst hcm
    exact hp

theorem StrictCur.append_loose {cur p : Str} (h : StrictCur cur)
    (hp : noFence p) : FinalCur (cur ++ p) := by
  rcases h with ⟨comps, hc, hall⟩
  exact ⟨comps ++ [p], by rw [hc]; simp, chainOK_append_loose hall hp⟩

theorem FinalCur_of_noFence {x : Str} (h : noFence x) : FinalCur x :=
  ⟨[x], by simp, Or.inr h⟩

theorem StrictCur_of_safe {x : Str} (h : isSafeText x) : StrictCur x := by
  refine ⟨[x], by simp, ?_⟩
  intro c hc
  simp only [List.mem_singleton] at hc
  subst hc
  exact Or.inr h

theorem StrictCur_of_block {x : Str} (h : isBlockStr x) : StrictCur x := by
  refine ⟨[x], by simp, ?_⟩
  intro c hc
  simp only [List.mem_singleton] at hc
  subst hc
  exact Or.inl h


theorem endsOK_suffix {q g : Str} (hs : q <:+ g) (he : endsOK g) :
    endsOK q := by
  by_cases hq : q = []
  · left; exact hq
  · right
    rcases hs with ⟨w, hw⟩
    rcases he with he | he
    · exfalso
      rw [← hw] at he
      exact hq (List.append_eq_nil.mp he).2
    · rw [← List.getLast?_append_of_ne_nil w hq, hw]
      exact he

theorem noFence_para_append {pk q : Str} (h1 : noFence pk) (h2 : noFence q) :
    noFence (pk ++ (if pk ≠ [] then nn ++ q else q)) := by
  by_cases hpk : pk = []
  · simp only [hpk, ne_eq, not_true_eq_false, if_neg, not_false_iff]
    simpa [hpk] using h2
  · simp only [ne_eq, hpk, not_false_iff, if_pos]
    apply noFence_append_of h1 (noFence_nn_append h2)
    right
    simp [nn]
    decide

/-- Invariant of the paragraph loop of `splitOversizedSection`: every pushed
chunk has an even fence count and the pending paragraph chunk stays
fence-free. -/
theorem paraFold_inv (maxSize : Nat) :
    ∀ (qs : List Str) (pchunks : List Str) (pk : Str),
      (∀ q ∈ qs, noFence q) →
      (∀ c ∈ pchunks, Even (countFences c)) →
      noFence pk →
      (∀ c ∈ (qs.foldl (paraStep maxSize) (pchunks, pk)).1,
        Even (countFences c)) ∧
      noFence (qs.foldl (paraStep maxSize) (pchunks, pk)).2 := by
  intro qs
  induction qs with
  | nil => intro pchunks pk _ h2 h3; exact ⟨h2, h3⟩
  | cons q rest ih =>
    intro pchunks pk h1 h2 h3
    simp only [List.foldl_cons]
    have hq : noFence q := h1 q (List.mem_cons_self _ _)
    have h1r : ∀ x ∈ rest, noFence x := fun x hx => h1 x (List.mem_cons_of_mem _ hx)
    unfold paraStep
    dsimp only
    by_cases hover : pk.length + q.length + 2 > maxSize
    · simp only [hover, if_pos]
      by_cases htr : trimStr pk ≠ []
      · rw [if_pos htr]
        apply ih _ q h1r ?_ hq
        intro c hc
        rcases List.mem_append.mp hc with hc | hc
        · exact h2 c hc
        · simp only [List.mem_singleton] at hc
          subst hc
          rw [count_trim, countFences_eq_zero h3]
          exact ⟨0, rfl⟩
      · rw [if_neg htr]
        exact ih _ q h1r h2 hq
    · simp only [hover, if_neg, not_false_iff]
      exact ih _ _ h1r h2 (noFence_para_append h3 hq)

/-- After the paragraph loop, the pending chunk is the last paragraph,
possibly preceded by earlier material and a blank-line separator. -/
theorem paraFold_last (maxSize : Nat) :
    ∀ (qs : List Str) (q : Str) (acc : List Str × Str),
      ((qs ++ [q]).foldl (paraStep maxSize) acc).2 = q ∨
      ∃ z, ((qs ++ [q]).foldl (paraStep maxSize) acc).2 = z ++ nn ++ q := by
  intro qs
  induction qs with
  | nil =>
    intro q acc
    simp only [List.nil_append, List.foldl_cons, List.foldl_nil]
    unfold paraStep
    dsimp only
    by_cases hover : acc.2.length + q.length + 2 > maxSize
    · simp [hover]
    · simp only [hover, if_neg, not_false_iff]
      by_cases hpk : acc.2 = []
      · simp [hpk]
      · simp only [ne_eq, hpk, not_false_iff, if_pos]
        right
        exact ⟨acc.2, by simp [List.append_assoc]⟩
  | cons p rest ih =>
    intro q acc
    simp only [List.cons_append, List.foldl_cons]
    exact ih q _


theorem noFence_nil : noFence ([] : Str) := findSub_nil_of_ne fence_ne_nil

theorem ossStep_big_code {maxSize : Nat} {chunks : List Str} {cur pc : Str}
    (h1 : pc.length > maxSize) :
    ossStep maxSize (chunks, cur) (true, pc) =
      ((if trimStr cur ≠ [] then chunks ++ [trimStr cur] else chunks) ++ [pc],
       if trimStr cur ≠ [] then [] else cur) := by
  unfold ossStep
  dsimp only
  rw [if_pos h1]
  rfl

theorem ossStep_big_text {maxSize : Nat} {chunks : List Str} {cur pc : Str}
    (h1 : pc.length > maxSize) :
    ossStep maxSize (chunks, cur) (false, pc) =
      (((splitParas pc).foldl (paraStep maxSize)
          ((if trimStr cur ≠ [] then chunks ++ [trimStr cur] else chunks),
           [])).1,
       if trimStr ((splitParas pc).foldl (paraStep maxSize)
          ((if trimStr cur ≠ [] then chunks ++ [trimStr cur] else chunks),
           [])).2 ≠ []
       then ((splitParas pc).foldl (paraStep maxSize)
          ((if trimStr cur ≠ [] then chunks ++ [trimStr cur] else chunks),
           [])).2
       else (if trimStr cur ≠ [] then [] else cur)) := by
  unfold ossStep
  dsimp only
  rw [if_pos h1]
  rfl

theorem ossStep_overflow {maxSize : Nat} {chunks : List Str} {cur pc : Str}
    {ic : Bool} (h1 : ¬ pc.length > maxSize)
    (h2 : cur.length + pc.length > maxSize) :
    ossStep maxSize (chunks, cur) (ic, pc) =
      ((if trimStr cur ≠ [] then chunks ++ [trimStr cur] else chunks), pc) := by
  unfold ossStep
  dsimp only
  rw [if_neg h1, if_pos h2]

theorem ossStep_append {maxSize : Nat} {chunks : List Str} {cur pc : Str}
    {ic : Bool} (h1 : ¬ pc.length > maxSize)
    (h2 : ¬ cur.length + pc.length > maxSize) :
    ossStep maxSize (chunks, cur) (ic, pc) = (chunks, cur ++ pc) := by
  unfold ossStep
  dsimp only
  rw [if_neg h1, if_neg h2]


/-- The pending chunk left by the paragraph loop never ends in a backtick
when the gap it was fed does not. -/
theorem para_out_endsOK (maxSize : Nat) (g : Str) (acc : List Str × Str)
    (hg : endsOK g) :
    endsOK ((splitParas g).foldl (paraStep maxSize) acc).2 := by
  rcases List.eq_nil_or_concat (splitParas g) with hnil | ⟨qs, q, hsplit⟩
  · exact absurd hnil (splitParas_ne_nil g)
  · rw [List.concat_eq_append] at hsplit
    have hqlast : (splitParas g).getLast? = some q := by rw [hsplit]; simp
    have hqsuf : q <:+ g := splitParas_last_suffix hqlast
    have hqok : endsOK q := endsOK_suffix hqsuf hg
    rw [hsplit]
    rcases paraFold_last maxSize qs q acc with hout | ⟨z, hout⟩
    · rw [hout]; exact hqok
    · rw [hout]
      by_cases hqe : q = []
      · subst hqe
        right
        rw [List.append_nil]
        rw [List.getLast?_append_of_ne_nil z (by simp [nn])]
        simp only [nn]
        decide
      · have hqt : q.getLast? ≠ some tick := by
          rcases hqok with h0 | h1
          · exact absurd h0 hqe
          · exact h1
        right
        rw [List.getLast?_append_of_ne_nil (z ++ nn) hqe]
        exact hqt

/-- Every part of a balanced scan has an even fence count. -/
theorem partsOK_even : ∀ {ps : List (Bool × Str)}, partsOK ps →
    ∀ pr ∈ ps, Even (countFences pr.2) := by
  intro ps
  induction ps with
  | nil => intro _ pr hpr; cases hpr
  | cons p rest ih =>
    intro hOK pr hpr
    obtain ⟨ic, pc⟩ := p
    cases ic with
    | true =>
      have hOK' : isBlockStr pc ∧ partsOK rest := hOK
      rcases List.mem_cons.mp hpr with hpr | hpr
      · subst hpr
        rw [isBlockStr_count hOK'.1]
        exact ⟨1, rfl⟩
      · exact ih hOK'.2 pr hpr
    | false =>
      cases rest with
      | nil =>
        have hg : noFence pc := hOK
        simp only [List.mem_singleton] at hpr
        subst hpr
        rw [countFences_eq_zero hg]
        exact ⟨0, rfl⟩
      | cons r rs =>
        have hOK' : isSafeText pc ∧ partsOK (r :: rs) := hOK
        rcases List.mem_cons.mp hpr with hpr | hpr
        · subst hpr
          rw [countFences_eq_zero hOK'.1.1]
          exact ⟨0, rfl⟩
        · exact ih hOK'.2 pr hpr

/-- Main invariant of the part loop of `splitOversizedSection`: starting from
even pushed chunks and a chain-structured running chunk, every pushed chunk
stays even and the final running chunk is a chain. -/
theorem oss_fold_inv (maxSize : Nat) :
    ∀ (ps : List (Bool × Str)) (chunks : List Str) (cur : Str),
      partsOK ps →
      (∀ c ∈ chunks, Even (countFences c)) →
      StrictCur cur →
      (∀ c ∈ (ps.foldl (ossStep maxSize) (chunks, cur)).1,
        Even (countFences c)) ∧
      FinalCur (ps.foldl (ossStep maxSize) (chunks, cur)).2 := by
  intro ps
  induction ps with
  | nil =>
    intro chunks cur _ h2 h3
    exact ⟨h2, h3.final⟩
  | cons p rest ih =>
    intro chunks cur hOK h2 h3
    obtain ⟨ic, pc⟩ := p
    simp only [List.foldl_cons]
    have hch1 : ∀ c ∈ (if trimStr cur ≠ [] then chunks ++ [trimStr cur]
        else chunks), Even (countFences c) := by
      by_cases htr : trimStr cur ≠ []
      · rw [if_pos htr]
        intro c hc
        rcases List.mem_append.mp hc with hc | hc
        · exact h2 c hc
        · simp only [List.mem_singleton] at hc
          subst hc
          exact h3.trimEven
      · rw [if_neg htr]
        exact h2
    have hcur1 : StrictCur (if trimStr cur ≠ [] then [] else cur) := by
      by_cases htr : trimStr cur ≠ []
      · rw [if_pos htr]; exact StrictCur_nil
      · rw [if_neg htr]; exact h3
    cases ic with
    | true =>
      have hOK' : isBlockStr pc ∧ partsOK rest := hOK
      obtain ⟨hblock, hrest⟩ := hOK'
      by_cases h1 : pc.length > maxSize
      · rw [ossStep_big_code h1]
        refine ih _ _ hrest ?_ hcur1
        intro c hc
        rcases List.mem_append.mp hc with hc | hc
        · exact hch1 c hc
        · simp only [List.mem_singleton] at hc
          subst hc
          rw [isBlockStr_count hblock]
          exact ⟨1, rfl⟩
      · by_cases hq2 : cur.length + pc.length > maxSize
        · rw [ossStep_overflow h1 hq2]
          exact ih _ _ hrest hch1 (StrictCur_of_block hblock)
        · rw [ossStep_append h1 hq2]
          exact ih _ _ hrest h2 (h3.append_comp (Or.inl hblock))
    | false =>
      cases rest with
      | nil =>
        have hg : noFence pc := hOK
        simp only [List.foldl_nil]
        by_cases h1 : pc.length > maxSize
        · rw [ossStep_big_text h1]
          have hpf := paraFold_inv maxSize (splitParas pc) _ []
              (splitParas_noFence hg) hch1 noFence_nil
          refine ⟨hpf.1, ?_⟩
          dsimp only
          by_cases htr2 : trimStr ((splitParas pc).foldl (paraStep maxSize)
              ((if trimStr cur ≠ [] then chunks ++ [trimStr cur] else chunks),
               [])).2 ≠ []
          · rw [if_pos htr2]
            exact FinalCur_of_noFence hpf.2
          · rw [if_neg htr2]
            exact hcur1.final
        · by_cases hq2 : cur.length + pc.length > maxSize
          · rw [ossStep_overflow h1 hq2]
            exact ⟨hch1, FinalCur_of_noFence hg⟩
          · rw [ossStep_append h1 hq2]
            exact ⟨h2, h3.append_loose hg⟩
      | cons r rs =>
        have hOK' : isSafeText pc ∧ partsOK (r :: rs) := hOK
        obtain ⟨hsafe, hrest⟩ := hOK'
        by_cases h1 : pc.length > maxSize
        · rw [ossStep_big_text h1]
          have hpf := paraFold_inv maxSize (splitParas pc) _ []
              (splitParas_noFence hsafe.1) hch1 noFence_nil
          have hend := para_out_endsOK maxSize pc
              ((if trimStr cur ≠ [] then chunks ++ [trimStr cur] else chunks),
               []) hsafe.2
          refine ih _ _ hrest hpf.1 ?_
          by_cases htr2 : trimStr ((splitParas pc).foldl (paraStep maxSize)
              ((if trimStr cur ≠ [] then chunks ++ [trimStr cur] else chunks),
               [])).2 ≠ []
          · rw [if_pos htr2]
            exact StrictCur_of_safe ⟨hpf.2, hend⟩
          · rw [if_neg htr2]
            exact hcur1
        · by_cases hq2 : cur.length + pc.length > maxSize
          · rw [ossStep_overflow h1 hq2]
            exact ih _ _ hrest hch1 (StrictCur_of_safe hsafe)
          · rw [ossStep_append h1 hq2]
            exact ih _ _ hrest h2 (h3.append_comp (Or.inr hsafe))


/-- C2: for every source text with balanced fences (an even number of
triple-backtick fence occurrences), every part returned by
`splitByCodeBlocks` and every chunk returned by `splitOversizedSection`
has an even fence count — no chunk begins or ends in the middle of a
fenced code block, since splitting cuts only at code-block boundaries or
inside non-code text runs. -/
theorem C2_even_fences (content : Str) (maxSize : Nat)
    (h : Even (countFences content)) :
    (∀ p ∈ splitByCodeBlocks content, Even (countFences p)) ∧
    (∀ chunk ∈ splitOversizedSection content maxSize,
      Even (countFences chunk)) := by
  have hOK := cbScan_partsOK h
  constructor
  · intro p hp
    rw [← cbScan_map_snd] at hp
    rcases List.mem_map.mp hp with ⟨pr, hpr, hsnd⟩
    rw [← hsnd]
    exact partsOK_even hOK pr hpr
  · have hinv := oss_fold_inv maxSize (cbScan content) [] [] hOK
        (by intro c hc; cases hc) StrictCur_nil
    unfold splitOversizedSection
    dsimp only
    by_cases htr : trimStr ((cbScan content).foldl (ossStep maxSize)
        ([], [])).2 ≠ []
    · rw [if_pos htr, if_neg (by simp)]
      intro c hc
      rcases List.mem_append.mp hc with hc | hc
      · exact hinv.1 c hc
      · simp only [List.mem_singleton] at hc
        subst hc
        exact hinv.2.even_trim
    · rw [if_neg htr]
      by_cases hnil : ((cbScan content).foldl (ossStep maxSize) ([], [])).1 = []
      · rw [if_pos hnil]
        intro c hc
        simp only [List.mem_singleton] at hc
        subst hc
        exact h
      · rw [if_neg hnil]
        exact hinv.1

theorem C2_even_fences_witness :
    Even (countFences (['a'] ++ fence ++ ['\n'] ++ fence ++ ['\n', 'b'])) ∧
    ((∀ p ∈ splitByCodeBlocks (['a'] ++ fence ++ ['\n'] ++ fence ++
        ['\n', 'b']), Even (countFences p)) ∧
     (∀ chunk ∈ splitOversizedSection (['a'] ++ fence ++ ['\n'] ++ fence ++
        ['\n', 'b']) 4, Even (countFences chunk))) :=
  ⟨by decide, C2_even_fences _ 4 (by decide)⟩


theorem cbScan_blocks_shape : ∀ (n : Nat) (s : Str), s.length = n →
    ∀ pr ∈ cbScan s, pr.1 = true → isBlockStr pr.2 := by
  intro n
  induction n using Nat.strong_induction_on with
  | _ n ih =>
    intro s hn
    rw [cbScan_eq]
    cases hf : findSub fence s with
    | none =>
      by_cases hs : s = []
      · simp [hs]
      · simp only [hs, if_neg, not_false_iff]
        intro pr hpr ht
        simp only [List.mem_singleton] at hpr
        subst hpr
        simp at ht
    | some a =>
      dsimp only
      cases hg : findSub fence (s.drop (a + 3)) with
      | none =>
        by_cases hs : s = []
        · simp [hs]
        · simp only [hs, if_neg, not_false_iff]
          intro pr hpr ht
          simp only [List.mem_singleton] at hpr
          subst hpr
          simp at ht
      | some b =>
        dsimp only
        have hle := match_len_ge_6 hf hg
        rcases block_shape hf hg with ⟨hshape, hnfm, hem⟩
        have hblk : isBlockStr ((s.drop a).take (b + 6)) :=
          ⟨(s.drop (a + 3)).take b, hshape, hnfm, hem⟩
        intro pr hpr ht
        rcases List.mem_append.mp hpr with hpr | hpr
        · rcases List.mem_append.mp hpr with hpr | hpr
          · by_cases ha : 0 < a
            · rw [if_pos ha] at hpr
              simp only [List.mem_singleton] at hpr
              subst hpr
              simp at ht
            · rw [if_neg ha] at hpr
              cases hpr
          · simp only [List.mem_singleton] at hpr
            subst hpr
            exact hblk
        · exact ih (s.drop (a + 3 + b + 3)).length (by simp; omega) _ rfl
            pr hpr ht

/-- C10: `splitByCodeBlocks` is a lossless partition — concatenating its
parts in order reproduces the input exactly — and every complete fenced
code block found by its scan appears as a single undivided part of the
result, starting and ending with a ``` fence. -/
theorem C10_split_lossless (s : Str) :
    (splitByCodeBlocks s).flatten = s ∧
    ∀ b ∈ codeBlocks s,
      b ∈ splitByCodeBlocks s ∧ fence <+: b ∧ fence <:+ b := by
  refine ⟨splitByCodeBlocks_flatten s, ?_⟩
  intro b hb
  refine ⟨codeBlocks_sub_parts s b hb, ?_, ?_⟩
  · unfold codeBlocks at hb
    rcases List.mem_map.mp hb with ⟨p, hp, hps⟩
    have hblk : isBlockStr p.2 :=
      cbScan_blocks_shape s.length s rfl p (List.mem_filter.mp hp).1
        (by simpa using (List.mem_filter.mp hp).2)
    rcases hblk with ⟨m, hm, -, -⟩
    rw [← hps, hm]
    exact ⟨m ++ fence, by simp⟩
  · unfold codeBlocks at hb
    rcases List.mem_map.mp hb with ⟨p, hp, hps⟩
    have hblk : isBlockStr p.2 :=
      cbScan_blocks_shape s.length s rfl p (List.mem_filter.mp hp).1
        (by simpa using (List.mem_filter.mp hp).2)
    rcases hblk with ⟨m, hm, -, -⟩
    rw [← hps, hm]
    exact ⟨fence ++ m, by simp⟩


/-! ### `removeFrontmatter` (`src/packages/template/src/parser/chunkers/openapi-router.ts`) -/

/-- The `---` frontmatter delimiter. -/
def dashes : Str := ['-', '-', '-']

/-- The multiline-anchored search of
`content.replace(/^---[\s\S]*?---\n*\/m, '')`: positions are tried left to
right; at a line start bearing `---`, the lazy body stops at the earliest
closing `---` and `\n*` then extends greedily. Returns the match's span
`(start, end)`. -/
def fmFindF : Nat → Str → Nat → Option (Nat × Nat)
  | 0, _, _ => none
  | fuel + 1, s, i =>
    if i ≤ s.length then
      if (i == 0 || (s.take i).getLast? == some '\n') &&
          List.isPrefixOf dashes (s.drop i) then
        match findSub dashes (s.drop (i + 3)) with
        | some d =>
          some (i, (i + 3 + d + 3) +
            ((s.drop (i + 3 + d + 3)).takeWhile (fun c => c == '\n')).length)
        | none => fmFindF fuel s (i + 1)
      else fmFindF fuel s (i + 1)
    else none

/-- `removeFrontmatter` from
`src/packages/template/src/parser/chunkers/openapi-router.ts`: delete the
first (multiline-anchored) `---…---\n*` block. -/
def removeFrontmatter (content : Str) : Str :=
  match fmFindF (content.length + 1) content 0 with
  | none => content
  | some (i, e) => content.take i ++ content.drop e

/-- C7, counterexample: a document that does not start with `---` but holds
`---` delimiter lines later is not passed through unchanged — the `m` flag
anchors `^` at every line start, so the mid-document pair is stripped. -/
theorem C7_counterexample :
    List.isPrefixOf dashes "hello\n---\nworld\n---\nbye".data = false ∧
    removeFrontmatter "hello\n---\nworld\n---\nbye".data =
      "hello\nbye".data := by
  decide

/-- C7 (amended): `removeFrontmatter` strips the first well-formed
`---…---\n*` block beginning at position 0 or at any later line start; a
document with no line-start `---` bearing a closing pair anywhere passes
through unchanged. In particular a block at position 0 is stripped exactly
as the claim describes, but a document with a frontmatter-shaped block at a
later line start is altered as well. -/
theorem C7_frontmatter (content : Str) :
    ((∀ i ∈ List.range (content.length + 1),
        ((i == 0 || (content.take i).getLast? == some '\n') &&
          List.isPrefixOf dashes (content.drop i)) = false) →
      removeFrontmatter content = content) ∧
    (∀ d, List.isPrefixOf dashes content = true →
      findSub dashes (content.drop 3) = some d →
      removeFrontmatter content =
        content.drop ((3 + d + 3) +
          ((content.drop (3 + d + 3)).takeWhile
            (fun c => c == '\n')).length)) := by
  constructor
  · intro h
    have key : ∀ fuel i, fmFindF fuel content i = none := by
      intro fuel
      induction fuel with
      | zero => intro i; rfl
      | succ f ih =>
        intro i
        simp only [fmFindF]
        by_cases hi : i ≤ content.length
        · rw [if_pos hi]
          have hc := h i (List.mem_range.mpr (by omega))
          rw [hc]
          simp only [Bool.false_eq_true, if_false]
          exact ih (i + 1)
        · rw [if_neg hi]
    unfold removeFrontmatter
    rw [key (content.length + 1) 0]
  · intro d hpre hfind
    unfold removeFrontmatter
    have hcnd : ((0 == 0 || (content.take 0).getLast? == some '\n') &&
        List.isPrefixOf dashes (content.drop 0)) = true := by
      simp [hpre]
    have h1 : fmFindF (content.length + 1) content 0 =
        some (0, (3 + d + 3) +
          ((content.drop (3 + d + 3)).takeWhile
            (fun c => c == '\n')).length) := by
      simp only [fmFindF]
      rw [if_pos (Nat.zero_le content.length), hcnd]
      simp only [if_true]
      have h03 : (0:Nat) + 3 = 3 := rfl
      rw [h03, hfind]
    rw [h1]
    simp

theorem C7_frontmatter_witness :
    removeFrontmatter "hello world".data = "hello world".data ∧
    removeFrontmatter "---\nt: y\n---\nbody".data =
      "---\nt: y\n---\nbody".data.drop ((3 + 6 + 3) +
        (("---\nt: y\n---\nbody".data.drop (3 + 6 + 3)).takeWhile
          (fun c => c == '\n')).length) :=
  ⟨(C7_frontmatter "hello world".data).1 (by decide),
   (C7_frontmatter "---\nt: y\n---\nbody".data).2 6 (by decide) (by decide)⟩


/-! ### `removeImportsExports` (`src/packages/template/src/parser/chunkers/openapi-router.ts`) -/

/-- The greedy `\s*$` tail of the import/export line regexes, starting at
position `r`: the whitespace run is consumed greedily and backtracks to the
rightmost position that is the end of the string or sits before a `\n`
(the `m`-flagged `$`). Returns the match end. -/
def wsDollar (s : Str) (r : Nat) : Option Nat :=
  let run := (s.drop r).takeWhile isWs
  if r + run.length = s.length then some (r + run.length)
  else
    let j := run.reverse.findIdx (fun c => c == '\n')
    if j < run.length then some (r + (run.length - 1 - j)) else none

/-- The `;?\s*$` tail at position `d` (`;?` greedy, then backtracks). -/
def semiWsDollar (s : Str) (d : Nat) : Option Nat :=
  if (s.drop d).head? = some ';' then
    match wsDollar s (d + 1) with
    | some t => some t
    | none => wsDollar s d
  else wsDollar s d

/-- Lazy `.*?;?\s*$` of the export regex from position `d`: try the tail at
each position in turn; `.` cannot cross a newline. -/
def lazyTail : Nat → Str → Nat → Option Nat
  | 0, _, _ => none
  | fuel + 1, s, d =>
    match semiWsDollar s d with
    | some t => some t
    | none =>
      match (s.drop d).head? with
      | some c => if c = '\n' then none else lazyTail fuel s (d + 1)
      | none => none

/-- Lazy body and tail of the import regex from position `d`:
the earliest quote whose `;?\s*$` tail completes wins. -/
def lazyQuoteTail : Nat → Str → Nat → Option Nat
  | 0, _, _ => none
  | fuel + 1, s, d =>
    match (s.drop d).head? with
    | none => none
    | some c =>
      if c = '\'' ∨ c = '"' then
        match semiWsDollar s (d + 1) with
        | some t => some t
        | none => lazyQuoteTail fuel s (d + 1)
      else if c = '\n' then none
      else lazyQuoteTail fuel s (d + 1)

/-- One attempt of `/^import\s+.*?['"];?\s*$/gm` at line start `i`; `\s+` is
taken greedily (a shorter run leaves the lazy body staring at whitespace,
where no quote can sit, so the greedy run is the only one that can match).
Returns the match end. -/
def importMatchAt (s : Str) (i : Nat) : Option Nat :=
  if List.isPrefixOf "import".data (s.drop i) then
    let w := ((s.drop (i + 6)).takeWhile isWs).length
    if w = 0 then none
    else lazyQuoteTail (s.length + 1) s (i + 6 + w)
  else none

/-- One attempt of `/^export\s+.*?;?\s*$/gm` at line start `i`. -/
def exportMatchAt (s : Str) (i : Nat) : Option Nat :=
  if List.isPrefixOf "export".data (s.drop i) then
    let w := ((s.drop (i + 6)).takeWhile isWs).length
    if w = 0 then none
    else lazyTail (s.length + 1) s (i + 6 + w)
  else none

/-- `String.prototype.replace` with a `gm`-flagged line-anchored regex and a
keep-or-delete callback: positions are scanned left to right, a match at a
line start is kept verbatim or deleted according to `keep`, and scanning
resumes at the match end. -/
def gReplaceF (matcher : Str → Nat → Option Nat) (keep : Str → Nat → Bool) :
    Nat → Str → Nat → Str
  | 0, s, i => s.drop i
  | fuel + 1, s, i =>
    if (i == 0 || (s.take i).getLast? == some '\n') then
      match matcher s i with
      | some t =>
        if keep s i then (s.drop i).take (t - i) ++ gReplaceF matcher keep fuel s t
        else gReplaceF matcher keep fuel s t
      | none =>
        match (s.drop i).head? with
        | some c => c :: gReplaceF matcher keep fuel s (i + 1)
        | none => []
    else
      match (s.drop i).head? with
      | some c => c :: gReplaceF matcher keep fuel s (i + 1)
      | none => []

/-- The import pass keeps a match at offset `i` exactly when
`lastIndexOf('```')` on the prefix beats `lastIndexOf('```', start - 1)`:
with the clamping of a negative `fromIndex` to `0`, that holds exactly when
some fence occurrence starts at a position `≥ 1` of the prefix. -/
def importKeep (s : Str) (i : Nat) : Bool :=
  (findSub fence ((s.take i).drop 1)).isSome

/-- `removeImportsExports` from
`src/packages/template/src/parser/chunkers/openapi-router.ts`: the
guarded import pass, then the unguarded export pass. -/
def removeImportsExports (content : Str) : Str :=
  let pass1 := gReplaceF importMatchAt importKeep
      (content.length + 1) content 0
  gReplaceF exportMatchAt (fun _ _ => false) (pass1.length + 1) pass1 0


/-- C6, counterexample: an `export` statement line sitting between an
opening and a closing ``` fence is deleted anyway — the export pass of
`removeImportsExports` has no code-block guard at all. -/
theorem C6_counterexample :
    containsSub "a\n```\nexport const x = 1;\n```".data
      "export const x = 1;".data = true ∧
    removeImportsExports "a\n```\nexport const x = 1;\n```".data =
      "a\n```\n\n```".data := by
  decide

theorem wsDollar_bounds {s : Str} {r t : Nat} (h : wsDollar s r = some t) :
    r ≤ t ∧ t ≤ s.length := by
  unfold wsDollar at h
  dsimp only at h
  by_cases h1 : r + ((s.drop r).takeWhile isWs).length = s.length
  · rw [if_pos h1] at h
    have := Option.some_injective _ h
    omega
  · rw [if_neg h1] at h
    have hlen : ((s.drop r).takeWhile isWs).length ≤ s.length - r := by
      have h2 : (s.drop r).takeWhile isWs <+: s.drop r :=
        List.takeWhile_prefix isWs
      have h3 := h2.length_le
      simpa using h3
    by_cases h2 : ((s.drop r).takeWhile isWs).reverse.findIdx
        (fun c => c == '\n') < ((s.drop r).takeWhile isWs).length
    · rw [if_pos h2] at h
      have := Option.some_injective _ h
      have hr : r ≤ s.length := by
        by_contra hgt
        have : s.drop r = [] := List.drop_eq_nil_of_le (by omega)
        rw [this] at h2 hlen h1
        simp at h2
      omega
    · rw [if_neg h2] at h
      cases h

theorem semiWsDollar_bounds {s : Str} {d t : Nat}
    (h : semiWsDollar s d = some t) : d ≤ t ∧ t ≤ s.length := by
  unfold semiWsDollar at h
  by_cases h1 : (s.drop d).head? = some ';'
  · rw [if_pos h1] at h
    cases hw : wsDollar s (d + 1) with
    | some u =>
      rw [hw] at h
      dsimp only at h
      have := Option.some_injective _ h
      have hb := wsDollar_bounds hw
      omega
    | none =>
      rw [hw] at h
      dsimp only at h
      have hb := wsDollar_bounds h
      omega
  · rw [if_neg h1] at h
    exact wsDollar_bounds h

theorem lazyTail_bounds : ∀ {fuel : Nat} {s : Str} {d t : Nat},
    lazyTail fuel s d = some t → d ≤ t ∧ t ≤ s.length := by
  intro fuel
  induction fuel with
  | zero => intro s d t h; cases h
  | succ f ih =>
    intro s d t h
    simp only [lazyTail] at h
    cases hm : semiWsDollar s d with
    | some u =>
      rw [hm] at h
      dsimp only at h
      have := Option.some_injective _ h
      have hb := semiWsDollar_bounds hm
      omega
    | none =>
      rw [hm] at h
      dsimp only at h
      cases hd : (s.drop d).head? with
      | some c =>
        rw [hd] at h
        dsimp only at h
        by_cases hc : c = '\n'
        · rw [if_pos hc] at h; cases h
        · rw [if_neg hc] at h
          have hb := ih h
          omega
      | none =>
        rw [hd] at h
        dsimp only at h
        cases h

theorem lazyQuoteTail_bounds : ∀ {fuel : Nat} {s : Str} {d t : Nat},
    lazyQuoteTail fuel s d = some t → d ≤ t ∧ t ≤ s.length := by
  intro fuel
  induction fuel with
  | zero => intro s d t h; cases h
  | succ f ih =>
    intro s d t h
    simp only [lazyQuoteTail] at h
    cases hd : (s.drop d).head? with
    | none =>
      rw [hd] at h
      dsimp only at h
      cases h
    | some c =>
      rw [hd] at h
      dsimp only at h
      by_cases hq : c = '\'' ∨ c = '"'
      · rw [if_pos hq] at h
        cases hm : semiWsDollar s (d + 1) with
        | some u =>
          rw [hm] at h
          dsimp only at h
          have := Option.some_injective _ h
          have hb := semiWsDollar_bounds hm
          omega
        | none =>
          rw [hm] at h
          dsimp only at h
          have hb := ih h
          omega
      · rw [if_neg hq] at h
        by_cases hc : c = '\n'
        · rw [if_pos hc] at h; cases h
        · rw [if_neg hc] at h
          have hb := ih h
          omega

theorem importMatchAt_bounds {s : Str} {i t : Nat}
    (h : importMatchAt s i = some t) : i ≤ t ∧ t ≤ s.length := by
  unfold importMatchAt at h
  by_cases h1 : List.isPrefixOf "import".data (s.drop i) = true
  · rw [if_pos h1] at h
    dsimp only at h
    by_cases h2 : ((s.drop (i + 6)).takeWhile isWs).length = 0
    · rw [if_pos h2] at h; cases h
    · rw [if_neg h2] at h
      have hb := lazyQuoteTail_bounds h
      omega
  · rw [if_neg h1] at h; cases h

theorem exportMatchAt_bounds {s : Str} {i t : Nat}
    (h : exportMatchAt s i = some t) : i ≤ t ∧ t ≤ s.length := by
  unfold exportMatchAt at h
  by_cases h1 : List.isPrefixOf "export".data (s.drop i) = true
  · rw [if_pos h1] at h
    dsimp only at h
    by_cases h2 : ((s.drop (i + 6)).takeWhile isWs).length = 0
    · rw [if_pos h2] at h; cases h
    · rw [if_neg h2] at h
      have hb := lazyTail_bounds h
      omega
  · rw [if_neg h1] at h; cases h

/-- When every match the scan meets is kept, a `gm`-replace pass is the
identity from any starting position. -/
theorem gReplace_keep_id (matcher : Str → Nat → Option Nat)
    (keep : Str → Nat → Bool) (s : Str)
    (hm : ∀ i t, matcher s i = some t → i ≤ t ∧ t ≤ s.length)
    (hkeep : ∀ j ∈ List.range (s.length + 1),
      ∀ t, matcher s j = some t → keep s j = true) :
    ∀ fuel i, gReplaceF matcher keep fuel s i = s.drop i := by
  intro fuel
  induction fuel with
  | zero => intro i; rfl
  | succ f ih =>
    intro i
    simp only [gReplaceF]
    by_cases hl : (i == 0 || (s.take i).getLast? == some '\n') = true
    · rw [if_pos hl]
      cases hmt : matcher s i with
      | some t =>
        have hb := hm i t hmt
        have hk := hkeep i (List.mem_range.mpr (by omega)) t hmt
        rw [hk]
        simp only [if_true]
        rw [ih t]
        have hdd : s.drop t = (s.drop i).drop (t - i) := by
          rw [List.drop_drop]
          have h5 : i + (t - i) = t := by omega
          rw [h5]
        rw [hdd, List.take_append_drop]
      | none =>
        cases hd : (s.drop i).head? with
        | some c =>
          rw [ih (i + 1)]
          have : s.drop i = c :: s.drop (i + 1) := by
            rw [← List.tail_drop]
            cases hsd : s.drop i with
            | nil => rw [hsd] at hd; cases hd
            | cons a l =>
              rw [hsd] at hd
              simp only [List.head?_cons, Option.some_inj] at hd
              rw [hd]
              rfl
          rw [this]
        | none =>
          have : s.drop i = [] := by
            cases hsd : s.drop i with
            | nil => rfl
            | cons a l => rw [hsd] at hd; cases hd
          rw [this]
    · rw [if_neg hl]
      cases hd : (s.drop i).head? with
      | some c =>
        rw [ih (i + 1)]
        have : s.drop i = c :: s.drop (i + 1) := by
          rw [← List.tail_drop]
          cases hsd : s.drop i with
          | nil => rw [hsd] at hd; cases hd
          | cons a l =>
            rw [hsd] at hd
            simp only [List.head?_cons, Option.some_inj] at hd
            rw [hd]
            rfl
        rw [this]
      | none =>
        have : s.drop i = [] := by
          cases hsd : s.drop i with
          | nil => rfl
          | cons a l => rw [hsd] at hd; cases hd
        rw [this]


/-- C6 (amended): the import pass does keep a matched import line whenever a
``` fence occurrence starts at some position `≥ 1` of the prefix before it
(the code's `lastIndexOf` guard), so a document all of whose import lines
sit after such a fence, and which has no export statement lines, passes
through `removeImportsExports` unchanged. Export lines, by contrast, carry
no guard at all (see the counterexample), and an import line whose only
preceding fence starts at position 0 is removed too. -/
theorem C6_imports_kept (content : Str)
    (him : ∀ i ∈ List.range (content.length + 1),
      ∀ t, importMatchAt content i = some t → importKeep content i = true)
    (hex : ∀ i ∈ List.range (content.length + 1),
      exportMatchAt content i = none) :
    removeImportsExports content = content := by
  unfold removeImportsExports
  have h1 : gReplaceF importMatchAt importKeep (content.length + 1)
      content 0 = content := by
    rw [gReplace_keep_id importMatchAt importKeep content
      (fun i t h => importMatchAt_bounds h) him (content.length + 1) 0]
    rfl
  rw [h1]
  rw [gReplace_keep_id exportMatchAt (fun _ _ => false) content
    (fun i t h => exportMatchAt_bounds h)
    (fun j hj t ht => absurd ht (by rw [hex j hj]; exact Option.noConfusion))
    (content.length + 1) 0]
  rfl

theorem C6_imports_kept_witness :
    removeImportsExports "x```\nimport a from 'b';\n``` done".data =
      "x```\nimport a from 'b';\n``` done".data :=
  C6_imports_kept "x```\nimport a from 'b';\n``` done".data
    (by decide) (by decide)


/-! ### OpenAPI schema resolution (`src/src/parser/chunkers/openapi-parser.ts`)

JSON values are modelled by `Ex` (numbers as `Int`), a `Record` by an
association list in key-insertion order, and an optional field by `Option`
(`none` = the key is absent). -/

/-- A JSON value (`any`), as produced by `generateExample`. -/
inductive Ex where
  | null
  | str (s : Str)
  | int (n : Int)
  | bool (b : Bool)
  | arr (xs : List Ex)
  | obj (fields : List (Str × Ex))
deriving BEq

/-- The `type?: string | string[]` field of a schema object. -/
inductive TypeF where
  | missing
  | one (t : Str)
  | many (ts : List Str)
deriving DecidableEq

/-- `SchemaObject` of `openapi-parser.ts`: the fields the resolution and
example code reads. `allOf`, `oneOf`, `anyOf` and `properties` are
`Option`al because the code distinguishes an absent key from an empty
array or object. -/
inductive SchemaObj where
  | mk (typeF : TypeF) (formatF : Option Str) (descrF : Option Str)
      (propertiesF : Option (List (Str × SchemaObj)))
      (requiredF : List Str) (itemsF : Option SchemaObj)
      (allOfF : Option (List SchemaObj))
      (oneOfF : Option (List SchemaObj)) (anyOfF : Option (List SchemaObj))
      (refF : Option Str) (exampleF : Option Ex) (enumF : List Str)
      (nullableF : Bool) (dfltF : Option Ex)
      (minimumF : Option Int) (maximumF : Option Int)

def SchemaObj.typeF : SchemaObj → TypeF
  | .mk t _ _ _ _ _ _ _ _ _ _ _ _ _ _ _ => t

def SchemaObj.formatF : SchemaObj → Option Str
  | .mk _ f _ _ _ _ _ _ _ _ _ _ _ _ _ _ => f

def SchemaObj.descrF : SchemaObj → Option Str
  | .mk _ _ d _ _ _ _ _ _ _ _ _ _ _ _ _ => d

def SchemaObj.propertiesF : SchemaObj → Option (List (Str × SchemaObj))
  | .mk _ _ _ p _ _ _ _ _ _ _ _ _ _ _ _ => p

def SchemaObj.requiredF : SchemaObj → List Str
  | .mk _ _ _ _ r _ _ _ _ _ _ _ _ _ _ _ => r

def SchemaObj.itemsF : SchemaObj → Option SchemaObj
  | .mk _ _ _ _ _ i _ _ _ _ _ _ _ _ _ _ => i

def SchemaObj.allOfF : SchemaObj → Option (List SchemaObj)
  | .mk _ _ _ _ _ _ a _ _ _ _ _ _ _ _ _ => a

def SchemaObj.oneOfF : SchemaObj → Option (List SchemaObj)
  | .mk _ _ _ _ _ _ _ o _ _ _ _ _ _ _ _ => o

def SchemaObj.anyOfF : SchemaObj → Option (List SchemaObj)
  | .mk _ _ _ _ _ _ _ _ a _ _ _ _ _ _ _ => a

def SchemaObj.refF : SchemaObj → Option Str
  | .mk _ _ _ _ _ _ _ _ _ r _ _ _ _ _ _ => r

def SchemaObj.exampleF : SchemaObj → Option Ex
  | .mk _ _ _ _ _ _ _ _ _ _ e _ _ _ _ _ => e

def SchemaObj.enumF : SchemaObj → List Str
  | .mk _ _ _ _ _ _ _ _ _ _ _ e _ _ _ _ => e

def SchemaObj.nullableF : SchemaObj → Bool
  | .mk _ _ _ _ _ _ _ _ _ _ _ _ n _ _ _ => n

def SchemaObj.dfltF : SchemaObj → Option Ex
  | .mk _ _ _ _ _ _ _ _ _ _ _ _ _ d _ _ => d

def SchemaObj.minimumF : SchemaObj → Option Int
  | .mk _ _ _ _ _ _ _ _ _ _ _ _ _ _ m _ => m

def SchemaObj.maximumF : SchemaObj → Option Int
  | .mk _ _ _ _ _ _ _ _ _ _ _ _ _ _ _ m => m

/-- The truthy `$ref` of a schema, if any (`''` is falsy). -/
def SchemaObj.refVal (s : SchemaObj) : Option Str :=
  match s.refF with
  | some r => if r = [] then none else some r
  | none => none

/-- `ref.replace('#/components/schemas/', '')`: drop the first occurrence
of the prefix string, wherever it sits. -/
def stripSchemaPrefix (ref : Str) : Str :=
  match findSub "#/components/schemas/".data ref with
  | some i => ref.take i ++ ref.drop (i + "#/components/schemas/".data.length)
  | none => ref

/-- `resolveSchema` from `openapi-parser.ts`: follow `$ref` links through
the schema table, returning `null` on a revisited name or a missing entry.
Each recursive step consumes a distinct unvisited table key, so a fuel of
`schemas.length + 1` runs the JavaScript recursion to completion. -/
def resolveSchemaF : Nat → Str → List (Str × SchemaObj) → List Str →
    Option SchemaObj
  | 0, _, _, _ => none
  | fuel + 1, ref, schemas, visited =>
    let name := stripSchemaPrefix ref
    if visited.contains name then none
    else
      match (schemas.find? (fun p => p.1 == name)).map Prod.snd with
      | none => none
      | some schema =>
        match SchemaObj.refVal schema with
        | some r => resolveSchemaF fuel r schemas (name :: visited)
        | none => some schema

def resolveSchema (ref : Str) (schemas : List (Str × SchemaObj))
    (visited : List Str) : Option SchemaObj :=
  resolveSchemaF (schemas.length + 1) ref schemas visited

/-- JavaScript truthiness of an `Ex` value. -/
def exTruthy : Ex → Bool
  | .null => false
  | .str s => !s.isEmpty
  | .int n => n != 0
  | .bool b => b
  | .arr _ => true
  | .obj _ => true

/-- `Object.assign(a, b)`: existing keys keep their position and take `b`'s
value, new keys of `b` are appended in order. -/
def assignObj (a b : List (Str × Ex)) : List (Str × Ex) :=
  a.map (fun p => match b.find? (fun q => q.1 == p.1) with
    | some q => (p.1, q.2)
    | none => p) ++
  b.filter (fun q => !(a.any (fun p => p.1 == q.1)))

/-- The own enumerable properties of an array value: its indices. -/
def arrProps (xs : List Ex) : List (Str × Ex) :=
  xs.enum.map (fun p => (Nat.toDigits 10 p.1, p.2))

/-- `Array.isArray(schema.type) ? schema.type.find(t => t !== 'null') ||
'string' : schema.type`, as the value fed to the `switch`. -/
def resolveTypeName : TypeF → Option Str
  | .missing => none
  | .one t => some t
  | .many ts =>
    match ts.find? (fun x => !(x == "null".data)) with
    | some x => if x = [] then some "string".data else some x
    | none => some "string".data

/-- `generateExample` from `openapi-parser.ts`, with the `depth > 3` cap.
The fuel only mirrors the depth cap: each recursive call raises `depth` by
one and lowers the fuel by one, so from the entry fuel `4` the fuel can
reach `0` only once `depth > 3` — where the code returns `null` anyway. -/
def genExF : Nat → List (Str × SchemaObj) → Option SchemaObj → Nat →
    Option Str → Ex
  | 0, _, _, _, _ => Ex.null
  | gas + 1, schemas, os, depth, fieldName =>
    match os with
    | none => Ex.null
    | some schema =>
      if depth > 3 then Ex.null
      else
        match schema.refVal with
        | some r =>
          genExF gas schemas (resolveSchema r schemas []) (depth + 1) fieldName
        | none =>
          match schema.exampleF with
          | some v => v
          | none =>
            match schema.allOfF with
            | some l =>
              let merged := l.foldl (fun acc sub =>
                match genExF gas schemas (some sub) (depth + 1) fieldName with
                | Ex.obj fs => assignObj acc fs
                | Ex.arr xs => assignObj acc (arrProps xs)
                | _ => acc) []
              if merged.length > 0 then Ex.obj merged else Ex.null
            | none =>
              match (schema.oneOfF.getD []).head? with
              | some s1 => genExF gas schemas (some s1) (depth + 1) fieldName
              | none =>
                match (schema.anyOfF.getD []).head? with
                | some s1 => genExF gas schemas (some s1) (depth + 1) fieldName
                | none =>
                  match schema.enumF.head? with
                  | some e => Ex.str e
                  | none =>
                    match resolveTypeName schema.typeF with
                    | some t =>
                      if t = "object".data then
                        match schema.propertiesF with
                        | some props =>
                          let r := props.foldl (fun acc p =>
                            if schema.requiredF.contains p.1 || acc.2 < 5 then
                              match genExF gas schemas (some p.2) (depth + 1)
                                  (some p.1) with
                              | Ex.null => acc
                              | v => (acc.1 ++ [(p.1, v)], acc.2 + 1)
                            else acc) (([] : List (Str × Ex)), (0 : Nat))
                          Ex.obj r.1
                        | none => Ex.obj []
                      else if t = "array".data then
                        match schema.itemsF with
                        | some it =>
                          match genExF gas schemas (some it) (depth + 1)
                              none with
                          | Ex.null => Ex.arr []
                          | v => Ex.arr [v]
                        | none => Ex.arr []
                      else if t = "string".data then
                        if schema.formatF = some "date-time".data then
                          Ex.str "2024-01-15T10:30:00Z".data
                        else if schema.formatF = some "date".data then
                          Ex.str "2024-01-15".data
                        else if schema.formatF = some "email".data then
                          Ex.str "user@example.com".data
                        else if schema.formatF = some "uri".data then
                          Ex.str "https://example.com".data
                        else if schema.formatF = some "uuid".data then
                          Ex.str "550e8400-e29b-41d4-a716-446655440000".data
                        else
                          match schema.dfltF with
                          | some v =>
                            if exTruthy v then v else Ex.str "string".data
                          | none => Ex.str "string".data
                      else if t = "integer".data ∨ t = "number".data then
                        match schema.dfltF with
                        | some v => v
                        | none =>
                          match schema.minimumF with
                          | some m => Ex.int m
                          | none => Ex.int 0
                      else if t = "boolean".data then
                        match schema.dfltF with
                        | some v => v
                        | none => Ex.bool true
                      else Ex.null
                    | none => Ex.null

def generateExample (os : Option SchemaObj)
    (schemas : List (Str × SchemaObj)) (depth : Nat)
    (fieldName : Option Str) : Ex :=
  genExF 4 schemas os depth fieldName

/-- `-123` or `123` as decimal text. -/
def intToStr (n : Int) : Str :=
  if n < 0 then '-' :: Nat.toDigits 10 n.natAbs else Nat.toDigits 10 n.toNat

/-- Map element of the `allOf`/`oneOf`/`anyOf` joins of `buildTypeString`:
`s.$ref ? s.$ref.replace(...) : s.type`. -/
def btsElem (s : SchemaObj) : TypeF :=
  match s.refVal with
  | some r => TypeF.one (stripSchemaPrefix r)
  | none => s.typeF

/-- `filter(Boolean)` on such an element: `undefined` and `''` are falsy,
an array (even empty) is truthy. -/
def tvKeep : TypeF → Bool
  | .missing => false
  | .one t => !t.isEmpty
  | .many _ => true

/-- `String(...)` of such an element, as `join` applies it:
an array stringifies with comma separators. -/
def tvStr : TypeF → Str
  | .missing => []
  | .one t => t
  | .many ts => joinSep ",".data ts

/-- `items.$ref ? stripped : items.type || 'any'` of `buildTypeString`. -/
def itemTypeStr (it : SchemaObj) : Str :=
  match it.refVal with
  | some r => stripSchemaPrefix r
  | none =>
    match it.typeF with
    | .missing => "any".data
    | .one t => if t = [] then "any".data else t
    | .many ts => joinSep ",".data ts

/-- `buildTypeString` from `openapi-parser.ts`. -/
def buildTypeString (p : SchemaObj) : Str :=
  match p.refVal with
  | some r => stripSchemaPrefix r
  | none =>
    match p.allOfF with
    | some l =>
      let types := joinSep " & ".data (((l.map btsElem).filter tvKeep).map tvStr)
      if types = [] then "object".data else types
    | none =>
      if p.oneOfF.isSome || p.anyOfF.isSome then
        let variants := match p.oneOfF with
          | some l => l
          | none => p.anyOfF.getD []
        let j := joinSep " | ".data
          (((variants.map btsElem).filter tvKeep).map tvStr)
        if j = [] then "any".data else j
      else
        match p.typeF with
        | .many ts =>
          joinSep " | ".data (ts.filter (fun t => !(t == "null".data)))
        | .one t =>
          if t = "array".data then
            match p.itemsF with
            | some it => "array[".data ++ itemTypeStr it ++ "]".data
            | none => "array".data
          else if t = [] then "any".data else t
        | .missing => "any".data

/-- `formatSchemaProperties` from `openapi-parser.ts`, with the `depth > 3`
cap and the `depth < 2` guard on nested expansion. As for `genExF` the fuel
mirrors the depth cap: from the entry fuel `4` it reaches `0` only at
`depth > 3`, where the code returns `''`. -/
def fsPF : Nat → Option SchemaObj → List (Str × SchemaObj) → Str → Nat → Str
  | 0, _, _, _, _ => []
  | gas + 1, os, schemas, indent, depth =>
    match os with
    | none => []
    | some schema =>
      if depth > 3 then []
      else
        match schema.refVal with
        | some r =>
          fsPF gas (resolveSchema r schemas []) schemas indent (depth + 1)
        | none =>
          match schema.allOfF with
          | some l =>
            joinSep "\n".data
              ((l.map (fun sub => fsPF gas (some sub) schemas indent
                (depth + 1))).filter (fun x => !x.isEmpty))
          | none =>
            match schema.propertiesF with
            | none => []
            | some props =>
              let lines := props.foldl (fun acc p =>
                let isRequired := schema.requiredF.contains p.1
                let nullable := p.2.nullableF ||
                  (match p.2.typeF with
                   | .many ts => ts.contains "null".data
                   | _ => false)
                let t0 := buildTypeString p.2
                let t1 := match p.2.formatF with
                  | some f =>
                    if f = [] then t0 else t0 ++ " (".data ++ f ++ ")".data
                  | none => t0
                let typeStr := if nullable then t1 ++ " | null".data else t1
                let reqStr := if isRequired then "Required".data
                  else "Optional".data
                let l0 := indent ++ "- **".data ++ p.1 ++ "** (".data ++
                  typeStr ++ ") - ".data ++ reqStr
                let l1 := match p.2.descrF with
                  | some d => if d = [] then l0 else l0 ++ " - ".data ++ d
                  | none => l0
                let l2 := if p.2.enumF ≠ [] then
                    l1 ++ " (Allowed: ".data ++
                      joinSep ", ".data
                        (p.2.enumF.map (fun e => tick :: (e ++ [tick]))) ++
                      ")".data
                  else l1
                let constraints :=
                  (match p.2.minimumF with
                   | some m => ["min: ".data ++ intToStr m]
                   | none => []) ++
                  (match p.2.maximumF with
                   | some m => ["max: ".data ++ intToStr m]
                   | none => [])
                let l3 := if constraints ≠ [] then
                    l2 ++ " [".data ++ joinSep ", ".data constraints ++
                      "]".data
                  else l2
                let nested := if p.2.typeF = TypeF.one "object".data ∧
                    p.2.propertiesF.isSome = true ∧ depth < 2 then
                    [fsPF gas (some p.2) schemas (indent ++ "  ".data)
                      (depth + 1)]
                  else []
                acc ++ [l3] ++ nested) []
              joinSep "\n".data (lines.filter (fun x => !x.isEmpty))

def formatSchemaProperties (os : Option SchemaObj)
    (schemas : List (Str × SchemaObj)) (indent : Str) (depth : Nat) : Str :=
  fsPF 4 os schemas indent depth


theorem filter_length_mono {α} {p q : α → Bool} :
    ∀ (l : List α), (∀ x ∈ l, q x = true → p x = true) →
    (l.filter q).length ≤ (l.filter p).length := by
  intro l
  induction l with
  | nil => intro _; simp
  | cons b bs ih =>
    intro himp
    have ih2 := ih (fun x hx => himp x (List.mem_cons_of_mem _ hx))
    rw [List.filter_cons, List.filter_cons]
    by_cases hq : q b = true
    · rw [if_pos hq, if_pos (himp b (List.mem_cons_self _ _) hq)]
      simpa using ih2
    · rw [if_neg hq]
      by_cases hp : p b = true
      · rw [if_pos hp]
        simp only [List.length_cons]
        omega
      · rw [if_neg hp]
        exact ih2

theorem filter_length_lt {α} {p q : α → Bool} :
    ∀ (l : List α), (∀ x ∈ l, q x = true → p x = true) →
    ∀ a ∈ l, p a = true → q a = false →
    (l.filter q).length < (l.filter p).length := by
  intro l
  induction l with
  | nil => intro _ a ha; cases ha
  | cons b bs ih =>
    intro himp a ha hp hq
    have himpr : ∀ x ∈ bs, q x = true → p x = true :=
      fun x hx => himp x (List.mem_cons_of_mem _ hx)
    rw [List.filter_cons, List.filter_cons]
    rcases List.mem_cons.mp ha with rfl | hmem
    · rw [if_pos hp, if_neg (by simp [hq])]
      have hm := filter_length_mono bs himpr
      simp only [List.length_cons]
      omega
    · by_cases hqb : q b = true
      · rw [if_pos hqb, if_pos (himp b (List.mem_cons_self _ _) hqb)]
        simp only [List.length_cons]
        have := ih himpr a hmem hp hq
        omega
      · rw [if_neg hqb]
        have hlt := ih himpr a hmem hp hq
        by_cases hpb : p b = true
        · rw [if_pos hpb]
          simp only [List.length_cons]
          omega
        · rw [if_neg hpb]
          exact hlt

/-- The `resolveSchema` recursion stabilizes once the fuel exceeds the
number of table entries not yet visited: every recursive step consumes a
distinct unvisited key, which is the termination argument of the
JavaScript recursion. -/
theorem resolveSchemaF_stable :
    ∀ (n f1 f2 : Nat) (ref : Str) (schemas : List (Str × SchemaObj))
      (visited : List Str),
      (schemas.filter (fun p => !(visited.contains p.1))).length ≤ n →
      n < f1 → n < f2 →
      resolveSchemaF f1 ref schemas visited =
        resolveSchemaF f2 ref schemas visited := by
  intro n
  induction n with
  | zero =>
    intro f1 f2 ref schemas visited hcnt h1 h2
    obtain ⟨a, rfl⟩ : ∃ a, f1 = a + 1 := ⟨f1 - 1, by omega⟩
    obtain ⟨b, rfl⟩ : ∃ b, f2 = b + 1 := ⟨f2 - 1, by omega⟩
    simp only [resolveSchemaF]
    by_cases hv : visited.contains (stripSchemaPrefix ref) = true
    · rw [if_pos hv, if_pos hv]
    · rw [if_neg hv, if_neg hv]
      cases hlk : schemas.find? (fun p => p.1 == stripSchemaPrefix ref) with
      | none => rfl
      | some e =>
        dsimp only [Option.map]
        cases hrv : SchemaObj.refVal e.2 with
        | none => rfl
        | some r =>
          exfalso
          have hmem : e ∈ schemas := List.mem_of_find?_eq_some hlk
          have hpred0 := List.find?_some hlk
          have hpred : (e.1 == stripSchemaPrefix ref) = true := hpred0
          have he1 : e.1 = stripSchemaPrefix ref := eq_of_beq hpred
          have hfilt : e ∈ schemas.filter
              (fun p => !(visited.contains p.1)) := by
            refine List.mem_filter.mpr ⟨hmem, ?_⟩
            rw [he1]
            simp only [Bool.not_eq_true']
            exact Bool.not_eq_true _ ▸ eq_false_of_ne_true hv
          have := List.length_pos_of_mem hfilt
          omega
  | succ k ih =>
    intro f1 f2 ref schemas visited hcnt h1 h2
    obtain ⟨a, rfl⟩ : ∃ a, f1 = a + 1 := ⟨f1 - 1, by omega⟩
    obtain ⟨b, rfl⟩ : ∃ b, f2 = b + 1 := ⟨f2 - 1, by omega⟩
    simp only [resolveSchemaF]
    by_cases hv : visited.contains (stripSchemaPrefix ref) = true
    · rw [if_pos hv, if_pos hv]
    · rw [if_neg hv, if_neg hv]
      cases hlk : schemas.find? (fun p => p.1 == stripSchemaPrefix ref) with
      | none => rfl
      | some e =>
        dsimp only [Option.map]
        cases hrv : SchemaObj.refVal e.2 with
        | none => rfl
        | some r =>
          have hmem : e ∈ schemas := List.mem_of_find?_eq_some hlk
          have hpred0 := List.find?_some hlk
          have hpred : (e.1 == stripSchemaPrefix ref) = true := hpred0
          have he1 : e.1 = stripSchemaPrefix ref := eq_of_beq hpred
          have himp : ∀ x ∈ schemas,
              (!((stripSchemaPrefix ref :: visited).contains x.1)) = true →
              (!(visited.contains x.1)) = true := by
            intro x _ hx
            simp only [Bool.not_eq_true', List.contains_cons,
              Bool.or_eq_false_iff] at hx ⊢
            exact hx.2
          have hpa : (!(visited.contains e.1)) = true := by
            rw [he1]
            simp only [Bool.not_eq_true']
            exact Bool.not_eq_true _ ▸ eq_false_of_ne_true hv
          have hqa : (!((stripSchemaPrefix ref :: visited).contains e.1))
              = false := by
            rw [he1]
            simp [List.contains_cons]
          have hlt := filter_length_lt schemas himp e hmem hpa hqa
          exact ih a b r schemas (stripSchemaPrefix ref :: visited)
            (by omega) (by omega) (by omega)

/-- A two-schema table whose `$ref`s form a cycle: `A → B → A`. -/
def cycSchemas : List (Str × SchemaObj) :=
  [("A".data, SchemaObj.mk TypeF.missing none none none [] none none none
      none (some "#/components/schemas/B".data) none [] false none none
      none),
   ("B".data, SchemaObj.mk TypeF.missing none none none [] none none none
      none (some "#/components/schemas/A".data) none [] false none none
      none)]

/-- The `A` entry of the cyclic table. -/
def cycA : SchemaObj :=
  SchemaObj.mk TypeF.missing none none none [] none none none none
    (some "#/components/schemas/B".data) none [] false none none none

/-- C8: schema resolution and example generation cannot recurse unboundedly.
A reference whose name was already visited resolves to `null`; the
`resolveSchema` recursion is stable in its fuel beyond the number of
unvisited table entries (each step consumes a distinct unvisited key, the
code's termination argument); `generateExample` and
`formatSchemaProperties` return `null` / `''` at every depth above 3; and
on a concrete mutually cyclic `A → B → A` table, resolution returns `none`
at every fuel and example generation yields a plain `null`. -/
theorem C8_cycle_safety :
    (∀ ref schemas visited,
      visited.contains (stripSchemaPrefix ref) = true →
      resolveSchema ref schemas visited = none) ∧
    (∀ n f1 f2 ref schemas visited,
      (schemas.filter (fun p => !(visited.contains p.1))).length ≤ n →
      n < f1 → n < f2 →
      resolveSchemaF f1 ref schemas visited =
        resolveSchemaF f2 ref schemas visited) ∧
    (∀ schemas os depth fieldName, depth > 3 →
      generateExample os schemas depth fieldName = Ex.null) ∧
    (∀ os schemas indent depth, depth > 3 →
      formatSchemaProperties os schemas indent depth = []) ∧
    (∀ fuel, resolveSchemaF fuel "#/components/schemas/A".data cycSchemas []
      = none) ∧
    generateExample (some cycA) cycSchemas 0 none = Ex.null := by
  refine ⟨?_, resolveSchemaF_stable, ?_, ?_, ?_, ?_⟩
  · intro ref schemas visited h
    unfold resolveSchema
    simp only [resolveSchemaF]
    rw [if_pos h]
  · intro schemas os depth fieldName h
    unfold generateExample
    cases os with
    | none => rfl
    | some schema =>
      simp only [genExF]
      rw [if_pos h]
  · intro os schemas indent depth h
    unfold formatSchemaProperties
    cases os with
    | none => rfl
    | some schema =>
      simp only [fsPF]
      rw [if_pos h]
  · intro fuel
    cases fuel with
    | zero => rfl
    | succ f1 =>
      cases f1 with
      | zero => rfl
      | succ f2 =>
        cases f2 with
        | zero => rfl
        | succ n => rfl
  · rfl

theorem C8_cycle_safety_witness :
    resolveSchema "#/components/schemas/A".data cycSchemas ["A".data]
      = none ∧
    resolveSchemaF 5 "#/components/schemas/A".data cycSchemas [] =
      resolveSchemaF 9 "#/components/schemas/A".data cycSchemas [] ∧
    generateExample none cycSchemas 7 none = Ex.null ∧
    formatSchemaProperties none cycSchemas [] 9 = [] ∧
    resolveSchemaF 3 "#/components/schemas/A".data cycSchemas [] = none :=
  ⟨C8_cycle_safety.1 _ _ _ (by decide),
   C8_cycle_safety.2.1 2 5 9 "#/components/schemas/A".data cycSchemas []
     (by decide) (by decide) (by decide),
   C8_cycle_safety.2.2.1 cycSchemas none 7 none (by decide),
   C8_cycle_safety.2.2.2.1 none cycSchemas [] 9 (by decide),
   C8_cycle_safety.2.2.2.2.1 3⟩


theorem getSectionSize_self (s : Section) :
    getSectionSize s = s.content.length + getSectionSizeList s.children := by
  cases s with
  | mk h l c cs => rfl

theorem flushBatch_length_pos {batch : List Section} {bc : List Str}
    (h : batch ≠ []) : (flushBatch batch bc).length = 1 := by
  match batch with
  | [] => exact absurd rfl h
  | [b] => rfl
  | a :: b :: rest => rfl

/-- Any section the merger reaches with at least `minChunkSize` total
content emits at least one `FlatSection`; a child loop with work left
always flushes at least one. -/
theorem emit_pos :
    ∀ n : Nat,
      (∀ cfg (s : Section) bc, sectionFuel s ≤ n →
        cfg.minChunkSize ≤ cfg.maxChunkSize →
        cfg.minChunkSize ≤ getSectionSize s →
        1 ≤ (processSection cfg s bc).length) ∧
      (∀ cfg bc (cs : List Section) batch bsize, sectionFuelList cs ≤ n →
        cfg.minChunkSize ≤ cfg.maxChunkSize →
        (cs ≠ [] ∨ batch ≠ []) →
        1 ≤ (processChildren cfg bc cs batch bsize).length) := by
  intro n
  induction n with
  | zero =>
    constructor
    · intro cfg s bc h1 _ _
      have := sectionFuel_pos s
      omega
    · intro cfg bc cs batch bsize h1 _ _
      have := sectionFuelList_pos cs
      omega
  | succ n ih =>
    constructor
    · intro cfg s bc hfuel hcfg hsize
      rw [processSection_eq]
      dsimp only
      by_cases h1 : s.content.length ≥ cfg.minChunkSize ∧ s.children = []
      · rw [if_pos h1]
        simp
      · rw [if_neg h1]
        by_cases h2 : getSectionSize s ≤ cfg.maxChunkSize ∧
            getSectionSize s ≥ cfg.minChunkSize
        · rw [if_pos h2]
          simp
        · rw [if_neg h2]
          by_cases h3 : getSectionSize s > cfg.maxChunkSize
          · rw [if_pos h3]
            have hcs : s.children ≠ [] := by
              intro hnil
              have hlt : s.content.length < cfg.minChunkSize := by
                by_contra hge
                exact h1 ⟨by omega, hnil⟩
              have hgs := getSectionSize_self s
              rw [hnil] at hgs
              simp only [getSectionSizeList] at hgs
              omega
            have hrec := ih.2 cfg
              (if s.heading ≠ [] then bc ++ [s.heading] else bc)
              s.children [] 0
              (by have := sectionFuel_children_lt s; omega) hcfg
              (Or.inl hcs)
            simp only [List.length_append]
            omega
          · exfalso
            omega
    · intro cfg bc cs batch bsize hfuel hcfg hwork
      rw [processChildren_eq]
      cases cs with
      | nil =>
        have hb : batch ≠ [] := by
          rcases hwork with h | h
          · exact absurd rfl h
          · exact h
        rw [flushBatch_length_pos hb]
      | cons c rest =>
        dsimp only
        simp only [sectionFuelList] at hfuel
        by_cases h1 : getSectionSize c ≥ cfg.minChunkSize
        · rw [if_pos h1]
          have hrec := ih.1 cfg c bc (by omega) hcfg h1
          simp only [List.length_append]
          omega
        · rw [if_neg h1]
          by_cases h2 : bsize + getSectionSize c ≤ cfg.idealChunkSize
          · rw [if_pos h2]
            exact ih.2 cfg bc rest (batch ++ [c]) (bsize + getSectionSize c)
              (by omega) hcfg (Or.inr (by simp))
          · rw [if_neg h2]
            have hrec := ih.2 cfg bc rest [c] (getSectionSize c)
              (by omega) hcfg (Or.inr (by simp))
            simp only [List.length_append]
            omega

/-- Raising `maxChunkSize` (holding `minChunkSize` and `idealChunkSize`)
never increases the number of sections a merge emits. -/
theorem emit_antitone :
    ∀ n : Nat,
      (∀ cfg1 cfg2 (s : Section) bc, sectionFuel s ≤ n →
        cfg1.minChunkSize = cfg2.minChunkSize →
        cfg1.idealChunkSize = cfg2.idealChunkSize →
        cfg1.maxChunkSize ≤ cfg2.maxChunkSize →
        cfg1.minChunkSize ≤ cfg1.maxChunkSize →
        (processSection cfg2 s bc).length ≤
          (processSection cfg1 s bc).length) ∧
      (∀ cfg1 cfg2 bc (cs : List Section) batch bsize,
        sectionFuelList cs ≤ n →
        cfg1.minChunkSize = cfg2.minChunkSize →
        cfg1.idealChunkSize = cfg2.idealChunkSize →
        cfg1.maxChunkSize ≤ cfg2.maxChunkSize →
        cfg1.minChunkSize ≤ cfg1.maxChunkSize →
        (processChildren cfg2 bc cs batch bsize).length ≤
          (processChildren cfg1 bc cs batch bsize).length) := by
  intro n
  induction n with
  | zero =>
    constructor
    · intro cfg1 cfg2 s bc h1 _ _ _ _
      have := sectionFuel_pos s
      omega
    · intro cfg1 cfg2 bc cs batch bsize h1 _ _ _ _
      have := sectionFuelList_pos cs
      omega
  | succ n ih =>
    constructor
    · intro cfg1 cfg2 s bc hfuel hmin hideal hmax hcfg
      rw [processSection_eq cfg1, processSection_eq cfg2]
      dsimp only
      by_cases h1 : s.content.length ≥ cfg1.minChunkSize ∧ s.children = []
      · rw [if_pos h1, if_pos (by rw [← hmin]; exact h1)]
      · rw [if_neg h1, if_neg (by rw [← hmin]; exact h1)]
        by_cases h2 : getSectionSize s ≤ cfg1.maxChunkSize ∧
            getSectionSize s ≥ cfg1.minChunkSize
        · rw [if_pos h2, if_pos ⟨le_trans h2.1 hmax, by rw [← hmin]; exact h2.2⟩]
        · rw [if_neg h2]
          by_cases h3 : getSectionSize s > cfg1.maxChunkSize
          · rw [if_pos h3]
            by_cases h4 : getSectionSize s > cfg2.maxChunkSize
            · rw [if_neg (show ¬ (getSectionSize s ≤ cfg2.maxChunkSize ∧
                  getSectionSize s ≥ cfg2.minChunkSize) by intro hc; omega),
                if_pos h4]
              have hrec := ih.2 cfg1 cfg2
                (if s.heading ≠ [] then bc ++ [s.heading] else bc)
                s.children [] 0
                (by have := sectionFuel_children_lt s; omega)
                hmin hideal hmax hcfg
              simp only [List.length_append]
              have hind : (if 2 * s.content.length ≥ cfg2.minChunkSize then
                  [(⟨s.heading, s.level, s.content, bc⟩ : FlatSection)]
                  else []).length =
                (if 2 * s.content.length ≥ cfg1.minChunkSize then
                  [(⟨s.heading, s.level, s.content, bc⟩ : FlatSection)]
                  else []).length := by
                rw [hmin]
              omega
            · have h5 : getSectionSize s ≤ cfg2.maxChunkSize ∧
                  getSectionSize s ≥ cfg2.minChunkSize := by
                constructor
                · omega
                · rw [← hmin]; omega
              rw [if_pos h5]
              have hpos := (emit_pos (sectionFuel s)).1 cfg1 s bc le_rfl hcfg
                (by omega)
              rw [processSection_eq cfg1] at hpos
              dsimp only at hpos
              rw [if_neg h1, if_neg h2, if_pos h3] at hpos
              simpa using hpos
          · rw [if_neg h3]
            have h6 : ¬ (getSectionSize s ≤ cfg2.maxChunkSize ∧
                getSectionSize s ≥ cfg2.minChunkSize) := by
              rw [← hmin]
              omega
            rw [if_neg h6]
            have h7 : ¬ getSectionSize s > cfg2.maxChunkSize := by omega
            rw [if_neg h7]
    · intro cfg1 cfg2 bc cs batch bsize hfuel hmin hideal hmax hcfg
      rw [processChildren_eq cfg1, processChildren_eq cfg2]
      cases cs with
      | nil => exact le_rfl
      | cons c rest =>
        dsimp only
        simp only [sectionFuelList] at hfuel
        by_cases h1 : getSectionSize c ≥ cfg1.minChunkSize
        · rw [if_pos h1, if_pos (by rw [← hmin]; exact h1)]
          have hs := ih.1 cfg1 cfg2 c bc (by omega) hmin hideal hmax hcfg
          have hr := ih.2 cfg1 cfg2 bc rest [] 0 (by omega)
            hmin hideal hmax hcfg
          simp only [List.length_append]
          omega
        · rw [if_neg h1, if_neg (by rw [← hmin]; exact h1)]
          by_cases h2 : bsize + getSectionSize c ≤ cfg1.idealChunkSize
          · rw [if_pos h2, if_pos (by rw [← hideal]; exact h2)]
            exact ih.2 cfg1 cfg2 bc rest (batch ++ [c])
              (bsize + getSectionSize c) (by omega) hmin hideal hmax hcfg
          · rw [if_neg h2, if_neg (by rw [← hideal]; exact h2)]
            have hr := ih.2 cfg1 cfg2 bc rest [c] (getSectionSize c)
              (by omega) hmin hideal hmax hcfg
            simp only [List.length_append]
            omega

/-- C9 (amended): the hierarchical merge on its own is antitone in
`maxChunkSize` — with `minChunkSize` and `idealChunkSize` fixed and
`minChunkSize ≤ maxChunkSize`, a larger `maxChunkSize` yields at most as
many merged sections. The full pipeline is not (see the counterexample):
`splitLargeFlatSection` drops sub-`minChunkSize` fragments, so a larger
cap can surface content that a smaller cap would have split away. -/
theorem C9_merge_antitone (cfg1 cfg2 : ChunkConfig) (secs : List Section)
    (hmin : cfg1.minChunkSize = cfg2.minChunkSize)
    (hideal : cfg1.idealChunkSize = cfg2.idealChunkSize)
    (hmax : cfg1.maxChunkSize ≤ cfg2.maxChunkSize)
    (hcfg : cfg1.minChunkSize ≤ cfg1.maxChunkSize) :
    (mergeHierarchicalSections secs cfg2).length ≤
      (mergeHierarchicalSections secs cfg1).length := by
  unfold mergeHierarchicalSections
  induction secs with
  | nil => simp
  | cons s rest ih =>
    simp only [List.flatMap_cons, List.length_append]
    have hs := (emit_antitone (sectionFuel s)).1 cfg1 cfg2 s [] le_rfl
      hmin hideal hmax hcfg
    omega

theorem C9_merge_antitone_witness :
    (mergeHierarchicalSections treeC4 ⟨40, 10, 20⟩).length ≤
      (mergeHierarchicalSections treeC4 cfgC4).length :=
  C9_merge_antitone cfgC4 ⟨40, 10, 20⟩ treeC4 rfl rfl (by decide) (by decide)


/-! ### C5: the section tree builder against the spec's nesting description

The spec describes the tree as: each heading of level `N` becomes a child
of the nearest preceding heading of level `< N`, siblings in order, no
synthetic nodes. Equivalently, each new heading is inserted along the
rightmost spine of the forest built so far: it descends while the last
node's level is below the new one, and is appended there. `specInsert` /
`specForest` formalise that description (spec-side); `parseIntoTree` is
the source-side stack machine. -/

theorem sectionFuel_le_of_mem :
    ∀ {cs : List Section} {s : Section}, s ∈ cs →
      sectionFuel s < sectionFuelList cs := by
  intro cs
  induction cs with
  | nil => intro s h; cases h
  | cons c rest ih =>
    intro s h
    rcases List.mem_cons.mp h with rfl | h
    · simp only [sectionFuelList]
      have := sectionFuelList_pos rest
      omega
    · have := ih h
      simp only [sectionFuelList]
      omega

/-- Fuel-indexed rightmost-spine insertion (see `specInsert_eq`). -/
def specInsertF : Nat → List Section → Section → List Section
  | 0, forest, n => forest ++ [n]
  | fuel + 1, forest, n =>
    match forest.getLast? with
    | none => [n]
    | some last =>
      if last.level < n.level then
        forest.dropLast ++
          [.mk last.heading last.level last.content
            (specInsertF fuel last.children n)]
      else forest ++ [n]

/-- Insert a new section along the rightmost spine of the forest: descend
while the last node's level is strictly below the new section's, then
append — the spec's "child of the nearest preceding heading of lower
level", with no synthetic intermediate nodes. -/
def specInsert (forest : List Section) (n : Section) : List Section :=
  specInsertF (sectionFuelList forest) forest n

theorem specInsertF_congr :
    ∀ f1 f2 forest n, sectionFuelList forest ≤ f1 →
      sectionFuelList forest ≤ f2 →
      specInsertF f1 forest n = specInsertF f2 forest n := by
  intro f1
  induction f1 with
  | zero =>
    intro f2 forest n h1 h2
    have := sectionFuelList_pos forest
    omega
  | succ m ih =>
    intro f2 forest n h1 h2
    cases f2 with
    | zero =>
      have := sectionFuelList_pos forest
      omega
    | succ k =>
      simp only [specInsertF]
      cases hl : forest.getLast? with
      | none => rfl
      | some last =>
        dsimp only
        have hmem : last ∈ forest := List.mem_of_mem_getLast? hl
        have hflt := sectionFuel_le_of_mem hmem
        have hch : sectionFuelList last.children < sectionFuel last := by
          have := sectionFuel_children_lt last
          omega
        rw [ih k last.children n (by omega) (by omega)]

theorem specInsert_eq (forest : List Section) (n : Section) :
    specInsert forest n =
      match forest.getLast? with
      | none => [n]
      | some last =>
        if last.level < n.level then
          forest.dropLast ++
            [.mk last.heading last.level last.content
              (specInsert last.children n)]
        else forest ++ [n] := by
  show specInsertF (sectionFuelList forest) forest n = _
  have hp := sectionFuelList_pos forest
  cases hf : sectionFuelList forest with
  | zero => omega
  | succ m =>
    simp only [specInsertF]
    cases hl : forest.getLast? with
    | none => rfl
    | some last =>
      dsimp only
      have hmem : last ∈ forest := List.mem_of_mem_getLast? hl
      have hflt := sectionFuel_le_of_mem hmem
      have hch : sectionFuelList last.children < sectionFuel last := by
        have := sectionFuel_children_lt last
        omega
      rw [specInsertF_congr m (sectionFuelList last.children)
        last.children n (by omega) le_rfl]
      rfl

/-- The forest the spec's description assigns to a heading sequence. -/
def specForest (events : List Section) : List Section :=
  events.foldl specInsert []

/-- The spec-side line scan: the heading leaves in document order, each
carrying its trimmed following text, plus the pre-first-heading lines. -/
structure FlatScan where
  events : List Section
  cur : List Str
  intro : List Str
  saw : Bool

/-- Assign accumulated text to the most recent heading leaf. -/
def assignLast : List Section → Str → List Section
  | [], _ => []
  | [x], c => [.mk x.heading x.level c x.children]
  | e :: rest, c => e :: assignLast rest c

def flatStep (st : FlatScan) (line : Str) : FlatScan :=
  match headingMatch line with
  | some (lvl, text) =>
    { events := assignLast st.events (trimStr (joinLines st.cur)) ++
        [.mk text lvl [] []],
      cur := [],
      intro := st.intro,
      saw := true }
  | none =>
    if st.saw then { st with cur := st.cur ++ [line] }
    else { st with intro := st.intro ++ [line] }

def specScan (content : Str) : FlatScan :=
  (splitLines content).foldl flatStep ⟨[], [], [], false⟩

/-- Close a section against the still-open frames below it: each frame
adopts it as its new last child. -/
def wrapS : Section → List Frame → Section
  | T, [] => T
  | T, g :: r2 =>
    wrapS (.mk g.heading g.level g.content (g.children ++ [T])) r2

/-- Stack frames carry strictly decreasing levels from the top down. -/
def stackLevelsOK : List Frame → Prop
  | [] => True
  | [_] => True
  | f :: g :: r => g.level < f.level ∧ stackLevelsOK (g :: r)

/-- The top frame has no children yet (it is the most recent heading). -/
def topEmpty : List Frame → Prop
  | [] => True
  | f :: _ => f.children = []

/-- The top frame's last child, if any, sits at level `≥ lvl`. -/
def topBound (stack : List Frame) (lvl : Nat) : Prop :=
  match stack with
  | [] => True
  | f :: _ =>
    match f.children.getLast? with
    | none => True
    | some c => lvl ≤ c.level

theorem assignLast_append (A : List Section) (x : Section) (c : Str) :
    assignLast (A ++ [x]) c =
      A ++ [.mk x.heading x.level c x.children] := by
  induction A with
  | nil => rfl
  | cons a rest ih =>
    cases rest with
    | nil => rfl
    | cons b bs =>
      show a :: assignLast ((b :: bs) ++ [x]) c =
        (a :: b :: bs) ++ [Section.mk x.heading x.level c x.children]
      rw [ih]
      rfl

theorem specForest_append (events : List Section) (n : Section) :
    specForest (events ++ [n]) = specInsert (specForest events) n := by
  unfold specForest
  rw [List.foldl_append]
  rfl

theorem specInsert_ne_nil (forest : List Section) (n : Section) :
    specInsert forest n ≠ [] := by
  rw [specInsert_eq]
  cases hl : forest.getLast? with
  | none => simp
  | some last =>
    dsimp only
    by_cases h : last.level < n.level
    · rw [if_pos h]
      simp
    · rw [if_neg h]
      simp

theorem specInsert_append_front (A B : List Section) (n : Section)
    (hB : B ≠ []) : specInsert (A ++ B) n = A ++ specInsert B n := by
  rw [specInsert_eq, specInsert_eq]
  rw [List.getLast?_append_of_ne_nil A hB]
  cases hl : B.getLast? with
  | none =>
    exfalso
    cases B with
    | nil => exact hB rfl
    | cons b bs => rw [List.getLast?_eq_getLast _ (by simp)] at hl; cases hl
  | some last =>
    dsimp only
    by_cases h : last.level < n.level
    · rw [if_pos h, if_pos h]
      have hdl : (A ++ B).dropLast = A ++ B.dropLast := by
        rw [List.dropLast_append_of_ne_nil _ hB]
      rw [hdl, List.append_assoc]
    · rw [if_neg h, if_neg h]
      simp


theorem popAttachF_root_append :
    ∀ (fuel : Nat) (root : List Section) (stack : List Frame) (lvl : Nat),
      popAttachF fuel root stack lvl =
        (root ++ (popAttachF fuel [] stack lvl).1,
         (popAttachF fuel [] stack lvl).2) := by
  intro fuel
  induction fuel with
  | zero => intro root stack lvl; simp [popAttachF]
  | succ m ih =>
    intro root stack lvl
    simp only [popAttachF]
    cases stack with
    | nil => simp
    | cons f rest =>
      dsimp only
      by_cases h : lvl ≤ f.level
      · rw [if_pos h, if_pos h]
        cases rest with
        | nil => simp
        | cons g rest2 =>
          dsimp only
          rw [ih root, ih []]
      · rw [if_neg h, if_neg h]
        simp

theorem popAttach_root_append (root : List Section) (stack : List Frame)
    (lvl : Nat) :
    popAttach root stack lvl =
      (root ++ (popAttach [] stack lvl).1, (popAttach [] stack lvl).2) := by
  unfold popAttach
  exact popAttachF_root_append stack.length root stack lvl

/-- Closing a nonempty stack at level 0 wraps the top section into each
frame below it, yielding one completed root section. -/
theorem close_of_stack :
    ∀ (rest : List Frame) (f : Frame),
      popAttach [] (f :: rest) 0 = ([wrapS f.toSection rest], []) := by
  intro rest
  induction rest with
  | nil =>
    intro f
    rw [popAttach_eq]
    dsimp only
    rw [if_pos (Nat.zero_le _)]
    rfl
  | cons g rest2 ih =>
    intro f
    rw [popAttach_eq]
    dsimp only
    rw [if_pos (Nat.zero_le _)]
    rw [ih]
    rfl

theorem wrapS_append (T : Section) :
    ∀ (xs : List Frame) (b : Frame),
      wrapS T (xs ++ [b]) =
        .mk b.heading b.level b.content (b.children ++ [wrapS T xs]) := by
  intro xs
  induction xs generalizing T with
  | nil => intro b; rfl
  | cons g r2 ih =>
    intro b
    show wrapS (.mk g.heading g.level g.content (g.children ++ [T]))
      (r2 ++ [b]) = _
    rw [ih]
    rfl

/-- When the last node (if any) of the target list sits at level `≥` the
new node's, the insertion is a plain append. -/
theorem specInsert_no_descend {ch : List Section} {n : Section}
    (h : match ch.getLast? with
         | none => True
         | some c => n.level ≤ c.level) :
    specInsert ch n = ch ++ [n] := by
  rw [specInsert_eq]
  cases hl : ch.getLast? with
  | none =>
    cases ch with
    | nil => rfl
    | cons a l =>
      rw [List.getLast?_eq_getLast _ (by simp)] at hl
      cases hl
  | some c =>
    rw [hl] at h
    dsimp only
    rw [if_neg (by omega)]

/-- Descending the rightmost spine: inserting a higher-level node into the
wrap of `f` under frames of still lower levels appends it to `f`'s
children. -/
theorem spine_insert :
    ∀ (rest : List Frame) (f : Frame) (n : Section),
      f.level < n.level →
      (∀ g ∈ rest, g.level < n.level) →
      (match f.children.getLast? with
       | none => True
       | some c => n.level ≤ c.level) →
      specInsert [wrapS f.toSection rest] n =
        [wrapS (.mk f.heading f.level f.content (f.children ++ [n])) rest] := by
  intro rest
  induction rest using List.reverseRecOn with
  | nil =>
    intro f n hf _ hch
    show specInsert [f.toSection] n = [.mk f.heading f.level f.content
      (f.children ++ [n])]
    rw [specInsert_eq]
    have hl : [f.toSection].getLast? = some f.toSection := by simp
    rw [hl]
    dsimp only
    have hlev : (Frame.toSection f).level = f.level := rfl
    rw [if_pos (by rw [hlev]; exact hf)]
    have hch2 : (Frame.toSection f).children = f.children := rfl
    rw [hch2, specInsert_no_descend hch]
    rfl
  | append_singleton xs b ih =>
    intro f n hf hrest hch
    rw [wrapS_append, wrapS_append]
    rw [specInsert_eq]
    have hl : [(Section.mk b.heading b.level b.content
        (b.children ++ [wrapS f.toSection xs]))].getLast? =
        some (Section.mk b.heading b.level b.content
          (b.children ++ [wrapS f.toSection xs])) := by simp
    rw [hl]
    dsimp only
    have hb : b.level < n.level := hrest b (by simp)
    rw [if_pos (show (Section.mk b.heading b.level b.content
      (b.children ++ [wrapS f.toSection xs])).level < n.level from hb)]
    have hproj : (Section.mk b.heading b.level b.content
        (b.children ++ [wrapS f.toSection xs])).children =
        b.children ++ [wrapS f.toSection xs] := rfl
    rw [hproj]
    rw [specInsert_append_front b.children [wrapS f.toSection xs] n
      (by simp)]
    rw [ih f n hf (fun g hg => hrest g (by simp [hg])) hch]
    rfl

/-- State of the remaining stack after the pop loop: levels still strictly
decrease and the new top sits strictly below the incoming level. -/
def stackBelow : List Frame → Nat → Prop
  | [], _ => True
  | g :: _, lvl => g.level < lvl

theorem stackLevelsOK_tail {f : Frame} {rest : List Frame}
    (h : stackLevelsOK (f :: rest)) : stackLevelsOK rest := by
  cases rest with
  | nil => trivial
  | cons g r2 => exact h.2

theorem stackLevels_below {f : Frame} :
    ∀ {rest : List Frame}, stackLevelsOK (f :: rest) →
      ∀ g ∈ rest, g.level < f.level := by
  intro rest
  induction rest generalizing f with
  | nil => intro _ g hg; cases hg
  | cons g r2 ih =>
    intro h x hx
    rcases List.mem_cons.mp hx with rfl | hx
    · exact h.1
    · have := ih h.2 x hx
      have := h.1
      omega

theorem pop_props :
    ∀ (N : Nat) (stack : List Frame) (lvl : Nat), stack.length ≤ N →
      stackLevelsOK stack →
      stackLevelsOK ((popAttach [] stack lvl).2) ∧
      stackBelow ((popAttach [] stack lvl).2) lvl := by
  intro N
  induction N with
  | zero =>
    intro stack lvl hlen hok
    have : stack = [] := List.eq_nil_of_length_eq_zero (by omega)
    subst this
    rw [popAttach_eq]
    exact ⟨trivial, trivial⟩
  | succ m ih =>
    intro stack lvl hlen hok
    rw [popAttach_eq]
    cases stack with
    | nil => exact ⟨trivial, trivial⟩
    | cons f rest =>
      dsimp only
      by_cases h : lvl ≤ f.level
      · rw [if_pos h]
        cases rest with
        | nil => exact ⟨trivial, trivial⟩
        | cons g rest2 =>
          dsimp only
          have hok2 : stackLevelsOK
              ({ g with children := g.children ++ [f.toSection] } :: rest2) := by
            cases rest2 with
            | nil => trivial
            | cons k r3 => exact ⟨(stackLevelsOK_tail hok).1,
                (stackLevelsOK_tail hok).2⟩
          exact ih _ lvl (by simp at hlen ⊢; omega) hok2
      · rw [if_neg h]
        exact ⟨hok, by simp only [stackBelow]; omega⟩

/-- The pop phase of the stack machine agrees with the spec's rightmost
spine insertion: popping the frames of level `≥ lvl`, pushing the new
heading and closing everything produces exactly the spec's insertion into
the closed forest. -/
theorem key_pop :
    ∀ (N : Nat) (stack : List Frame) (lvl : Nat) (text pending : Str),
      stack.length ≤ N →
      stackLevelsOK stack → stack ≠ [] →
      (match stack with
       | [] => True
       | f :: _ =>
         match f.children.getLast? with
         | none => True
         | some c => lvl ≤ c.level) →
      (popAttach [] stack lvl).1 ++
        (popAttach []
          (⟨text, lvl, pending, []⟩ :: (popAttach [] stack lvl).2) 0).1 =
      specInsert (popAttach [] stack 0).1 (.mk text lvl pending []) := by
  intro N
  induction N with
  | zero =>
    intro stack lvl text pending hlen hok hne _
    have : stack = [] := List.eq_nil_of_length_eq_zero (by omega)
    exact absurd this hne
  | succ m ih =>
    intro stack lvl text pending hlen hok hne hbnd
    cases stack with
    | nil => exact absurd rfl hne
    | cons f rest =>
      by_cases h : lvl ≤ f.level
      · cases rest with
        | nil =>
          rw [popAttach_eq]
          dsimp only
          rw [if_pos h]
          dsimp only
          rw [close_of_stack, close_of_stack]
          show [f.toSection] ++ [(⟨text, lvl, pending, []⟩ : Frame).toSection]
            = specInsert [f.toSection] (.mk text lvl pending [])
          rw [specInsert_no_descend (by simp [Frame.toSection, Section.level]; omega)]
          rfl
        | cons g rest2 =>
          have hstep : popAttach [] (f :: g :: rest2) lvl =
              popAttach []
                ({ g with children := g.children ++ [f.toSection] } :: rest2)
                lvl := by
            rw [popAttach_eq]
            dsimp only
            rw [if_pos h]
          have hstep0 : popAttach [] (f :: g :: rest2) 0 =
              popAttach []
                ({ g with children := g.children ++ [f.toSection] } :: rest2)
                0 := by
            rw [popAttach_eq]
            dsimp only
            rw [if_pos (Nat.zero_le _)]
          rw [hstep, hstep0]
          have hok2 : stackLevelsOK
              ({ g with children := g.children ++ [f.toSection] } :: rest2) := by
            cases rest2 with
            | nil => trivial
            | cons k r3 => exact ⟨(stackLevelsOK_tail hok).1,
                (stackLevelsOK_tail hok).2⟩
          refine ih _ lvl text pending (by simp at hlen ⊢; omega) hok2
            (by simp) ?_
          dsimp only
          rw [List.getLast?_append_of_ne_nil g.children (by simp)]
          simp only [List.getLast?_singleton]
          show lvl ≤ (Frame.toSection f).level
          exact h
      · rw [popAttach_eq]
        dsimp only
        rw [if_neg h]
        dsimp only
        rw [List.nil_append]
        rw [close_of_stack, close_of_stack]
        show [wrapS (Frame.toSection ⟨text, lvl, pending, []⟩) (f :: rest)] = _
        have hw : wrapS (Frame.toSection ⟨text, lvl, pending, []⟩) (f :: rest)
            = wrapS (.mk f.heading f.level f.content
                (f.children ++ [Section.mk text lvl pending []])) rest := rfl
        rw [hw]
        rw [spine_insert rest f (.mk text lvl pending []) (by
            show f.level < lvl
            omega)
          (fun g hg => by
            have := stackLevels_below hok g hg
            show g.level < lvl
            omega)
          hbnd]

/-- The `Introduction` root the spec scan implies, if any. -/
def introOf (sts : FlatScan) : List Section :=
  if sts.saw = true ∧ sts.intro ≠ [] ∧
      (trimStr (joinLines sts.intro)).length > 50 then
    [.mk introHeading 0 (trimStr (joinLines sts.intro)) []]
  else []

theorem assignLast_ne_nil {es : List Section} (h : es ≠ []) (c : Str) :
    assignLast es c ≠ [] := by
  cases es with
  | nil => exact absurd rfl h
  | cons e rest =>
    cases rest with
    | nil => simp [assignLast]
    | cons f r2 => simp [assignLast]

theorem specForest_foldl_ne_nil :
    ∀ (es : List Section) (acc : List Section), acc ≠ [] ∨ es ≠ [] →
      es.foldl specInsert acc ≠ [] := by
  intro es
  induction es with
  | nil =>
    intro acc h
    rcases h with h | h
    · exact h
    · exact absurd rfl h
  | cons e rest ih =>
    intro acc _
    exact ih (specInsert acc e) (Or.inl (specInsert_ne_nil acc e))

theorem specForest_ne_nil {es : List Section} (h : es ≠ []) :
    specForest es ≠ [] :=
  specForest_foldl_ne_nil es [] (Or.inr h)

theorem setTopContent_ne_nil {stack : List Frame} (h : stack ≠ [])
    (c : Str) : setTopContent stack c ≠ [] := by
  cases stack with
  | nil => exact absurd rfl h
  | cons f rest => simp [setTopContent]

theorem stackLevelsOK_setTop {stack : List Frame} (h : stackLevelsOK stack)
    (c : Str) : stackLevelsOK (setTopContent stack c) := by
  cases stack with
  | nil => trivial
  | cons f rest =>
    cases rest with
    | nil => trivial
    | cons g r2 => exact ⟨h.1, h.2⟩

theorem topBound_of_topEmpty {stack : List Frame} (h : topEmpty stack)
    (c : Str) (lvl : Nat) :
    (match setTopContent stack c with
     | [] => True
     | f :: _ =>
       match f.children.getLast? with
       | none => True
       | some x => lvl ≤ x.level) := by
  cases stack with
  | nil => trivial
  | cons f rest =>
    show (match ({ f with content := c } : Frame).children.getLast? with
      | none => True
      | some x => lvl ≤ x.level)
    have hfe : ({ f with content := c } : Frame).children = [] := h
    rw [hfe]
    trivial

/-- The loop invariant tying the stack machine to the spec scan: scalars
agree, the stack is well-formed, and closing the machine at any pending
text yields the intro roots followed by the spec forest of the events with
that pending text on the last heading. -/
def INV (stm : TreeState) (sts : FlatScan) : Prop :=
  stm.cur = sts.cur ∧ stm.intro = sts.intro ∧ stm.saw = sts.saw ∧
  stackLevelsOK stm.stack ∧ topEmpty stm.stack ∧
  (stm.saw = false → stm.root = [] ∧ stm.stack = [] ∧ sts.events = []) ∧
  (stm.saw = true → stm.stack ≠ [] ∧ sts.events ≠ []) ∧
  ∀ pending, (popAttach stm.root (setTopContent stm.stack pending) 0).1 =
    introOf sts ++ specForest (assignLast sts.events pending)

theorem INV_step (stm : TreeState) (sts : FlatScan) (line : Str)
    (h : INV stm sts) : INV (treeStep stm line) (flatStep sts line) := by
  obtain ⟨hcur, hintro, hsaw, hok, htop, hfalse, htrue, heq⟩ := h
  unfold treeStep flatStep
  cases hm : headingMatch line with
  | none =>
    dsimp only
    by_cases hs : stm.saw = true
    · rw [if_pos hs, if_pos (hsaw ▸ hs)]
      exact ⟨by simp [hcur], hintro, hsaw, hok, htop, hfalse, htrue, heq⟩
    · rw [if_neg hs, if_neg (hsaw ▸ hs)]
      refine ⟨hcur, by simp [hintro], hsaw, hok, htop, hfalse, htrue, ?_⟩
      intro pending
      have h0 := heq pending
      have hsf : stm.saw = false := by
        cases hb : stm.saw
        · rfl
        · exact absurd hb hs
      have hssf : sts.saw = false := hsaw ▸ hsf
      have hio : introOf sts = [] := by
        unfold introOf
        rw [if_neg (by rw [hssf]; simp)]
      have hio2 : introOf { sts with intro := sts.intro ++ [line] } = [] := by
        unfold introOf
        rw [if_neg (by rw [show ({ sts with intro := sts.intro ++ [line] }
          : FlatScan).saw = false from hssf]; simp)]
      rw [hio] at h0
      rw [hio2]
      exact h0
  | some p =>
    obtain ⟨lvl, text⟩ := p
    dsimp only
    by_cases hs : stm.saw = true
    · rw [if_neg (by rw [hs]; simp)]
      have hne : stm.stack ≠ [] := (htrue hs).1
      have hev : sts.events ≠ [] := (htrue hs).2
      set c := trimStr (joinLines stm.cur) with hc
      set stack1 := setTopContent stm.stack c with hstack1
      have hok1 : stackLevelsOK stack1 := stackLevelsOK_setTop hok c
      have hne1 : stack1 ≠ [] := setTopContent_ne_nil hne c
      have hpp := pop_props stack1.length stack1 lvl le_rfl hok1
      have hS : (popAttach stm.root stack1 lvl).2 =
          (popAttach [] stack1 lvl).2 := by
        rw [popAttach_root_append]
      refine ⟨rfl, hintro, rfl, ?_, rfl, ?_, ?_, ?_⟩
      · show stackLevelsOK (⟨text, lvl, [], []⟩ ::
          (popAttach stm.root stack1 lvl).2)
        rw [hS]
        cases hrem : (popAttach [] stack1 lvl).2 with
        | nil => trivial
        | cons g r2 =>
          constructor
          · rw [hrem] at hpp
            exact hpp.2
          · rw [hrem] at hpp
            exact hpp.1
      · intro hcontra
        cases hcontra
      · intro _
        constructor
        · simp
        · simp
      · intro pending
        have hbnd := topBound_of_topEmpty htop c lvl
        rw [← hstack1] at hbnd
        have hkey := key_pop stack1.length stack1 lvl text pending le_rfl
          hok1 hne1 hbnd
        have hC : (popAttach stm.root stack1 0).1 =
            stm.root ++ (popAttach [] stack1 0).1 := by
          rw [popAttach_root_append]
        have hCne : (popAttach [] stack1 0).1 ≠ [] := by
          cases hst1 : stack1 with
          | nil => exact absurd hst1 hne1
          | cons f r =>
            rw [close_of_stack]
            simp
        have hFne : specForest (assignLast sts.events c) ≠ [] :=
          specForest_ne_nil (assignLast_ne_nil hev c)
        have hbase : stm.root ++ (popAttach [] stack1 0).1 =
            introOf sts ++ specForest (assignLast sts.events c) := by
          rw [← hC]
          have := heq c
          rw [← hstack1] at this
          exact this
        show (popAttach (popAttach stm.root stack1 lvl).1
          (setTopContent (⟨text, lvl, [], []⟩ ::
            (popAttach stm.root stack1 lvl).2) pending) 0).1 = _
        have hset : setTopContent (⟨text, lvl, [], []⟩ ::
            (popAttach stm.root stack1 lvl).2) pending =
            ⟨text, lvl, pending, []⟩ ::
              (popAttach stm.root stack1 lvl).2 := rfl
        rw [hset, hS]
        rw [popAttach_root_append (popAttach stm.root stack1 lvl).1]
        rw [popAttach_root_append stm.root stack1 lvl]
        show stm.root ++ (popAttach [] stack1 lvl).1 ++
          (popAttach [] (⟨text, lvl, pending, []⟩ ::
            (popAttach [] stack1 lvl).2) 0).1 = _
        rw [List.append_assoc, hkey]
        rw [← specInsert_append_front stm.root _ _ hCne]
        rw [hbase]
        rw [specInsert_append_front _ _ _ hFne]
        have hev' : assignLast (assignLast sts.events
            (trimStr (joinLines sts.cur)) ++ [.mk text lvl [] []]) pending =
            assignLast sts.events (trimStr (joinLines sts.cur)) ++
              [Section.mk text lvl pending []] := by
          rw [assignLast_append]
          rfl
        rw [hev']
        rw [specForest_append]
        have hintroOf : introOf { sts with
            events := assignLast sts.events (trimStr (joinLines sts.cur)) ++
              [.mk text lvl [] []],
            cur := [], saw := true } = introOf sts := by
          unfold introOf
          have hssaw : sts.saw = true := hsaw ▸ hs
          rw [hssaw]
        rw [hintroOf]
        have hcurc : trimStr (joinLines sts.cur) = c := by
          rw [hc, hcur]
        rw [hcurc]
    · -- first heading: the machine pushes the intro root and starts the stack
      have hsf : stm.saw = false := by
        cases hb : stm.saw
        · rfl
        · exact absurd hb hs
      obtain ⟨hroot0, hstack0, hev0⟩ := hfalse hsf
      have hstep : ∀ (R : List Section),
          (R = introOf { sts with
            events := assignLast sts.events (trimStr (joinLines sts.cur)) ++
              [.mk text lvl [] []], cur := [], saw := true }) →
          INV { root := (popAttach R
                  (setTopContent stm.stack (trimStr (joinLines stm.cur)))
                  lvl).1,
                stack := ⟨text, lvl, [], []⟩ :: (popAttach R
                  (setTopContent stm.stack (trimStr (joinLines stm.cur)))
                  lvl).2,
                cur := [], intro := stm.intro, saw := true }
              { events := assignLast sts.events
                  (trimStr (joinLines sts.cur)) ++ [.mk text lvl [] []],
                cur := [], intro := sts.intro, saw := true } := by
        intro R hR
        have hstack1 : setTopContent stm.stack
            (trimStr (joinLines stm.cur)) = [] := by
          rw [hstack0]
          rfl
        rw [hstack1]
        have hpop : popAttach R [] lvl = (R, []) := by rw [popAttach_eq]
        rw [hpop]
        refine ⟨rfl, hintro, rfl, trivial, rfl, ?_, ?_, ?_⟩
        · intro hcontra
          cases hcontra
        · intro _
          exact ⟨by simp, by simp⟩
        · intro pending
          dsimp only
          have hset : setTopContent [(⟨text, lvl, [], []⟩ : Frame)] pending
              = [⟨text, lvl, pending, []⟩] := rfl
          have hpop2 : popAttach R [(⟨text, lvl, pending, []⟩ : Frame)] 0 =
              (R ++ [Section.mk text lvl pending []], []) := by
            rw [popAttach_eq]
            dsimp only
            rw [if_pos (Nat.zero_le _)]
            rfl
          have hA : assignLast sts.events (trimStr (joinLines sts.cur)) =
              [] := by
            rw [hev0]
            rfl
          have hev' : assignLast (assignLast sts.events
              (trimStr (joinLines sts.cur)) ++ [.mk text lvl [] []])
              pending = [Section.mk text lvl pending []] := by
            rw [hA]
            rfl
          show (popAttach R (setTopContent [⟨text, lvl, [], []⟩] pending)
            0).1 = _
          rw [hset, hpop2]
          rw [← hR]
          rw [hev']
          rfl
      by_cases hi : stm.intro ≠ []
      · rw [if_pos ⟨hs, hi⟩]
        refine hstep _ ?_
        unfold introOf
        rw [← hintro]
        by_cases hlong : (trimStr (joinLines stm.intro)).length > 50
        · rw [if_pos hlong, if_pos ⟨rfl, hi, hlong⟩]
          rw [hroot0]
          rfl
        · rw [if_neg hlong, if_neg (fun hcontra => hlong hcontra.2.2)]
          exact hroot0
      · rw [if_neg (fun hcontra => hi hcontra.2)]
        refine hstep _ ?_
        have hie : stm.intro = [] := not_not.mp hi
        unfold introOf
        rw [← hintro, hie]
        rw [if_neg (fun hcontra => hcontra.2.1 rfl)]
        exact hroot0


theorem INV_fold :
    ∀ (lines : List Str) (stm : TreeState) (sts : FlatScan),
      INV stm sts →
      INV (lines.foldl treeStep stm) (lines.foldl flatStep sts) := by
  intro lines
  induction lines with
  | nil => intro stm sts h; exact h
  | cons l rest ih =>
    intro stm sts h
    simp only [List.foldl_cons]
    exact ih _ _ (INV_step stm sts l h)

theorem INV_init : INV ⟨[], [], [], [], false⟩ ⟨[], [], [], false⟩ := by
  refine ⟨rfl, rfl, rfl, trivial, trivial, ?_, ?_, ?_⟩
  · intro _
    exact ⟨rfl, rfl, rfl⟩
  · intro hcontra
    cases hcontra
  · intro pending
    show (popAttach [] (setTopContent [] pending) 0).1 =
      introOf ⟨[], [], [], false⟩ ++ specForest (assignLast [] pending)
    have h1 : setTopContent [] pending = ([] : List Frame) := rfl
    rw [h1, popAttach_eq]
    show ([] : List Section) = introOf ⟨[], [], [], false⟩ ++ []
    unfold introOf
    rw [if_neg (by intro h; cases h.1)]
    rfl

/-- C5: the section tree builder is total — `parseIntoTree` is a plain
function of the input text — and produces exactly the forest the spec
describes: the heading leaves of the document in order, each inserted
along the rightmost spine of the forest built so far, so that a heading of
level `N` becomes the last child of the nearest preceding heading of level
`< N` (sibling order preserved, level skips nest one deeper, no synthetic
nodes), preceded by the over-50-character `Introduction` root when text
precedes the first heading and followed by the `Documentation` root for
heading-free documents. -/
theorem C5_tree_refinement (content : Str) :
    parseIntoTree content =
      introOf (specScan content) ++
      specForest (assignLast (specScan content).events
        (trimStr (joinLines (specScan content).cur))) ++
      (if (specScan content).saw = false ∧ (specScan content).intro ≠ [] ∧
          (trimStr (joinLines (specScan content).intro)).length > 50 then
        [Section.mk "Documentation".data 0
          (trimStr (joinLines (specScan content).intro)) []]
       else []) := by
  unfold parseIntoTree specScan
  have hinv := INV_fold (splitLines content) ⟨[], [], [], [], false⟩
    ⟨[], [], [], false⟩ INV_init
  set stm := (splitLines content).foldl treeStep ⟨[], [], [], [], false⟩
    with hstm
  set sts := (splitLines content).foldl flatStep ⟨[], [], [], false⟩
    with hsts
  obtain ⟨hcur, hintro, hsaw, hok, htop, hfalse, htrue, heq⟩ := hinv
  dsimp only
  have hroot1 := heq (trimStr (joinLines stm.cur))
  rw [hcur] at hroot1
  by_cases hs : stm.saw = true
  · rw [if_neg (by rw [hs]; simp)]
    rw [hcur, hroot1]
    rw [if_neg (by rw [← hsaw, hs]; simp)]
    rw [List.append_nil]
  · have hsf : stm.saw = false := by
      cases hb : stm.saw
      · rfl
      · exact absurd hb hs
    obtain ⟨hroot0, hstack0, hev0⟩ := hfalse hsf
    have hnil : (popAttach stm.root (setTopContent stm.stack
        (trimStr (joinLines sts.cur))) 0).1 = [] := by
      rw [hroot1]
      have hio : introOf sts = [] := by
        unfold introOf
        rw [if_neg (by intro h; rw [← hsaw, hsf] at h; cases h.1)]
      have hforest : specForest (assignLast sts.events
          (trimStr (joinLines sts.cur))) = [] := by
        rw [hev0]
        rfl
      rw [hio, hforest]
      rfl
    have hio : introOf sts = [] := by
      unfold introOf
      rw [if_neg (by intro h; rw [← hsaw, hsf] at h; cases h.1)]
    have hforest : specForest (assignLast sts.events
        (trimStr (joinLines sts.cur))) = [] := by
      rw [hev0]
      rfl
    rw [hcur, hnil, hio, hforest]
    rw [List.nil_append, List.nil_append]
    by_cases hi : stm.intro ≠ []
    · rw [if_pos ⟨hs, hi⟩]
      by_cases hlong : (trimStr (joinLines stm.intro)).length > 50
      · rw [if_pos hlong]
        have hssf : sts.saw = false := by rw [← hsaw]; exact hsf
        rw [if_pos ⟨hssf, by rw [← hintro]; exact hi,
          by rw [← hintro]; exact hlong⟩]
        rw [← hintro]
        rfl
      · rw [if_neg hlong]
        rw [if_neg (by
          intro hcontra
          rw [← hintro] at hcontra
          exact hlong hcontra.2.2)]
        rfl
    · rw [if_neg (fun hcontra => hi hcontra.2)]
      rw [if_neg (by
        intro hcontra
        rw [← hintro] at hcontra
        exact hi hcontra.2.1)]
      rfl

end CtxMCP
